import Mathlib

/-!
The upb handler registry and dispatcher: a shallow embedding of
`upb/handlers.c`.

Conventions of the embedding.

* A pointer to a `upb_mhandlers` is the index of that handler set in the
  registry's `msgs` array (every handler set is allocated by
  `upb_handlers_newmhandlers`, which appends it there); `none` is `NULL`.
* A pointer to a `upb_msgdef` is its index in the schema table.
* Closures (`void*`) and `upb_value`s are natural numbers.
* User callbacks are functions of their arguments; every invocation is
  appended to a log (`calls`), which is how "invoked once", "invoked
  before" are stated.
* Code that dereferences `NULL`, calls through a `NULL` function pointer,
  fails an `assert` or calls `abort()` returns `Except.error`.
* The frame array `d->stack` is a function from the frame index; `d->top`
  and `d->limit` are indices into it (`d->top - d->stack`).
-/

namespace Upb

/-- Ways in which the C code stops without returning. -/
inductive Fault
  | null_deref
  | null_call
  | abort
  | assert_fail
  | out_of_fuel
  deriving DecidableEq, Repr

/-- Control-flow result of a callback (`upb_flow_t`). -/
inductive upb_flow_t
  | UPB_CONTINUE
  | UPB_BREAK
  | UPB_SKIPSUBMSG
  deriving DecidableEq, Repr

open upb_flow_t

/-- Result of a start-field callback (`upb_sflow_t`): a flow and the closure
of the new scope. -/
structure upb_sflow_t where
  flow : upb_flow_t
  closure : Nat

/-- The macro `UPB_CONTINUE_WITH(c)`. -/
def UPB_CONTINUE_WITH (c : Nat) : upb_sflow_t := ⟨UPB_CONTINUE, c⟩

/-- Modelled from the spec: the field types of upb/def.h (the header is not
part of the sources): message, group, the end-of-group pseudo type used for
the synthesized pseudo-field, strings/bytes and the scalar types. -/
inductive upb_fieldtype_t
  | ENDGROUP
  | DOUBLE | FLOAT | INT64 | UINT64 | INT32 | FIXED64 | FIXED32 | BOOL
  | STRING | GROUP | MESSAGE | BYTES | UINT32 | ENUM
  | SFIXED32 | SFIXED64 | SINT32 | SINT64
  deriving DecidableEq, Repr

open upb_fieldtype_t

/-- Modelled from the spec: `upb_issubmsgtype` of upb/def.h, "the field's
type is message or group". -/
def upb_issubmsgtype (t : upb_fieldtype_t) : Bool :=
  t == GROUP || t == MESSAGE

/-- Modelled from the spec: `upb_isstringtype` of upb/def.h. -/
def upb_isstringtype (t : upb_fieldtype_t) : Bool :=
  t == STRING || t == BYTES

/-- Modelled from the spec: `upb_isprimitivetype` of upb/def.h, a scalar
(neither submessage nor string) type. -/
def upb_isprimitivetype (t : upb_fieldtype_t) : Bool :=
  !upb_issubmsgtype t && !upb_isstringtype t

/-- Status object (`upb_status`): an error flag and a message. -/
structure upb_status where
  error : Bool
  str : String
  deriving DecidableEq, Repr

/-- The function `upb_status_init`. -/
def upb_status_init : upb_status := ⟨false, ""⟩

/-- The function `upb_status_seterrliteral`. -/
def upb_status_seterrliteral (_s : upb_status) (msg : String) : upb_status :=
  ⟨true, msg⟩

/-- The constant `UPB_NO_VALUE`. -/
def UPB_NO_VALUE : Nat := 0

/-- Handlers of one field (`upb_fhandlers`). `msg` and `submsg` are pointers
to handler sets. -/
structure upb_fhandlers where
  type : upb_fieldtype_t
  repeated : Bool
  is_repeated_primitive : Bool
  number : Nat
  valuehasbit : Int
  msg : Option Nat
  submsg : Option Nat
  fval : Nat
  value : Option (Nat → Nat → Nat → upb_flow_t)
  startsubmsg : Option (Nat → Nat → upb_sflow_t)
  endsubmsg : Option (Nat → Nat → upb_flow_t)
  startseq : Option (Nat → Nat → upb_sflow_t)
  endseq : Option (Nat → Nat → upb_flow_t)

/-- Handlers of one message type (`upb_mhandlers`); `fieldtab` is the
`upb_inttable` from field key to field handlers, in insertion order. -/
structure upb_mhandlers where
  fieldtab : List (Nat × upb_fhandlers)
  startmsg : Option (Nat → upb_flow_t)
  endmsg : Option (Nat → upb_status → upb_status)
  is_group : Bool

/-- The registry (`upb_handlers`); `msgs_len` is `msgs.length`. -/
structure upb_handlers where
  refcount : Int
  msgs : List upb_mhandlers
  msgs_size : Nat
  should_jit : Bool

/-- One invocation of a user callback by the dispatcher. Message callbacks
carry the handler set and the closure; field callbacks the field number, the
closure and the field's `fval`; `exit` the source closure. -/
inductive upb_call
  | startmsg (mh : Nat) (closure : Nat)
  | endmsg (mh : Nat) (closure : Nat)
  | startseq (number closure fval : Nat)
  | endseq (number closure fval : Nat)
  | startsubmsg (number closure fval : Nat)
  | endsubmsg (number closure fval : Nat)
  | exit (srcclosure : Nat)
  deriving DecidableEq, Repr

/-- One level of the dispatcher's stack (`upb_dispatcher_frame`). The field
handlers `f` points to are read-only while dispatching and held by value. -/
structure upb_dispatcher_frame where
  f : upb_fhandlers
  closure : Nat
  is_sequence : Bool
  is_packed : Bool

/-- The dispatcher (`upb_dispatcher`). `top` and `limit` are frame indices;
`dispatch_table` points to the field table of a handler set; `calls` logs
the callback invocations. The registry `d->handlers` points to is passed
to every operation. -/
structure upb_dispatcher where
  stack : Nat → upb_dispatcher_frame
  top : Nat
  limit : Nat
  msgent : Option Nat
  dispatch_table : Option Nat
  top_is_implicit : Bool
  status : upb_status
  skip : Option (Nat → Unit)
  exit : Option (Nat → Unit)
  srcclosure : Nat
  calls : List upb_call

/-- The static `toplevel_f`, the field of the sentinel frame. -/
def toplevel_f : upb_fhandlers :=
  { type := GROUP, repeated := false, is_repeated_primitive := false,
    number := 0, valuehasbit := -1, msg := none, submsg := none, fval := 0,
    value := none, startsubmsg := none, endsubmsg := none,
    startseq := none, endseq := none }

/-- Dereference of a pointer to a handler set. -/
def deref_mh (h : upb_handlers) (p : Option Nat) : Except Fault upb_mhandlers :=
  match p with
  | none => .error .null_deref
  | some i =>
    match h.msgs[i]? with
    | none => .error .null_deref
    | some m => .ok m

/-- Index of a pointer to a handler set, for the log. -/
def mh_id (p : Option Nat) : Nat := p.getD 0

/-- Modelled from the spec: `upb_atomic_init` of upb/atomic.h (not part of the
sources), the initial value of a reference count. -/
def upb_atomic_init (v : Int) : Int := v

/-- Modelled from the spec: `upb_atomic_ref` of upb/atomic.h (not part of the
sources), the atomic increment of "retain". -/
def upb_atomic_ref (a : Int) : Int := a + 1

/-- Modelled from the spec: `upb_atomic_unref` of upb/atomic.h (not part of
the sources), the atomic decrement of "release": the new count, and whether
it has dropped to zero. -/
def upb_atomic_unref (a : Int) : Int × Bool := (a - 1, decide (a - 1 = 0))

/-- The function `upb_handlers_ref`. -/
def upb_handlers_ref (h : upb_handlers) : upb_handlers :=
  { h with refcount := upb_atomic_ref h.refcount }

/-- The function `upb_handlers_unref` on the memory of a live registry:
`none` when the handler sets, the array and the registry have been freed,
else the registry with the new count. -/
def upb_handlers_unref (h : upb_handlers) : Option upb_handlers :=
  if (upb_atomic_unref h.refcount).2 then none
  else some { h with refcount := (upb_atomic_unref h.refcount).1 }

/-- The function `upb_dispatcher_init`, on the prior content `d` of the
dispatcher's memory. Compacting the field tables has no effect on lookups
and is not modelled. Returns the dispatcher and the registry. -/
def upb_dispatcher_init (UPB_MAX_NESTING : Nat) (d : upb_dispatcher)
    (h : upb_handlers) (skip exit : Option (Nat → Unit)) (srcclosure : Nat) :
    upb_dispatcher × upb_handlers :=
  ({ d with
      stack := Function.update d.stack 0 { d.stack 0 with f := toplevel_f },
      limit := UPB_MAX_NESTING,
      skip := skip,
      exit := exit,
      srcclosure := srcclosure,
      top_is_implicit := false,
      status := upb_status_init },
   upb_handlers_ref h)

/-- The function `upb_dispatcher_uninit` on the registry `d->handlers` points
to: the memory of the registry afterwards (`none` when freed). -/
def upb_dispatcher_uninit (_d : upb_dispatcher) (h : upb_handlers) : Option upb_handlers :=
  upb_handlers_unref h

/-- The function `upb_dispatcher_reset`; the frame it returns is `d->top` of
the result. -/
def upb_dispatcher_reset (d : upb_dispatcher) (closure : Nat) : upb_dispatcher :=
  { d with
    msgent := some 0,
    dispatch_table := some 0,
    top := 0,
    stack := Function.update d.stack 0
      { d.stack 0 with closure := closure, is_sequence := false, is_packed := false } }

/-- The two calls at the head of the loop of `_upb_dispatcher_unwind`, for
the frame at index `frame`: neither the submessage pointer nor the two
function pointers are tested before use. -/
def unwind_end_handlers (h : upb_handlers) (d : upb_dispatcher) (frame : Nat) :
    Except Fault upb_dispatcher :=
  let fr := d.stack frame
  -- frame->f->submsg->endmsg(frame->closure, &d->status);
  match deref_mh h fr.f.submsg with
  | .error e => .error e
  | .ok sm =>
    match sm.endmsg with
    | none => .error .null_call
    | some endmsg =>
      -- frame->f->endsubmsg(frame->closure, frame->f->fval);
      match fr.f.endsubmsg with
      | none => .error .null_call
      | some _ =>
        .ok { d with
          status := endmsg fr.closure d.status,
          calls := d.calls ++ [upb_call.endmsg (mh_id fr.f.submsg) fr.closure,
            upb_call.endsubmsg fr.f.number fr.closure fr.f.fval] }

/-- The loop of `_upb_dispatcher_unwind`, entered with the local `frame` at
index `frame`. At index 0 the decrement takes `frame` below `d->stack`. -/
def unwind_loop (h : upb_handlers) (flow : upb_flow_t) :
    Nat → upb_dispatcher → Except Fault upb_dispatcher
  | 0, d =>
    match unwind_end_handlers h d 0 with
    | .error e => .error e
    | .ok d2 =>
      -- if (frame < d->stack) { d->exit(d->srcclosure); return; }
      match d2.exit with
      | none => .error .null_call
      | some _ => .ok { d2 with calls := d2.calls ++ [upb_call.exit d2.srcclosure] }
  | frame + 1, d =>
    match unwind_end_handlers h d (frame + 1) with
    | .error e => .error e
    | .ok d2 =>
      -- d->top = frame; if (flow == UPB_SKIPSUBMSG) return;
      let d3 := { d2 with top := frame }
      if flow = UPB_SKIPSUBMSG then .ok d3 else unwind_loop h flow frame d3

/-- The function `_upb_dispatcher_unwind`. -/
def _upb_dispatcher_unwind (h : upb_handlers) (d : upb_dispatcher) (flow : upb_flow_t) :
    Except Fault upb_dispatcher :=
  unwind_loop h flow d.top d

/-- The function `upb_dispatch_startmsg`. The result of the callback is not
stored in `flow`. -/
def upb_dispatch_startmsg (h : upb_handlers) (d : upb_dispatcher) :
    Except Fault upb_dispatcher :=
  let flow := UPB_CONTINUE
  match deref_mh h d.msgent with
  | .error e => .error e
  | .ok m =>
    let d1 := match m.startmsg with
      | some _ =>
        { d with calls := d.calls ++ [upb_call.startmsg (mh_id d.msgent) (d.stack d.top).closure] }
      | none => d
    if flow ≠ UPB_CONTINUE then _upb_dispatcher_unwind h d1 flow else .ok d1

/-- The function `upb_dispatch_endmsg`; returns the dispatcher and the status
copied out to the caller. -/
def upb_dispatch_endmsg (h : upb_handlers) (d : upb_dispatcher) :
    Except Fault (upb_dispatcher × upb_status) :=
  if d.top ≠ 0 then .error .assert_fail else
  match deref_mh h d.msgent with
  | .error e => .error e
  | .ok m =>
    let d1 := match m.endmsg with
      | some endmsg =>
        { d with status := endmsg (d.stack d.top).closure d.status,
                 calls := d.calls ++ [upb_call.endmsg (mh_id d.msgent) (d.stack d.top).closure] }
      | none => d
    .ok (d1, d1.status)

/-- The function `upb_dispatch_startseq`; the frame it returns is `d->top` of
the result. -/
def upb_dispatch_startseq (h : upb_handlers) (d : upb_dispatcher) (f : upb_fhandlers) :
    Except Fault upb_dispatcher :=
  if d.top + 1 ≥ d.limit then
    _upb_dispatcher_unwind h
      { d with status := upb_status_seterrliteral d.status "Nesting too deep." } UPB_BREAK
  else
    let c := (d.stack d.top).closure
    let (sflow, d1) := match f.startseq with
      | some startseq =>
        (startseq c f.fval, { d with calls := d.calls ++ [upb_call.startseq f.number c f.fval] })
      | none => (UPB_CONTINUE_WITH c, d)
    if sflow.flow ≠ UPB_CONTINUE then _upb_dispatcher_unwind h d1 sflow.flow
    else
      .ok { d1 with
        top := d1.top + 1,
        stack := Function.update d1.stack (d1.top + 1)
          { f := f, is_sequence := true, is_packed := false, closure := sflow.closure } }

/-- The function `upb_dispatch_endseq`. -/
def upb_dispatch_endseq (h : upb_handlers) (d : upb_dispatcher) :
    Except Fault upb_dispatcher :=
  if ¬ d.top > 0 then .error .assert_fail else
  if ¬ (d.stack d.top).is_sequence then .error .assert_fail else
  let f := (d.stack d.top).f
  let d0 := { d with top := d.top - 1 }
  let c := (d0.stack d0.top).closure
  let (flow, d1) := match f.endseq with
    | some endseq =>
      (endseq c f.fval, { d0 with calls := d0.calls ++ [upb_call.endseq f.number c f.fval] })
    | none => (UPB_CONTINUE, d0)
  if flow ≠ UPB_CONTINUE then _upb_dispatcher_unwind h d1 flow
  else
    let msgent := match (d1.stack d1.top).f.submsg with
      | some sub => some sub
      | none => some 0
    .ok { d1 with msgent := msgent, dispatch_table := msgent }

/-- The function `upb_dispatch_startsubmsg`. -/
def upb_dispatch_startsubmsg (h : upb_handlers) (d : upb_dispatcher) (f : upb_fhandlers) :
    Except Fault upb_dispatcher :=
  if d.top + 1 ≥ d.limit then
    _upb_dispatcher_unwind h
      { d with status := upb_status_seterrliteral d.status "Nesting too deep." } UPB_BREAK
  else
    let c := (d.stack d.top).closure
    let (sflow, d1) := match f.startsubmsg with
      | some startsubmsg =>
        (startsubmsg c f.fval, { d with calls := d.calls ++ [upb_call.startsubmsg f.number c f.fval] })
      | none => (UPB_CONTINUE_WITH c, d)
    if sflow.flow ≠ UPB_CONTINUE then _upb_dispatcher_unwind h d1 sflow.flow
    else
      upb_dispatch_startmsg h { d1 with
        top := d1.top + 1,
        stack := Function.update d1.stack (d1.top + 1)
          { f := f, is_sequence := false, is_packed := false, closure := sflow.closure },
        msgent := f.submsg,
        dispatch_table := f.submsg }

/-- The function `upb_dispatch_endsubmsg`. The result of the submessage-end
callback is not stored in `flow`. -/
def upb_dispatch_endsubmsg (h : upb_handlers) (d : upb_dispatcher) :
    Except Fault upb_dispatcher :=
  if ¬ d.top > 0 then .error .assert_fail else
  if (d.stack d.top).is_sequence then .error .assert_fail else
  let f := (d.stack d.top).f
  match deref_mh h d.msgent with
  | .error e => .error e
  | .ok m =>
    let d1 := match m.endmsg with
      | some endmsg =>
        { d with status := endmsg (d.stack d.top).closure d.status,
                 calls := d.calls ++ [upb_call.endmsg (mh_id d.msgent) (d.stack d.top).closure] }
      | none => d
    let d2 := { d1 with msgent := (d1.stack d1.top).f.msg,
                        dispatch_table := (d1.stack d1.top).f.msg }
    let d3 := { d2 with top := d2.top - 1 }
    let flow := UPB_CONTINUE
    let d4 := match f.endsubmsg with
      | some _ =>
        { d3 with calls := d3.calls ++ [upb_call.endsubmsg f.number (d3.stack d3.top).closure f.fval] }
      | none => d3
    if flow ≠ UPB_CONTINUE then _upb_dispatcher_unwind h d4 flow else .ok d4

/-- The function `upb_dispatcher_stackempty`. -/
def upb_dispatcher_stackempty (d : upb_dispatcher) : Bool :=
  d.top = 0

/-- The function `upb_dispatcher_islegalend`; `d->top - 1 == d->stack` is a
comparison of pointers, so of integers. -/
def upb_dispatcher_islegalend (d : upb_dispatcher) : Bool :=
  if d.top = 0 then true
  else if (d.top : Int) - 1 = 0 ∧
      (d.stack d.top).is_sequence = true ∧ ¬ (d.stack d.top).is_packed = true then true
  else false

/-! ### The registry: handler sets and schema registration -/

/-- Lookup in a table kept as a list of key/value pairs in insertion order
(`upb_inttable_lookup`, `upb_strtable_lookup`): the first entry of the key. -/
def tab_lookup {K V : Type} [DecidableEq K] (key : K) : List (K × V) → Option V
  | [] => none
  | (k, v) :: t => if k = key then some v else tab_lookup key t

/-- Insertion into a table (`upb_inttable_insert`, `upb_strtable_insert`). -/
def tab_insert {K V : Type} (t : List (K × V)) (key : K) (v : V) : List (K × V) :=
  t ++ [(key, v)]

/-- A write through the pointer that a lookup of `key` returns. -/
def tab_update {K V : Type} [DecidableEq K] (key : K) (g : V → V) : List (K × V) → List (K × V)
  | [] => []
  | (k, v) :: t => if k = key then (k, g v) :: t else (k, v) :: tab_update key g t

/-- Modelled from the spec: a field definition of the schema (`upb_fielddef`
of upb/def.h): number, type, whether the label is repeated, and for a
message or group field the pointer `f->def` to the definition of its
type. -/
structure upb_fielddef where
  number : Nat
  type : upb_fieldtype_t
  repeated : Bool
  def_ : Nat
  deriving DecidableEq, Repr

/-- Modelled from the spec: a message definition of the schema (`upb_msgdef`
of upb/def.h): its fully-qualified name and its fields in the order the
field iterator visits them. -/
structure upb_msgdef where
  fqname : String
  fields : List upb_fielddef
  deriving DecidableEq, Repr

/-- Modelled from the spec: `upb_issubmsg` of upb/def.h. -/
def upb_issubmsg (f : upb_fielddef) : Bool := upb_issubmsgtype f.type

/-- Modelled from the spec: `upb_isseq` of upb/def.h. -/
def upb_isseq (f : upb_fielddef) : Bool := f.repeated

/-- The function `upb_mhandlers_new`. -/
def upb_mhandlers_new : upb_mhandlers :=
  { fieldtab := [], startmsg := none, endmsg := none, is_group := false }

/-- The key of a field in the field table: `n << 3 | native_wire_type` as a
`uint32_t`. The table `upb_types` is not part of the sources; its column
`native_wire_type` is the parameter `wt`. -/
def field_tag (wt : upb_fieldtype_t → Nat) (n : Nat) (type : upb_fieldtype_t) : Nat :=
  ((n <<< 3) ||| wt type) % 2 ^ 32

/-- The function `_upb_mhandlers_newfhandlers` on the handler set `m` of the
registry. Returns the registry and the pointer to the new field handlers:
the handler set and the key of the entry. -/
def _upb_mhandlers_newfhandlers (wt : upb_fieldtype_t → Nat) (h : upb_handlers) (m : Nat)
    (n : Nat) (type : upb_fieldtype_t) (repeated : Bool) :
    Except Fault (upb_handlers × (Nat × Nat)) :=
  match h.msgs[m]? with
  | none => .error .null_deref
  | some mh =>
    let tag := field_tag wt n type
    match tab_lookup tag mh.fieldtab with
    | some _ => .error .abort
    | none =>
      let new_f : upb_fhandlers :=
        { type := type, repeated := repeated,
          is_repeated_primitive := repeated && upb_isprimitivetype type,
          number := n, valuehasbit := -1, msg := some m, submsg := none,
          fval := UPB_NO_VALUE, value := none, startsubmsg := none, endsubmsg := none,
          startseq := none, endseq := none }
      let fieldtab := tab_insert mh.fieldtab tag new_f
      match tab_lookup tag fieldtab with
      | none => .error .assert_fail
      | some f =>
        if f.type ≠ type then .error .assert_fail
        else .ok ({ h with msgs := h.msgs.set m { mh with fieldtab := fieldtab } }, (m, tag))

/-- The function `upb_mhandlers_newfhandlers`. -/
def upb_mhandlers_newfhandlers (wt : upb_fieldtype_t → Nat) (h : upb_handlers) (m : Nat)
    (n : Nat) (type : upb_fieldtype_t) (repeated : Bool) :
    Except Fault (upb_handlers × (Nat × Nat)) :=
  if type = MESSAGE then .error .assert_fail else
  if type = GROUP then .error .assert_fail else
  _upb_mhandlers_newfhandlers wt h m n type repeated

/-- A write through a pointer to field handlers. -/
def fhandlers_write (h : upb_handlers) (f : Nat × Nat) (g : upb_fhandlers → upb_fhandlers) :
    upb_handlers :=
  match h.msgs[f.1]? with
  | none => h
  | some mh =>
    { h with msgs := h.msgs.set f.1 { mh with fieldtab := tab_update f.2 g mh.fieldtab } }

/-- The function `upb_mhandlers_newfhandlers_subm`. -/
def upb_mhandlers_newfhandlers_subm (wt : upb_fieldtype_t → Nat) (h : upb_handlers) (m : Nat)
    (n : Nat) (type : upb_fieldtype_t) (repeated : Bool) (subm : Option Nat) :
    Except Fault (upb_handlers × (Nat × Nat)) :=
  if ¬ (type = MESSAGE ∨ type = GROUP) then .error .assert_fail else
  match subm with
  | none => .error .assert_fail
  | some sub =>
    match _upb_mhandlers_newfhandlers wt h m n type repeated with
    | .error e => .error e
    | .ok (h1, f) =>
      let h2 := fhandlers_write h1 f (fun fh => { fh with submsg := some sub })
      if type = GROUP then
        match _upb_mhandlers_newfhandlers wt h2 sub n ENDGROUP false with
        | .error e => .error e
        | .ok (h3, _) => .ok (h3, f)
      else .ok (h2, f)

/-- The function `upb_handlers_new`. -/
def upb_handlers_new : upb_handlers :=
  { refcount := upb_atomic_init 1, msgs := [], msgs_size := 4, should_jit := true }

/-- The function `upb_handlers_newmhandlers`: returns the registry and the
pointer to the new handler set. -/
def upb_handlers_newmhandlers (h : upb_handlers) : upb_handlers × Nat :=
  let msgs_size := if h.msgs.length = h.msgs_size then h.msgs_size * 2 else h.msgs_size
  ({ h with msgs_size := msgs_size, msgs := h.msgs ++ [upb_mhandlers_new] }, h.msgs.length)

/-- What a message registration callback stores in the handler set it is
given: the callback is called to attach the begin/end-of-message
callbacks. -/
structure upb_msgreg_handlers where
  startmsg : Option (Nat → upb_flow_t)
  endmsg : Option (Nat → upb_status → upb_status)

/-- What a field registration callback stores in the field handlers it is
given: the `fval` and the five callbacks. -/
structure upb_fieldreg_handlers where
  fval : Nat
  value : Option (Nat → Nat → Nat → upb_flow_t)
  startsubmsg : Option (Nat → Nat → upb_sflow_t)
  endsubmsg : Option (Nat → Nat → upb_flow_t)
  startseq : Option (Nat → Nat → upb_sflow_t)
  endseq : Option (Nat → Nat → upb_flow_t)

/-- The type `upb_onmsgreg`: closure, handler set, message definition. -/
abbrev upb_onmsgreg := Nat → Nat → Nat → upb_msgreg_handlers

/-- The type `upb_onfieldreg`: closure, field handlers, field definition. -/
abbrev upb_onfieldreg := Nat → Nat × Nat → upb_fielddef → upb_fieldreg_handlers

/-- One invocation of a registration callback: `onmsg closure mh m`, and
`onfield closure mh key f` for the field handlers under `key` in handler
set `mh`. -/
inductive upb_regcall
  | onmsg (closure mh m : Nat)
  | onfield (closure mh key : Nat) (f : upb_fielddef)
  deriving DecidableEq, Repr

/-- State of one registration: the registry, the transient table `mtab` from
fully-qualified name to handler set, and the log of callback invocations. -/
structure upb_regstate where
  h : upb_handlers
  mtab : List (String × Nat)
  calls : List upb_regcall

/-- A write through a pointer to a handler set. -/
def mhandlers_write (h : upb_handlers) (m : Nat) (g : upb_mhandlers → upb_mhandlers) :
    upb_handlers :=
  match h.msgs[m]? with
  | none => h
  | some x => { h with msgs := h.msgs.set m (g x) }

/-- The call `if (msgreg_cb) msgreg_cb(closure, mh, m)`. -/
def call_msgreg (msgreg_cb : Option upb_onmsgreg) (closure mh m : Nat)
    (st : upb_regstate) : upb_regstate :=
  match msgreg_cb with
  | none => st
  | some cb =>
    let r := cb closure mh m
    { st with
      h := mhandlers_write st.h mh (fun x => { x with startmsg := r.startmsg, endmsg := r.endmsg }),
      calls := st.calls ++ [upb_regcall.onmsg closure mh m] }

/-- The call `if (fieldreg_cb) fieldreg_cb(closure, fh, f)`. -/
def call_fieldreg (fieldreg_cb : Option upb_onfieldreg) (closure : Nat) (fh : Nat × Nat)
    (f : upb_fielddef) (st : upb_regstate) : upb_regstate :=
  match fieldreg_cb with
  | none => st
  | some cb =>
    let r := cb closure fh f
    { st with
      h := fhandlers_write st.h fh (fun x =>
        { x with
          fval := r.fval, value := r.value, startsubmsg := r.startsubmsg,
          endsubmsg := r.endsubmsg, startseq := r.startseq, endseq := r.endseq }),
      calls := st.calls ++ [upb_regcall.onfield closure fh.1 fh.2 f] }

/-- Body of the field loop of `upb_regmsg_dfs` for the field `f` of the
message whose handler set is `mh`; `dfs` is the recursive call. -/
def regmsg_field (wt : upb_fieldtype_t → Nat) (S : List upb_msgdef)
    (fieldreg_cb : Option upb_onfieldreg) (closure : Nat)
    (dfs : Nat → upb_regstate → Except Fault (upb_regstate × Nat))
    (mh : Nat) (f : upb_fielddef) (st : upb_regstate) : Except Fault upb_regstate :=
  if upb_issubmsg f then
    match S[f.def_]? with
    | none => .error .null_deref
    | some sub =>
      -- The table lookup is necessary to break the DFS for type cycles.
      let found : Except Fault (upb_regstate × Nat) :=
        match tab_lookup sub.fqname st.mtab with
        | some sub_mh => .ok (st, sub_mh)
        | none => dfs f.def_ st
      match found with
      | .error e => .error e
      | .ok (st1, sub_mh) =>
        match upb_mhandlers_newfhandlers_subm wt st1.h mh f.number f.type (upb_isseq f)
            (some sub_mh) with
        | .error e => .error e
        | .ok (h2, fh) => .ok (call_fieldreg fieldreg_cb closure fh f { st1 with h := h2 })
  else
    match upb_mhandlers_newfhandlers wt st.h mh f.number f.type (upb_isseq f) with
    | .error e => .error e
    | .ok (h2, fh) => .ok (call_fieldreg fieldreg_cb closure fh f { st with h := h2 })

/-- The field loop of `upb_regmsg_dfs`. -/
def regmsg_fields (wt : upb_fieldtype_t → Nat) (S : List upb_msgdef)
    (fieldreg_cb : Option upb_onfieldreg) (closure : Nat)
    (dfs : Nat → upb_regstate → Except Fault (upb_regstate × Nat)) (mh : Nat) :
    List upb_fielddef → upb_regstate → Except Fault upb_regstate
  | [], st => .ok st
  | f :: fs, st =>
    match regmsg_field wt S fieldreg_cb closure dfs mh f st with
    | .error e => .error e
    | .ok st1 => regmsg_fields wt S fieldreg_cb closure dfs mh fs st1

/-- The function `upb_regmsg_dfs` on the message definition `m` of the schema
`S`, with `fuel` bounding the depth of the recursion. Returns the state and
the pointer to the handler set of `m`. -/
def upb_regmsg_dfs (wt : upb_fieldtype_t → Nat) (S : List upb_msgdef)
    (msgreg_cb : Option upb_onmsgreg) (fieldreg_cb : Option upb_onfieldreg) (closure : Nat) :
    Nat → Nat → upb_regstate → Except Fault (upb_regstate × Nat)
  | 0, _, _ => .error .out_of_fuel
  | fuel + 1, m, st =>
    match S[m]? with
    | none => .error .null_deref
    | some md =>
      let (h1, mh) := upb_handlers_newmhandlers st.h
      let st1 := call_msgreg msgreg_cb closure mh m
        { st with h := h1, mtab := tab_insert st.mtab md.fqname mh }
      match regmsg_fields wt S fieldreg_cb closure
          (upb_regmsg_dfs wt S msgreg_cb fieldreg_cb closure fuel) mh md.fields st1 with
      | .error e => .error e
      | .ok st2 => .ok (st2, mh)

/-- The state in which `upb_handlers_regmsgdef` starts the traversal. -/
def reg_start (h : upb_handlers) : upb_regstate := { h := h, mtab := [], calls := [] }

/-- The function `upb_handlers_regmsgdef`: the traversal starts with an empty
`mtab`, which is freed at the end. Returns the registry, the pointer to the
handler set of `m` and the log of the registration callbacks. -/
def upb_handlers_regmsgdef (wt : upb_fieldtype_t → Nat) (S : List upb_msgdef) (fuel : Nat)
    (h : upb_handlers) (m : Nat) (msgreg_cb : Option upb_onmsgreg)
    (fieldreg_cb : Option upb_onfieldreg) (closure : Nat) :
    Except Fault (upb_handlers × Nat × List upb_regcall) :=
  match upb_regmsg_dfs wt S msgreg_cb fieldreg_cb closure fuel m (reg_start h) with
  | .error e => .error e
  | .ok (st, ret) => .ok (st.h, ret, st.calls)

/-- A sample value of the parameter `wt` (the column `native_wire_type` of
the table `upb_types`): the wire type of each field type in the protocol
buffer encoding. Used for the sample schemas only. -/
def sample_wire_type : upb_fieldtype_t → Nat
  | ENDGROUP => 4
  | DOUBLE | FIXED64 | SFIXED64 => 1
  | FLOAT | FIXED32 | SFIXED32 => 5
  | STRING | BYTES | MESSAGE => 2
  | GROUP => 3
  | _ => 0

/-- The field handlers that the handler set `r` of the registry holds under
the key `t`, if any. -/
def flookup (h : upb_handlers) (r t : Nat) : Option upb_fhandlers :=
  match h.msgs[r]? with
  | none => none
  | some mh => tab_lookup t mh.fieldtab

/-- The names registered in `mtab`. -/
def mtab_keys (st : upb_regstate) : List String := st.mtab.map Prod.fst

/-- A submessage field of one message definition points to another: the edge
relation of the schema graph. -/
def schema_edge (S : List upb_msgdef) (i j : Nat) : Prop :=
  ∃ md f, S[i]? = some md ∧ f ∈ md.fields ∧ upb_issubmsg f = true ∧ f.def_ = j

/-- The message definition `j` is reachable from `i` in the schema graph. -/
def schema_reach (S : List upb_msgdef) (i j : Nat) : Prop :=
  Relation.ReflTransGen (schema_edge S) i j

/-- The names of the schema that are not yet registered in `mtab`. -/
def unregistered (S : List upb_msgdef) (st : upb_regstate) : Finset String :=
  (S.map upb_msgdef.fqname).toFinset.filter (fun n => n ∉ mtab_keys st)

/-- The field handlers of the submessage field `f` in the handler set `mh`
exist and link to the handler set registered for the field's type. -/
def submsg_linked (wt : upb_fieldtype_t → Nat) (S : List upb_msgdef) (st : upb_regstate)
    (mh : Nat) (f : upb_fielddef) : Prop :=
  ∃ fh sub k, S[f.def_]? = some sub ∧ tab_lookup sub.fqname st.mtab = some k ∧
    flookup st.h mh (field_tag wt f.number f.type) = some fh ∧
    fh.submsg = some k ∧ fh.type = f.type ∧ fh.number = f.number ∧ fh.msg = some mh

/-- Field handlers already in the registry `h` are still in `h1`, under the
same key, with the same type, number and links. -/
def handlers_kept (h h1 : upb_handlers) : Prop :=
  ∀ r t fh, flookup h r t = some fh →
    ∃ fh1, flookup h1 r t = some fh1 ∧ fh1.submsg = fh.submsg ∧ fh1.type = fh.type ∧
      fh1.number = fh.number ∧ fh1.msg = fh.msg

/-- Invariant of a registration that started on a registry with `o` handler
sets: the entries of `mtab` point, in order, to the handler sets added
since, and no name is registered twice. -/
def reg_inv (o : Nat) (st : upb_regstate) : Prop :=
  st.mtab.map Prod.snd = List.range' o st.mtab.length ∧
  st.h.msgs.length = o + st.mtab.length ∧
  (mtab_keys st).Nodup

/-- Every message definition whose name was registered between `st` and `st1`
has its handler set in `mtab`, and in that handler set each of its submessage
fields is linked to the handler set of the field's type. -/
def new_closed (wt : upb_fieldtype_t → Nat) (S : List upb_msgdef)
    (st st1 : upb_regstate) : Prop :=
  ∀ (j : Nat) (md : upb_msgdef), S[j]? = some md → md.fqname ∈ mtab_keys st1 →
    md.fqname ∉ mtab_keys st →
    ∃ k, tab_lookup md.fqname st1.mtab = some k ∧
      ∀ f ∈ md.fields, upb_issubmsg f = true → submsg_linked wt S st1 k f

/-- Every name registered between `st` and `st1` is the name of a message
definition that satisfies `P`. -/
def new_reach (S : List upb_msgdef) (P : Nat → Prop) (st st1 : upb_regstate) : Prop :=
  ∀ key ∈ mtab_keys st1, key ∉ mtab_keys st →
    ∃ (j : Nat) (md : upb_msgdef), S[j]? = some md ∧ md.fqname = key ∧ P j

/-- What a call of the traversal on message definition `m` (named `md`)
establishes when it returns the handler set `k` in state `st1`. -/
def dfs_post (wt : upb_fieldtype_t → Nat) (S : List upb_msgdef) (o m : Nat)
    (md : upb_msgdef) (st st1 : upb_regstate) (k : Nat) : Prop :=
  st.mtab <+: st1.mtab ∧ reg_inv o st1 ∧ handlers_kept st.h st1.h ∧
    k = st.h.msgs.length ∧ tab_lookup md.fqname st1.mtab = some k ∧
    new_closed wt S st st1 ∧ new_reach S (schema_reach S m) st st1

/-- The recursive call `dfs` establishes `dfs_post` whenever it is made on a
message definition whose name is not registered. -/
def dfs_sound (wt : upb_fieldtype_t → Nat) (S : List upb_msgdef) (o : Nat)
    (dfs : Nat → upb_regstate → Except Fault (upb_regstate × Nat)) : Prop :=
  ∀ (j : Nat) (sub : upb_msgdef) (st0 st1 : upb_regstate) (k : Nat), S[j]? = some sub →
    sub.fqname ∉ mtab_keys st0 → reg_inv o st0 →
    dfs j st0 = .ok (st1, k) → dfs_post wt S o j sub st0 st1 k

/-- The recursive call `dfs` only appends to `mtab`. -/
def dfs_appends (dfs : Nat → upb_regstate → Except Fault (upb_regstate × Nat)) : Prop :=
  ∀ (j : Nat) (st0 st1 : upb_regstate) (k : Nat), dfs j st0 = .ok (st1, k) →
    st0.mtab <+: st1.mtab

/-- The recursive call `dfs` has enough fuel whenever it is made on a message
definition whose name is not registered, with at most `n` names of the
schema not registered. -/
def dfs_fueled (S : List upb_msgdef) (n : Nat)
    (dfs : Nat → upb_regstate → Except Fault (upb_regstate × Nat)) : Prop :=
  ∀ (j : Nat) (sub : upb_msgdef) (st0 : upb_regstate), S[j]? = some sub →
    sub.fqname ∉ mtab_keys st0 → (unregistered S st0).card ≤ n →
    dfs j st0 ≠ .error .out_of_fuel

/-- Every submessage field of the schema points to a message definition of
the schema. -/
def schema_wf (S : List upb_msgdef) : Prop :=
  ∀ md ∈ S, ∀ f ∈ md.fields, upb_issubmsg f = true → f.def_ < S.length

/-- The recursive call `dfs` returns or aborts whenever it is made on a
message definition whose name is not registered, with at most `n` names of
the schema not registered. -/
def dfs_returns (S : List upb_msgdef) (o n : Nat)
    (dfs : Nat → upb_regstate → Except Fault (upb_regstate × Nat)) : Prop :=
  ∀ (j : Nat) (sub : upb_msgdef) (st0 : upb_regstate), S[j]? = some sub →
    sub.fqname ∉ mtab_keys st0 → reg_inv o st0 → (unregistered S st0).card ≤ n →
    (∃ r, dfs j st0 = .ok r) ∨ dfs j st0 = .error .abort

/-- Sample schema: a message `A` with a field of type `A`. -/
def sample_self_schema : List upb_msgdef :=
  [{ fqname := "A", fields := [{ number := 1, type := MESSAGE, repeated := false, def_ := 0 }] }]

/-- Sample schema with cycles: `A` holds an int32, repeated `B` and a group
`G`; `B` refers to `A` and to itself; the group `G` holds itself; `Z` is not
reachable from `A`. -/
def sample_schema : List upb_msgdef :=
  [{ fqname := "A", fields := [
      { number := 1, type := INT32, repeated := false, def_ := 0 },
      { number := 2, type := MESSAGE, repeated := true, def_ := 1 },
      { number := 3, type := GROUP, repeated := false, def_ := 2 }] },
   { fqname := "B", fields := [
      { number := 1, type := MESSAGE, repeated := false, def_ := 0 },
      { number := 2, type := MESSAGE, repeated := false, def_ := 1 }] },
   { fqname := "G", fields := [{ number := 7, type := GROUP, repeated := false, def_ := 2 }] },
   { fqname := "Z", fields := [] }]

/-- Sample schema in which `A` declares field number 1 twice with the same
type, before a field of message type `B`. -/
def sample_dup_schema : List upb_msgdef :=
  [{ fqname := "A", fields := [
      { number := 1, type := INT32, repeated := false, def_ := 0 },
      { number := 1, type := INT32, repeated := false, def_ := 0 },
      { number := 2, type := MESSAGE, repeated := false, def_ := 1 }] },
   { fqname := "B", fields := [] }]

/-- Sample schema in which two message definitions carry the name `B`: `A`
has a field of each type. -/
def sample_samename_schema : List upb_msgdef :=
  [{ fqname := "A", fields := [
      { number := 1, type := MESSAGE, repeated := false, def_ := 1 },
      { number := 2, type := MESSAGE, repeated := false, def_ := 2 }] },
   { fqname := "B", fields := [] },
   { fqname := "B", fields := [{ number := 1, type := INT32, repeated := false, def_ := 0 }] }]

/-- Sample registration callback for messages: attaches no callbacks. -/
def sample_onmsgreg : upb_onmsgreg := fun _ _ _ => { startmsg := none, endmsg := none }

/-- A structural event fed to the dispatcher by the decoder. -/
inductive upb_event
  | startseq (f : upb_fhandlers)
  | endseq
  | startsubmsg (f : upb_fhandlers)
  | endsubmsg

/-- One event, dispatched to the function that handles it. -/
def upb_dispatch_event (h : upb_handlers) (d : upb_dispatcher) :
    upb_event → Except Fault upb_dispatcher
  | .startseq f => upb_dispatch_startseq h d f
  | .endseq => upb_dispatch_endseq h d
  | .startsubmsg f => upb_dispatch_startsubmsg h d f
  | .endsubmsg => upb_dispatch_endsubmsg h d

/-- A list of events, dispatched in order; stops at the first fault. -/
def upb_dispatch_events (h : upb_handlers) :
    List upb_event → upb_dispatcher → Except Fault upb_dispatcher
  | [], d => .ok d
  | e :: es, d =>
    match upb_dispatch_event h d e with
    | .error x => .error x
    | .ok d1 => upb_dispatch_events h es d1

/-- The events are well nested with at most `n` scopes open at a time.
`scopes` lists the scopes open before the events, innermost first, `true`
for a sequence and `false` for a submessage. -/
def well_nested (n : Nat) : List Bool → List upb_event → Bool
  | scopes, [] => scopes.isEmpty
  | scopes, .startseq _ :: es => decide (scopes.length + 1 ≤ n) && well_nested n (true :: scopes) es
  | scopes, .startsubmsg _ :: es =>
    decide (scopes.length + 1 ≤ n) && well_nested n (false :: scopes) es
  | true :: scopes, .endseq :: es => well_nested n scopes es
  | false :: scopes, .endsubmsg :: es => well_nested n scopes es
  | _, _ => false

/-- The start and end callbacks of a sequence field always continue. -/
def seq_continues (f : upb_fhandlers) : Prop :=
  (∀ cb, f.startseq = some cb → ∀ c v, (cb c v).flow = UPB_CONTINUE) ∧
  (∀ cb, f.endseq = some cb → ∀ c v, cb c v = UPB_CONTINUE)

/-- The submessage-begin callback of a field always continues, and the field's
owning and submessage handler sets are handler sets of the registry. -/
def submsg_continues (h : upb_handlers) (f : upb_fhandlers) : Prop :=
  (∀ cb, f.startsubmsg = some cb → ∀ c v, (cb c v).flow = UPB_CONTINUE) ∧
  (∃ m, deref_mh h f.submsg = .ok m) ∧ (∃ m, deref_mh h f.msg = .ok m)

/-- The callbacks an event runs continue, and its field belongs to the
registry. -/
def event_continues (h : upb_handlers) : upb_event → Prop
  | .startseq f => seq_continues f
  | .startsubmsg f => submsg_continues h f
  | .endseq => True
  | .endsubmsg => True

/-- The open frames of the dispatcher match the open scopes (innermost
first), and their fields are as `event_continues` asks. -/
def frames_match (h : upb_handlers) (stack : Nat → upb_dispatcher_frame) :
    List Bool → Prop
  | [] => True
  | k :: scopes =>
    (stack (scopes.length + 1)).is_sequence = k ∧
    (k = true → seq_continues (stack (scopes.length + 1)).f) ∧
    (k = false → submsg_continues h (stack (scopes.length + 1)).f) ∧
    frames_match h stack scopes

/-- Zeroed frame memory. -/
def zero_frame : upb_dispatcher_frame :=
  { f := toplevel_f, closure := 0, is_sequence := false, is_packed := false }

/-- Zeroed dispatcher memory, before `upb_dispatcher_init`. -/
def zero_dispatcher : upb_dispatcher :=
  { stack := fun _ => zero_frame, top := 0, limit := 0, msgent := none,
    dispatch_table := none, top_is_implicit := false, status := upb_status_init,
    skip := none, exit := none, srcclosure := 0, calls := [] }

/-- Sample field handlers: a repeated int32 field 1 of the root message, with
sequence callbacks that continue. -/
def sample_seq_f : upb_fhandlers :=
  { type := INT32, repeated := true, is_repeated_primitive := true,
    number := 1, valuehasbit := -1, msg := some 0, submsg := none, fval := 11,
    value := none, startsubmsg := none, endsubmsg := none,
    startseq := some (fun c _ => UPB_CONTINUE_WITH (c + 1)),
    endseq := some (fun _ _ => UPB_CONTINUE) }

/-- Sample field handlers: a message field 2 of the root message whose type
is the second handler set, with submessage callbacks that continue. -/
def sample_sub_f : upb_fhandlers :=
  { type := MESSAGE, repeated := false, is_repeated_primitive := false,
    number := 2, valuehasbit := -1, msg := some 0, submsg := some 1, fval := 22,
    value := none,
    startsubmsg := some (fun c _ => UPB_CONTINUE_WITH (c + 1)),
    endsubmsg := some (fun _ _ => UPB_CONTINUE),
    startseq := none, endseq := none }

/-- Sample field handlers: a repeated message field 3 of the root message
whose type is the second handler set. -/
def sample_repsub_f : upb_fhandlers :=
  { sample_sub_f with
    repeated := true, number := 3, fval := 33,
    startseq := some (fun c _ => UPB_CONTINUE_WITH (c + 1)),
    endseq := some (fun _ _ => UPB_CONTINUE) }

/-- Sample registry: a root message with the three sample fields and a
second message type without fields, both with message callbacks. -/
def sample_handlers : upb_handlers :=
  { refcount := 1,
    msgs := [
      { fieldtab := [(8, sample_seq_f), (18, sample_sub_f), (26, sample_repsub_f)],
        startmsg := some (fun _ => UPB_CONTINUE),
        endmsg := some (fun _ s => s), is_group := false },
      { fieldtab := [],
        startmsg := some (fun _ => UPB_CONTINUE),
        endmsg := some (fun _ s => s), is_group := false }],
    msgs_size := 4, should_jit := true }

/-- Sample dispatcher on the sample registry: initialised with room for
`n` frames and reset with root closure 100. -/
def sample_dispatcher (n : Nat) : upb_dispatcher :=
  upb_dispatcher_reset
    (upb_dispatcher_init n zero_dispatcher sample_handlers none
      (some (fun _ => ())) 7).1 100

/-- Sample field handlers: message field 1 of the second message type, whose
type is that same message type, with callbacks that continue. -/
def sample_rec_f : upb_fhandlers :=
  { sample_sub_f with number := 1, fval := 44, msg := some 1, submsg := some 1 }

/-- Sample field handlers: a repeated int32 field 4 of the root message whose
sequence-begin callback returns Break. -/
def sample_break_f : upb_fhandlers :=
  { sample_seq_f with
    number := 4, fval := 55,
    startseq := some (fun c _ => ⟨UPB_BREAK, c⟩) }

/-- Sample field handlers: a message field 5 of the root message whose
submessage-begin callback returns SkipSubmessage and whose submessage-end
callback returns Break. -/
def sample_skip_f : upb_fhandlers :=
  { sample_sub_f with
    number := 5, fval := 66,
    startsubmsg := some (fun c _ => ⟨UPB_SKIPSUBMSG, c⟩),
    endsubmsg := some (fun _ _ => UPB_BREAK) }

/-- Sample registry whose root begin-of-message callback returns Break. -/
def sample_break_handlers : upb_handlers :=
  { sample_handlers with
    msgs := [
      { fieldtab := [(8, sample_seq_f), (18, sample_sub_f)],
        startmsg := some (fun _ => UPB_BREAK),
        endmsg := some (fun _ s => s), is_group := false },
      { fieldtab := [],
        startmsg := some (fun _ => UPB_BREAK),
        endmsg := some (fun _ s => s), is_group := false }] }

/-- Sixty-four nested sequences of the sample field, opened and closed. -/
def sample_nested_seqs : List upb_event :=
  List.replicate 64 (upb_event.startseq sample_seq_f) ++ List.replicate 64 upb_event.endseq

/-- Sixty-three nested submessages: the sample message field, then the
recursive field of its type. -/
def sample_nested_submsgs : List upb_event :=
  upb_event.startsubmsg sample_sub_f :: List.replicate 62 (upb_event.startsubmsg sample_rec_f)

/-- A short well-nested run: a sequence, then a submessage holding a
sequence. -/
def sample_run : List upb_event :=
  [upb_event.startseq sample_seq_f, upb_event.endseq,
   upb_event.startsubmsg sample_sub_f, upb_event.startseq sample_seq_f, upb_event.endseq,
   upb_event.endsubmsg]

/-- The state the sample dispatcher is in after a begin-sequence of the
repeated message field at the root. -/
def sample_in_seq : Except Fault upb_dispatcher :=
  upb_dispatch_startseq sample_handlers (sample_dispatcher 64) sample_repsub_f

/-- The state the sample dispatcher is in after a begin-submessage of the
sample message field at the root. -/
def sample_in_submsg : Except Fault upb_dispatcher :=
  upb_dispatch_startsubmsg sample_handlers (sample_dispatcher 64) sample_sub_f

/-- An operation on the dispatcher: a structural event, begin-message, or the
unwind with a control-flow value. -/
inductive upb_op
  | event (e : upb_event)
  | startmsg
  | unwind (flow : upb_flow_t)

/-- One operation, dispatched to the function that performs it. -/
def upb_dispatch_op (h : upb_handlers) (d : upb_dispatcher) :
    upb_op → Except Fault upb_dispatcher
  | .event e => upb_dispatch_event h d e
  | .startmsg => upb_dispatch_startmsg h d
  | .unwind flow => _upb_dispatcher_unwind h d flow

/-- A list of operations, performed in order; stops at the first fault. -/
def upb_dispatch_ops (h : upb_handlers) :
    List upb_op → upb_dispatcher → Except Fault upb_dispatcher
  | [], d => .ok d
  | o :: os, d =>
    match upb_dispatch_op h d o with
    | .error x => .error x
    | .ok d1 => upb_dispatch_ops h os d1

/-- Sample field handlers: a repeated int32 field 6 of the second message
type whose sequence-begin callback returns SkipSubmessage. -/
def sample_skipseq_f : upb_fhandlers :=
  { sample_seq_f with
    number := 6, fval := 77, msg := some 1,
    startseq := some (fun c _ => ⟨UPB_SKIPSUBMSG, c⟩) }

/-- A sample list of operations: a submessage is opened, begin-message runs,
and a sequence-begin callback asks to skip the submessage. -/
def sample_ops : List upb_op :=
  [upb_op.event (upb_event.startsubmsg sample_sub_f), upb_op.startmsg,
   upb_op.event (upb_event.startseq sample_seq_f), upb_op.event upb_event.endseq,
   upb_op.event (upb_event.startseq sample_skipseq_f)]

/-- The submessage link of field handlers is non-null exactly when their type
is message or group. -/
def fhandlers_link_ok (fh : upb_fhandlers) : Prop :=
  fh.submsg ≠ none ↔ upb_issubmsgtype fh.type = true

/-- All field handlers in the tables of the registry satisfy
`fhandlers_link_ok`. -/
def handlers_link_ok (h : upb_handlers) : Prop :=
  ∀ r t fh, flookup h r t = some fh → fhandlers_link_ok fh

/-- The recursive call `dfs` keeps `handlers_link_ok`. -/
def dfs_keeps_links (dfs : Nat → upb_regstate → Except Fault (upb_regstate × Nat)) : Prop :=
  ∀ (j : Nat) (st0 st1 : upb_regstate) (k : Nat), handlers_link_ok st0.h →
    dfs j st0 = .ok (st1, k) → handlers_link_ok st1.h

/-! ### The log of the registration callbacks -/

/-- The handler set that an invocation of a registration callback is about:
the handler set given to `msgreg_cb`, or the one that holds the field
handlers given to `fieldreg_cb`. -/
def call_mh : upb_regcall → Nat
  | .onmsg _ mh _ => mh
  | .onfield _ mh _ _ => mh

/-- The invocations in the log `l` that are about the handler set `k`, in
the order of the log. -/
def calls_of (k : Nat) (l : List upb_regcall) : List upb_regcall :=
  l.filter (fun c => decide (call_mh c = k))

/-- One invocation of `fieldreg_cb` for each field of `fs`, in the order of
`fs`, each with the field handlers of the field in handler set `k`. -/
def field_calls (wt : upb_fieldtype_t → Nat) (closure k : Nat) (fs : List upb_fielddef) :
    List upb_regcall :=
  fs.map (fun f => upb_regcall.onfield closure k (field_tag wt f.number f.type) f)

/-- The invocations for the message definition `j` (which is `md`) with
handler set `k`: one of `msgreg_cb`, then one of `fieldreg_cb` per field in
declaration order. -/
def msg_calls (wt : upb_fieldtype_t → Nat) (closure k j : Nat) (md : upb_msgdef) :
    List upb_regcall :=
  upb_regcall.onmsg closure k j :: field_calls wt closure k md.fields

/-- For every message definition whose name was registered between `st` and
`st1`, the invocations about its handler set among `new` are exactly
`msg_calls`. -/
def new_calls (wt : upb_fieldtype_t → Nat) (S : List upb_msgdef) (closure : Nat)
    (st st1 : upb_regstate) (new : List upb_regcall) : Prop :=
  ∀ (j : Nat) (md : upb_msgdef) (k : Nat), S[j]? = some md → md.fqname ∉ mtab_keys st →
    tab_lookup md.fqname st1.mtab = some k → calls_of k new = msg_calls wt closure k j md

/-- The recursive call `dfs` appends to the log, only invocations about
handler sets that it added, and for each message definition that it
registered exactly `msg_calls`. -/
def dfs_calls (wt : upb_fieldtype_t → Nat) (S : List upb_msgdef) (closure o : Nat)
    (dfs : Nat → upb_regstate → Except Fault (upb_regstate × Nat)) : Prop :=
  ∀ (j : Nat) (sub : upb_msgdef) (st0 st1 : upb_regstate) (k : Nat), S[j]? = some sub →
    sub.fqname ∉ mtab_keys st0 → reg_inv o st0 → dfs j st0 = .ok (st1, k) →
    ∃ new, st1.calls = st0.calls ++ new ∧
      (∀ c ∈ new, st0.h.msgs.length ≤ call_mh c ∧ call_mh c < st1.h.msgs.length) ∧
      new_calls wt S closure st0 st1 new

/-- Sample registration callback for fields: attaches no callbacks. -/
def sample_onfieldreg : upb_onfieldreg := fun _ _ _ =>
  { fval := 0, value := none, startsubmsg := none, endsubmsg := none,
    startseq := none, endseq := none }

/-! ### The keys entered into the field tables -/

/-- The keys of the fields of a message definition, in declaration order. -/
def own_keys (wt : upb_fieldtype_t → Nat) (md : upb_msgdef) : List Nat :=
  md.fields.map (fun f => field_tag wt f.number f.type)

/-- The group fields of the schema that refer to the message definition `j`,
in the order of the schema. -/
def group_fields_to (S : List upb_msgdef) (j : Nat) : List upb_fielddef :=
  S.flatMap (fun md => md.fields.filter (fun f => decide (f.type = GROUP ∧ f.def_ = j)))

/-- The keys of the end-of-group pseudo-fields that the group fields of the
schema referring to the message definition `j` add to its handler set. -/
def endgroup_keys (wt : upb_fieldtype_t → Nat) (S : List upb_msgdef) (j : Nat) : List Nat :=
  (group_fields_to S j).map (fun f => field_tag wt f.number ENDGROUP)

/-- All keys that a registration can enter into the field table of the
message definition `j` (which is `md`). -/
def table_keys (wt : upb_fieldtype_t → Nat) (S : List upb_msgdef) (j : Nat) (md : upb_msgdef) :
    List Nat :=
  own_keys wt md ++ endgroup_keys wt S j

/-- No field table of the schema is given the same key twice: for each
message definition, the keys of its fields and the keys of the end-of-group
pseudo-fields of the group fields that refer to it are pairwise distinct. -/
def schema_keys_distinct (wt : upb_fieldtype_t → Nat) (S : List upb_msgdef) : Prop :=
  ∀ j : Fin S.length, (table_keys wt S j.1 (S.get j)).Nodup

/-- The field `s.2` of the message definition `s.1` accounts for the key `t`
in the field table of the handler set `k`: `k` is the handler set of `s.1`
and `t` the key of the field, or the field is a group field, `k` is the
handler set of its type and `t` is the key of its end-of-group
pseudo-field. -/
def key_source (wt : upb_fieldtype_t → Nat) (S : List upb_msgdef) (st : upb_regstate)
    (k t : Nat) (s : Nat × upb_fielddef) : Prop :=
  ∃ md, S[s.1]? = some md ∧ s.2 ∈ md.fields ∧
    ((tab_lookup md.fqname st.mtab = some k ∧ t = field_tag wt s.2.number s.2.type) ∨
     (s.2.type = GROUP ∧ t = field_tag wt s.2.number ENDGROUP ∧
       ∃ sub, S[s.2.def_]? = some sub ∧ tab_lookup sub.fqname st.mtab = some k))

/-- Every key in the field tables of the handler sets added since the
registration started is accounted for by a field in `P`. -/
def tables_from (wt : upb_fieldtype_t → Nat) (S : List upb_msgdef) (o : Nat)
    (st : upb_regstate) (P : Nat × upb_fielddef → Prop) : Prop :=
  ∀ k t, o ≤ k → flookup st.h k t ≠ none → ∃ s, P s ∧ key_source wt S st k t s

/-- Every field in `P` belongs to a message definition whose name is
registered. -/
def owners_in (S : List upb_msgdef) (st : upb_regstate) (P : Nat × upb_fielddef → Prop) :
    Prop :=
  ∀ s, P s → ∃ md, S[s.1]? = some md ∧ md.fqname ∈ mtab_keys st

/-- The field `s` belongs to a message definition whose name was registered
between `st` and `st1`. -/
def added_by (S : List upb_msgdef) (st st1 : upb_regstate) (s : Nat × upb_fielddef) : Prop :=
  ∃ md, S[s.1]? = some md ∧ md.fqname ∈ mtab_keys st1 ∧ md.fqname ∉ mtab_keys st

/-- The recursive call `dfs` does not abort when it is made on a message
definition whose name is not registered, in a state whose field tables hold
only keys of fields of registered message definitions; when it returns, the
tables hold in addition only keys of fields of the message definitions that
it registered. -/
def dfs_no_abort (wt : upb_fieldtype_t → Nat) (S : List upb_msgdef) (o : Nat)
    (dfs : Nat → upb_regstate → Except Fault (upb_regstate × Nat)) : Prop :=
  ∀ (j : Nat) (sub : upb_msgdef) (st0 : upb_regstate) (P : Nat × upb_fielddef → Prop),
    S[j]? = some sub → sub.fqname ∉ mtab_keys st0 → reg_inv o st0 →
    tables_from wt S o st0 P → owners_in S st0 P →
    dfs j st0 ≠ .error .abort ∧
      ∀ st1 k, dfs j st0 = .ok (st1, k) →
        tables_from wt S o st1 (fun s => P s ∨ added_by S st0 st1 s)

/-- Sample schema in which the messages `A` and `B` each declare a group
field number 1 of the same type `G`; `R` has a field of each of the two. -/
def sample_shared_group_schema : List upb_msgdef :=
  [{ fqname := "R", fields := [
      { number := 1, type := MESSAGE, repeated := false, def_ := 1 },
      { number := 2, type := MESSAGE, repeated := false, def_ := 2 }] },
   { fqname := "A", fields := [{ number := 1, type := GROUP, repeated := false, def_ := 3 }] },
   { fqname := "B", fields := [{ number := 1, type := GROUP, repeated := false, def_ := 3 }] },
   { fqname := "G", fields := [] }]

/-- Sample schema in which two message definitions carry the name `B`: `R`
has a group field number 5 of the first type, which has a group field
number 5 of the second. -/
def sample_samename_group_schema : List upb_msgdef :=
  [{ fqname := "R", fields := [{ number := 5, type := GROUP, repeated := false, def_ := 1 }] },
   { fqname := "B", fields := [{ number := 5, type := GROUP, repeated := false, def_ := 2 }] },
   { fqname := "B", fields := [] }]

/-! ## Theorems -/

/-! ### Tables -/

theorem tab_lookup_none_iff {K V : Type} [DecidableEq K] (key : K) (t : List (K × V)) :
    tab_lookup key t = none ↔ key ∉ t.map Prod.fst := by
  induction t with
  | nil => simp [tab_lookup]
  | cons e t ih =>
    obtain ⟨k, v⟩ := e
    by_cases hk : k = key
    · simp [tab_lookup, hk]
    · have hk2 : ¬ key = k := fun h => hk h.symm
      simp [tab_lookup, hk, hk2, ih]

theorem tab_lookup_append_some {K V : Type} [DecidableEq K] (key : K) (v : V)
    (t u : List (K × V)) (hl : tab_lookup key t = some v) :
    tab_lookup key (t ++ u) = some v := by
  induction t with
  | nil => simp [tab_lookup] at hl
  | cons e t ih =>
    obtain ⟨k, x⟩ := e
    by_cases hk : k = key
    · simpa [tab_lookup, hk] using hl
    · simp only [tab_lookup, hk, if_false, List.cons_append] at hl ⊢
      exact ih hl

theorem tab_lookup_append_none {K V : Type} [DecidableEq K] (key : K)
    (t u : List (K × V)) (hl : tab_lookup key t = none) :
    tab_lookup key (t ++ u) = tab_lookup key u := by
  induction t with
  | nil => rfl
  | cons e t ih =>
    obtain ⟨k, x⟩ := e
    by_cases hk : k = key
    · simp [tab_lookup, hk] at hl
    · simp only [tab_lookup, hk, if_false, List.cons_append] at hl ⊢
      exact ih hl

theorem tab_lookup_insert_new {K V : Type} [DecidableEq K] (key : K) (v : V)
    (t : List (K × V)) (hl : tab_lookup key t = none) :
    tab_lookup key (tab_insert t key v) = some v := by
  rw [tab_insert, tab_lookup_append_none key t _ hl]
  simp [tab_lookup]

theorem tab_lookup_insert_ne {K V : Type} [DecidableEq K] (key k : K) (v : V)
    (t : List (K × V)) (hk : k ≠ key) :
    tab_lookup key (tab_insert t k v) = tab_lookup key t := by
  cases hl : tab_lookup key t with
  | none =>
    rw [tab_insert, tab_lookup_append_none key t _ hl]
    simp [tab_lookup, hk]
  | some x => exact tab_lookup_append_some key x t _ hl

theorem tab_lookup_update {K V : Type} [DecidableEq K] (key k : K) (g : V → V)
    (t : List (K × V)) :
    tab_lookup key (tab_update k g t) =
      if key = k then (tab_lookup key t).map g else tab_lookup key t := by
  induction t with
  | nil => simp [tab_lookup, tab_update]
  | cons e t ih =>
    obtain ⟨a, x⟩ := e
    by_cases hak : a = k
    · by_cases hkey : key = k
      · subst hak; subst hkey
        simp [tab_lookup, tab_update]
      · have h1 : ¬ k = key := fun h => hkey h.symm
        subst hak
        simp [tab_lookup, tab_update, hkey, h1]
    · by_cases hkey : key = k
      · subst hkey
        simp only [tab_update, hak, if_false, tab_lookup, ih, if_true]
      · simp only [tab_update, hak, if_false, tab_lookup, ih, hkey]

theorem tab_lookup_mem {K V : Type} [DecidableEq K] (key : K) (v : V) (t : List (K × V))
    (hl : tab_lookup key t = some v) : (key, v) ∈ t := by
  induction t with
  | nil => simp [tab_lookup] at hl
  | cons e t ih =>
    obtain ⟨k, x⟩ := e
    by_cases hk : k = key
    · simp only [tab_lookup, hk, if_true, Option.some.injEq] at hl
      subst hk; subst hl
      exact List.mem_cons_self _ _
    · simp only [tab_lookup, hk, if_false] at hl
      exact List.mem_cons_of_mem _ (ih hl)

theorem tab_lookup_extends {K V : Type} [DecidableEq K] (key : K) (v : V)
    (t u : List (K × V)) (hp : t <+: u) (hl : tab_lookup key t = some v) :
    tab_lookup key u = some v := by
  obtain ⟨w, rfl⟩ := hp
  exact tab_lookup_append_some key v t w hl


/-! ### Registry operations -/

theorem flookup_set (h : upb_handlers) (m : Nat) (x mh : upb_mhandlers) (r t : Nat)
    (hm : h.msgs[m]? = some mh) :
    flookup { h with msgs := h.msgs.set m x } r t =
      if r = m then tab_lookup t x.fieldtab else flookup h r t := by
  have hlt : m < h.msgs.length := by
    rcases Nat.lt_or_ge m h.msgs.length with h1 | h1
    · exact h1
    · rw [List.getElem?_eq_none h1] at hm; cases hm
  by_cases hr : r = m
  · subst hr
    simp [flookup, List.getElem?_set_self hlt]
  · have hne : m ≠ r := fun h1 => hr h1.symm
    simp [flookup, List.getElem?_set_ne hne, hr]

theorem fhandlers_write_length (h : upb_handlers) (p : Nat × Nat)
    (g : upb_fhandlers → upb_fhandlers) :
    (fhandlers_write h p g).msgs.length = h.msgs.length := by
  unfold fhandlers_write
  split <;> simp

theorem flookup_write (h : upb_handlers) (p : Nat × Nat) (g : upb_fhandlers → upb_fhandlers)
    (r t : Nat) :
    flookup (fhandlers_write h p g) r t =
      if r = p.1 ∧ t = p.2 then (flookup h r t).map g else flookup h r t := by
  unfold fhandlers_write
  cases hm : h.msgs[p.1]? with
  | none =>
    simp only
    by_cases hr : r = p.1
    · subst hr
      simp [flookup, hm]
    · simp [hr]
  | some mh =>
    simp only
    rw [flookup_set h p.1 _ mh r t hm]
    by_cases hr : r = p.1
    · subst hr
      simp only [tab_lookup_update, flookup, hm, if_true, true_and]
    · simp [hr]

/-- The function `_upb_mhandlers_newfhandlers`, when it returns: the key was
free, the new field handlers are under it, no other entry changed. -/
theorem newfhandlers_spec (wt : upb_fieldtype_t → Nat) (h h1 : upb_handlers)
    (m n : Nat) (type : upb_fieldtype_t) (repeated : Bool) (p : Nat × Nat)
    (hr : _upb_mhandlers_newfhandlers wt h m n type repeated = .ok (h1, p)) :
    p = (m, field_tag wt n type) ∧ h1.msgs.length = h.msgs.length ∧
      m < h.msgs.length ∧
      flookup h m (field_tag wt n type) = none ∧
      (∃ fh, flookup h1 m (field_tag wt n type) = some fh ∧ fh.submsg = none ∧
        fh.type = type ∧ fh.number = n ∧ fh.msg = some m) ∧
      (∀ r t, (r ≠ m ∨ t ≠ field_tag wt n type) → flookup h1 r t = flookup h r t) := by
  unfold _upb_mhandlers_newfhandlers at hr
  split at hr
  · cases hr
  · rename_i mh hm
    have hlt : m < h.msgs.length := by
      rcases Nat.lt_or_ge m h.msgs.length with h1 | h1
      · exact h1
      · rw [List.getElem?_eq_none h1] at hm; cases hm
    simp only at hr
    split at hr
    · cases hr
    · rename_i hnone
      rw [tab_lookup_insert_new _ _ _ hnone] at hr
      simp only [ne_eq, not_true_eq_false, if_false, Except.ok.injEq, Prod.mk.injEq] at hr
      obtain ⟨rfl, rfl⟩ := hr
      refine ⟨rfl, by simp, hlt, by simp [flookup, hm, hnone], ?_, ?_⟩
      · rw [flookup_set h m _ mh m _ hm]
        simp [tab_lookup_insert_new _ _ _ hnone]
      · intro r t hrt
        rw [flookup_set h m _ mh r t hm]
        by_cases hrm : r = m
        · subst hrm
          have ht : t ≠ field_tag wt n type := by
            rcases hrt with h1 | h1
            · exact absurd rfl h1
            · exact h1
          simp only [if_true]
          rw [tab_lookup_insert_ne t _ _ _ (fun h1 => ht h1.symm)]
          simp [flookup, hm]
        · simp [hrm]


theorem handlers_kept_refl (h : upb_handlers) : handlers_kept h h :=
  fun _ _ fh hl => ⟨fh, hl, rfl, rfl, rfl, rfl⟩

theorem handlers_kept_trans {h h1 h2 : upb_handlers} (h01 : handlers_kept h h1)
    (h12 : handlers_kept h1 h2) : handlers_kept h h2 := by
  intro r t fh hl
  obtain ⟨fh1, hl1, a1, b1, c1, d1⟩ := h01 r t fh hl
  obtain ⟨fh2, hl2, a2, b2, c2, d2⟩ := h12 r t fh1 hl1
  exact ⟨fh2, hl2, a2.trans a1, b2.trans b1, c2.trans c1, d2.trans d1⟩

theorem newfhandlers_kept (wt : upb_fieldtype_t → Nat) (h h1 : upb_handlers)
    (m n : Nat) (type : upb_fieldtype_t) (repeated : Bool) (p : Nat × Nat)
    (hr : _upb_mhandlers_newfhandlers wt h m n type repeated = .ok (h1, p)) :
    handlers_kept h h1 := by
  obtain ⟨_, _, _, hnone, _, hsame⟩ := newfhandlers_spec wt h h1 m n type repeated p hr
  intro r t fh hl
  have hne : r ≠ m ∨ t ≠ field_tag wt n type := by
    by_contra hc
    push_neg at hc
    rw [hc.1, hc.2, hnone] at hl
    cases hl
  exact ⟨fh, (hsame r t hne).trans hl, rfl, rfl, rfl, rfl⟩

theorem fhandlers_write_kept (h : upb_handlers) (p : Nat × Nat)
    (g : upb_fhandlers → upb_fhandlers)
    (hg : ∀ x, (g x).submsg = x.submsg ∧ (g x).type = x.type ∧ (g x).number = x.number ∧
      (g x).msg = x.msg) :
    handlers_kept h (fhandlers_write h p g) := by
  intro r t fh hl
  rw [flookup_write]
  split
  · exact ⟨g fh, by simp [hl], (hg fh).1, (hg fh).2.1, (hg fh).2.2.1, (hg fh).2.2.2⟩
  · exact ⟨fh, hl, rfl, rfl, rfl, rfl⟩

/-- The function `upb_mhandlers_newfhandlers_subm`, when it returns: the new
field handlers are in handler set `m` under the field's key and link to
`subm`; the handlers that were there are kept. -/
theorem newfhandlers_subm_spec (wt : upb_fieldtype_t → Nat) (h h1 : upb_handlers)
    (m n : Nat) (type : upb_fieldtype_t) (repeated : Bool) (subm : Option Nat) (p : Nat × Nat)
    (hr : upb_mhandlers_newfhandlers_subm wt h m n type repeated subm = .ok (h1, p)) :
    p = (m, field_tag wt n type) ∧ h1.msgs.length = h.msgs.length ∧ handlers_kept h h1 ∧
      ∃ fh, flookup h1 m (field_tag wt n type) = some fh ∧ fh.submsg = subm ∧
        fh.type = type ∧ fh.number = n ∧ fh.msg = some m := by
  unfold upb_mhandlers_newfhandlers_subm at hr
  split at hr
  · cases hr
  · split at hr
    · cases hr
    · rename_i sub
      split at hr
      · cases hr
      · rename_i ha pa hfirst
        obtain ⟨hp, hlen, _, hnone, ⟨fh0, hfh0, _, ht0, hn0, hm0⟩, hsame⟩ :=
          newfhandlers_spec wt h ha m n type repeated pa hfirst
        have hk1 := newfhandlers_kept wt h ha m n type repeated pa hfirst
        subst hp
        -- the state after the write of `f->submsg`
        have hw : flookup (fhandlers_write ha (m, field_tag wt n type)
            (fun fh => { fh with submsg := some sub })) m (field_tag wt n type) =
            some { fh0 with submsg := some sub } := by
          rw [flookup_write]
          simp [hfh0]
        have hk2 : handlers_kept h (fhandlers_write ha (m, field_tag wt n type)
            (fun fh => { fh with submsg := some sub })) := by
          intro r t fh hl
          have hne : r ≠ m ∨ t ≠ field_tag wt n type := by
            by_contra hc
            push_neg at hc
            rw [hc.1, hc.2, hnone] at hl
            cases hl
          refine ⟨fh, ?_, rfl, rfl, rfl, rfl⟩
          rw [flookup_write]
          have hne2 : ¬ (r = m ∧ t = field_tag wt n type) := by
            intro hc
            rcases hne with h1 | h1
            · exact h1 hc.1
            · exact h1 hc.2
          simp only [hne2, if_false]
          exact (hsame r t hne).trans hl
        simp only at hr
        split at hr
        · split at hr
          · cases hr
          · rename_i hb pb hsecond
            simp only [Except.ok.injEq, Prod.mk.injEq] at hr
            obtain ⟨rfl, rfl⟩ := hr
            obtain ⟨_, hlen2, _, hnone2, _, hsame2⟩ :=
              newfhandlers_spec wt _ hb sub n ENDGROUP false pb hsecond
            have hk3 := newfhandlers_kept wt _ hb sub n ENDGROUP false pb hsecond
            refine ⟨rfl, ?_, handlers_kept_trans hk2 hk3, ?_⟩
            · rw [hlen2, fhandlers_write_length, hlen]
            · obtain ⟨fh1, hl1, a1, b1, c1, d1⟩ := hk3 _ _ _ hw
              exact ⟨fh1, hl1, a1, b1.trans ht0, c1.trans hn0, d1.trans hm0⟩
        · simp only [Except.ok.injEq, Prod.mk.injEq] at hr
          obtain ⟨rfl, rfl⟩ := hr
          refine ⟨rfl, ?_, hk2, _, hw, rfl, ht0, hn0, hm0⟩
          rw [fhandlers_write_length, hlen]

theorem newfhandlers_scalar_spec (wt : upb_fieldtype_t → Nat) (h h1 : upb_handlers)
    (m n : Nat) (type : upb_fieldtype_t) (repeated : Bool) (p : Nat × Nat)
    (hr : upb_mhandlers_newfhandlers wt h m n type repeated = .ok (h1, p)) :
    p = (m, field_tag wt n type) ∧ h1.msgs.length = h.msgs.length ∧ handlers_kept h h1 := by
  unfold upb_mhandlers_newfhandlers at hr
  split at hr
  · cases hr
  · split at hr
    · cases hr
    · obtain ⟨hp, hlen, _⟩ := newfhandlers_spec wt h h1 m n type repeated p hr
      exact ⟨hp, hlen, newfhandlers_kept wt h h1 m n type repeated p hr⟩

theorem call_fieldreg_spec (cb : Option upb_onfieldreg) (closure : Nat) (fh : Nat × Nat)
    (f : upb_fielddef) (st : upb_regstate) :
    (call_fieldreg cb closure fh f st).mtab = st.mtab ∧
    (call_fieldreg cb closure fh f st).h.msgs.length = st.h.msgs.length ∧
    handlers_kept st.h (call_fieldreg cb closure fh f st).h := by
  cases cb with
  | none => exact ⟨rfl, rfl, handlers_kept_refl _⟩
  | some cb =>
    refine ⟨rfl, ?_, ?_⟩
    · simp only [call_fieldreg]
      exact fhandlers_write_length _ _ _
    · simp only [call_fieldreg]
      exact fhandlers_write_kept _ _ _ (fun x => ⟨rfl, rfl, rfl, rfl⟩)

theorem mhandlers_write_spec (h : upb_handlers) (m : Nat) (g : upb_mhandlers → upb_mhandlers)
    (hg : ∀ x, (g x).fieldtab = x.fieldtab) :
    (mhandlers_write h m g).msgs.length = h.msgs.length ∧
    handlers_kept h (mhandlers_write h m g) := by
  unfold mhandlers_write
  cases hm : h.msgs[m]? with
  | none => exact ⟨rfl, handlers_kept_refl _⟩
  | some x =>
    refine ⟨by simp, ?_⟩
    intro r t fh hl
    refine ⟨fh, ?_, rfl, rfl, rfl, rfl⟩
    simp only
    rw [flookup_set h m _ x r t hm]
    by_cases hr : r = m
    · subst hr
      simpa [flookup, hm, hg] using hl
    · simpa [hr] using hl

theorem call_msgreg_spec (cb : Option upb_onmsgreg) (closure mh m : Nat) (st : upb_regstate) :
    (call_msgreg cb closure mh m st).mtab = st.mtab ∧
    (call_msgreg cb closure mh m st).h.msgs.length = st.h.msgs.length ∧
    handlers_kept st.h (call_msgreg cb closure mh m st).h := by
  cases cb with
  | none => exact ⟨rfl, rfl, handlers_kept_refl _⟩
  | some cb =>
    have hw := mhandlers_write_spec st.h mh
      (fun x => { x with startmsg := (cb closure mh m).startmsg,
                         endmsg := (cb closure mh m).endmsg }) (fun _ => rfl)
    exact ⟨rfl, hw.1, hw.2⟩

theorem newmhandlers_spec (h : upb_handlers) :
    (upb_handlers_newmhandlers h).2 = h.msgs.length ∧
    (upb_handlers_newmhandlers h).1.msgs.length = h.msgs.length + 1 ∧
    handlers_kept h (upb_handlers_newmhandlers h).1 := by
  refine ⟨rfl, by simp [upb_handlers_newmhandlers], ?_⟩
  intro r t fh hl
  refine ⟨fh, ?_, rfl, rfl, rfl, rfl⟩
  have hlt : r < h.msgs.length := by
    rcases Nat.lt_or_ge r h.msgs.length with h1 | h1
    · exact h1
    · simp [flookup, List.getElem?_eq_none h1] at hl
  simpa [flookup, upb_handlers_newmhandlers, List.getElem?_append_left hlt] using hl


/-! ### The traversal: what a returning call establishes -/

theorem submsg_linked_mono (wt : upb_fieldtype_t → Nat) (S : List upb_msgdef)
    (st st1 : upb_regstate) (k : Nat) (f : upb_fielddef)
    (hp : st.mtab <+: st1.mtab) (hk : handlers_kept st.h st1.h)
    (hl : submsg_linked wt S st k f) : submsg_linked wt S st1 k f := by
  obtain ⟨fh, sub, k2, hs, hlk, hfl, a, b, c, d⟩ := hl
  obtain ⟨fh1, hfl1, a1, b1, c1, d1⟩ := hk _ _ _ hfl
  exact ⟨fh1, sub, k2, hs, tab_lookup_extends _ _ _ _ hp hlk, hfl1, a1.trans a, b1.trans b,
    c1.trans c, d1.trans d⟩

theorem mtab_keys_extends (st st1 : upb_regstate) (hp : st.mtab <+: st1.mtab) :
    ∀ key ∈ mtab_keys st, key ∈ mtab_keys st1 :=
  fun _ hk => (hp.map Prod.fst).subset hk

theorem new_closed_trans (wt : upb_fieldtype_t → Nat) (S : List upb_msgdef)
    (st st1 st2 : upb_regstate) (h01 : new_closed wt S st st1) (h12 : new_closed wt S st1 st2)
    (hp : st1.mtab <+: st2.mtab) (hk : handlers_kept st1.h st2.h) :
    new_closed wt S st st2 := by
  intro j md hj hin hnot
  by_cases h1 : md.fqname ∈ mtab_keys st1
  · obtain ⟨k, hlk, hf⟩ := h01 j md hj h1 hnot
    exact ⟨k, tab_lookup_extends _ _ _ _ hp hlk,
      fun f hf1 hf2 => submsg_linked_mono wt S st1 st2 k f hp hk (hf f hf1 hf2)⟩
  · exact h12 j md hj hin h1

theorem new_reach_trans (S : List upb_msgdef) (P : Nat → Prop)
    (st st1 st2 : upb_regstate) (h01 : new_reach S P st st1) (h12 : new_reach S P st1 st2) :
    new_reach S P st st2 := by
  intro key hin hnot
  by_cases h1 : key ∈ mtab_keys st1
  · exact h01 key h1 hnot
  · exact h12 key hin h1

theorem new_reach_mono (S : List upb_msgdef) (P Q : Nat → Prop) (st st1 : upb_regstate)
    (hpq : ∀ j, P j → Q j) (h01 : new_reach S P st st1) : new_reach S Q st st1 := by
  intro key hin hnot
  obtain ⟨j, md, hj, hn, hp⟩ := h01 key hin hnot
  exact ⟨j, md, hj, hn, hpq j hp⟩

theorem new_closed_same (wt : upb_fieldtype_t → Nat) (S : List upb_msgdef)
    (st st1 : upb_regstate) (hm : st1.mtab = st.mtab) : new_closed wt S st st1 := by
  intro j md _ hin hnot
  simp only [mtab_keys, hm] at hin
  exact absurd hin hnot

theorem new_reach_same (S : List upb_msgdef) (P : Nat → Prop)
    (st st1 : upb_regstate) (hm : st1.mtab = st.mtab) : new_reach S P st st1 := by
  intro key hin hnot
  simp only [mtab_keys, hm] at hin
  exact absurd hin hnot

theorem reg_inv_same (o : Nat) (st st1 : upb_regstate) (hm : st1.mtab = st.mtab)
    (hl : st1.h.msgs.length = st.h.msgs.length) (hi : reg_inv o st) : reg_inv o st1 := by
  unfold reg_inv mtab_keys at *
  rw [hm, hl]
  exact hi

/-- One iteration of the field loop, when it returns. -/
theorem regmsg_field_post (wt : upb_fieldtype_t → Nat) (S : List upb_msgdef)
    (fcb : Option upb_onfieldreg) (closure o : Nat)
    (dfs : Nat → upb_regstate → Except Fault (upb_regstate × Nat))
    (hdfs : dfs_sound wt S o dfs) (mh : Nat) (f : upb_fielddef) (st st2 : upb_regstate)
    (hinv : reg_inv o st)
    (hr : regmsg_field wt S fcb closure dfs mh f st = .ok st2) :
    st.mtab <+: st2.mtab ∧ reg_inv o st2 ∧ handlers_kept st.h st2.h ∧
      new_closed wt S st st2 ∧
      new_reach S (fun j => upb_issubmsg f = true ∧ schema_reach S f.def_ j) st st2 ∧
      (upb_issubmsg f = true → submsg_linked wt S st2 mh f) := by
  unfold regmsg_field at hr
  split at hr
  · rename_i hsub
    split at hr
    · cases hr
    · rename_i sub hsubdef
      simp only at hr
      -- the handler set of the field's type: found in `mtab`, or a recursive call
      have hfound : ∀ r, (match tab_lookup sub.fqname st.mtab with
            | some sub_mh => (Except.ok (st, sub_mh) : Except Fault (upb_regstate × Nat))
            | none => dfs f.def_ st) = .ok r →
          st.mtab <+: r.1.mtab ∧ reg_inv o r.1 ∧ handlers_kept st.h r.1.h ∧
            tab_lookup sub.fqname r.1.mtab = some r.2 ∧ new_closed wt S st r.1 ∧
            new_reach S (schema_reach S f.def_) st r.1 := by
        intro r hrr
        cases hl : tab_lookup sub.fqname st.mtab with
        | some k =>
          rw [hl] at hrr
          simp only [Except.ok.injEq] at hrr
          subst hrr
          exact ⟨List.prefix_refl _, hinv, handlers_kept_refl _, hl,
            new_closed_same wt S st st rfl, new_reach_same S _ st st rfl⟩
        | none =>
          rw [hl] at hrr
          simp only at hrr
          have hnot : sub.fqname ∉ mtab_keys st := (tab_lookup_none_iff _ _).1 hl
          obtain ⟨a, b, c, _, e, g1, g2⟩ := hdfs f.def_ sub st r.1 r.2 hsubdef hnot hinv hrr
          exact ⟨a, b, c, e, g1, g2⟩
      split at hr
      · cases hr
      · rename_i st1 k hfd
        obtain ⟨hp1, hinv1, hk1, hlk1, hc1, hr1⟩ := hfound (st1, k) hfd
        split at hr
        · cases hr
        · rename_i h2 fh hnew
          simp only [Except.ok.injEq] at hr
          obtain ⟨hfh, hlen2, hk2, x, hx, hxs, hxt, hxn, hxm⟩ :=
            newfhandlers_subm_spec wt st1.h h2 mh f.number f.type (upb_isseq f) (some k) fh hnew
          obtain ⟨hm3, hlen3, hk3⟩ :=
            call_fieldreg_spec fcb closure fh f { st1 with h := h2 }
          rw [hr] at hm3 hlen3 hk3
          simp only at hm3 hlen3 hk3
          have hp2 : st1.mtab <+: st2.mtab := by rw [hm3]
          have hk12 : handlers_kept st1.h st2.h := handlers_kept_trans hk2 hk3
          refine ⟨hp1.trans hp2, reg_inv_same o st1 st2 hm3 (hlen3.trans hlen2) hinv1,
            handlers_kept_trans hk1 hk12, ?_, ?_, ?_⟩
          · exact new_closed_trans wt S st st1 st2 hc1 (new_closed_same wt S st1 st2 hm3)
              hp2 hk12
          · exact new_reach_trans S _ st st1 st2
              (new_reach_mono S _ _ st st1 (fun j hj => ⟨hsub, hj⟩) hr1)
              (new_reach_same S _ st1 st2 hm3)
          · intro _
            obtain ⟨x3, hx3, a3, b3, c3, d3⟩ := hk3 _ _ _ hx
            refine ⟨x3, sub, k, hsubdef, ?_, hx3, a3.trans hxs, b3.trans hxt, c3.trans hxn,
              d3.trans hxm⟩
            rw [hm3]
            exact hlk1
  · rename_i hsub
    split at hr
    · cases hr
    · rename_i h2 fh hnew
      simp only [Except.ok.injEq] at hr
      obtain ⟨_, hlen2, hk2⟩ :=
        newfhandlers_scalar_spec wt st.h h2 mh f.number f.type (upb_isseq f) fh hnew
      obtain ⟨hm3, hlen3, hk3⟩ := call_fieldreg_spec fcb closure fh f { st with h := h2 }
      rw [hr] at hm3 hlen3 hk3
      simp only at hm3 hlen3 hk3
      refine ⟨by rw [hm3], reg_inv_same o st st2 hm3 (hlen3.trans hlen2) hinv,
        handlers_kept_trans hk2 hk3, new_closed_same wt S st st2 hm3,
        new_reach_same S _ st st2 hm3, fun h1 => absurd h1 hsub⟩


/-- The field loop, when it returns. -/
theorem regmsg_fields_post (wt : upb_fieldtype_t → Nat) (S : List upb_msgdef)
    (fcb : Option upb_onfieldreg) (closure o : Nat)
    (dfs : Nat → upb_regstate → Except Fault (upb_regstate × Nat))
    (hdfs : dfs_sound wt S o dfs) (mh : Nat) :
    ∀ (fs : List upb_fielddef) (st st2 : upb_regstate), reg_inv o st →
      regmsg_fields wt S fcb closure dfs mh fs st = .ok st2 →
      st.mtab <+: st2.mtab ∧ reg_inv o st2 ∧ handlers_kept st.h st2.h ∧
        new_closed wt S st st2 ∧
        new_reach S (fun j => ∃ f ∈ fs, upb_issubmsg f = true ∧ schema_reach S f.def_ j)
          st st2 ∧
        (∀ f ∈ fs, upb_issubmsg f = true → submsg_linked wt S st2 mh f) := by
  intro fs
  induction fs with
  | nil =>
    intro st st2 hinv hr
    simp only [regmsg_fields, Except.ok.injEq] at hr
    subst hr
    exact ⟨List.prefix_refl _, hinv, handlers_kept_refl _, new_closed_same wt S st st rfl,
      new_reach_same S _ st st rfl, fun f hf => absurd hf (List.not_mem_nil f)⟩
  | cons f fs ih =>
    intro st st2 hinv hr
    simp only [regmsg_fields] at hr
    split at hr
    · cases hr
    · rename_i st1 hstep
      obtain ⟨hp1, hinv1, hk1, hc1, hr1, hl1⟩ :=
        regmsg_field_post wt S fcb closure o dfs hdfs mh f st st1 hinv hstep
      obtain ⟨hp2, hinv2, hk2, hc2, hr2, hl2⟩ := ih st1 st2 hinv1 hr
      refine ⟨hp1.trans hp2, hinv2, handlers_kept_trans hk1 hk2,
        new_closed_trans wt S st st1 st2 hc1 hc2 hp2 hk2, ?_, ?_⟩
      · refine new_reach_trans S _ st st1 st2 ?_ ?_
        · exact new_reach_mono S _ _ st st1
            (fun j hj => ⟨f, List.mem_cons_self _ _, hj.1, hj.2⟩) hr1
        · exact new_reach_mono S _ _ st1 st2
            (fun j ⟨g, hg, hj⟩ => ⟨g, List.mem_cons_of_mem _ hg, hj⟩) hr2
      · intro g hg hsub
        rcases List.mem_cons.1 hg with rfl | hg1
        · exact submsg_linked_mono wt S st1 st2 mh g hp2 hk2 (hl1 hsub)
        · exact hl2 g hg1 hsub

theorem names_inj (S : List upb_msgdef) (hn : (S.map upb_msgdef.fqname).Nodup)
    (i j : Nat) (a b : upb_msgdef) (hi : S[i]? = some a) (hj : S[j]? = some b)
    (hab : a.fqname = b.fqname) : i = j ∧ a = b := by
  have h1 : (S.map upb_msgdef.fqname)[i]? = some a.fqname := by simp [hi]
  have h2 : (S.map upb_msgdef.fqname)[j]? = some b.fqname := by simp [hj]
  have hil : i < (S.map upb_msgdef.fqname).length := by
    rcases Nat.lt_or_ge i (S.map upb_msgdef.fqname).length with h | h
    · exact h
    · rw [List.getElem?_eq_none h] at h1; cases h1
  have hjl : j < (S.map upb_msgdef.fqname).length := by
    rcases Nat.lt_or_ge j (S.map upb_msgdef.fqname).length with h | h
    · exact h
    · rw [List.getElem?_eq_none h] at h2; cases h2
  have e1 : (S.map upb_msgdef.fqname)[i] = a.fqname := by
    rw [List.getElem?_eq_getElem hil] at h1; exact Option.some.inj h1
  have e2 : (S.map upb_msgdef.fqname)[j] = b.fqname := by
    rw [List.getElem?_eq_getElem hjl] at h2; exact Option.some.inj h2
  have hij : i = j := (hn.getElem_inj_iff).1 (by rw [e1, e2, hab])
  subst hij
  rw [hi] at hj
  exact ⟨rfl, Option.some.inj hj⟩

/-- A call of the traversal on a message definition whose name is not yet
registered, when it returns, has registered that name with a new handler set,
and every message definition registered during the call is reachable from it
and has all its submessage fields linked. -/
theorem regmsg_dfs_sound (wt : upb_fieldtype_t → Nat) (S : List upb_msgdef)
    (hn : (S.map upb_msgdef.fqname).Nodup)
    (mcb : Option upb_onmsgreg) (fcb : Option upb_onfieldreg) (closure o : Nat) :
    ∀ fuel, dfs_sound wt S o (upb_regmsg_dfs wt S mcb fcb closure fuel) := by
  intro fuel
  induction fuel with
  | zero =>
    intro j sub st0 st1 k _ _ _ hr
    simp [upb_regmsg_dfs] at hr
  | succ fuel ih =>
    intro m md st st2 k hmd hnot hinv hr
    simp only [upb_regmsg_dfs, hmd] at hr
    split at hr
    · cases hr
    · rename_i stl hloop
      simp only [Except.ok.injEq, Prod.mk.injEq] at hr
      obtain ⟨rfl, rfl⟩ := hr
      obtain ⟨hki, hlen1, hk1⟩ := newmhandlers_spec st.h
      -- the state at the head of the field loop
      obtain ⟨hm0, hlen0, hk0⟩ := call_msgreg_spec mcb closure (upb_handlers_newmhandlers st.h).2 m
        { st with h := (upb_handlers_newmhandlers st.h).1,
                  mtab := tab_insert st.mtab md.fqname (upb_handlers_newmhandlers st.h).2 }
      simp only at hm0 hlen0 hk0
      obtain ⟨hv, hl, hnd⟩ := hinv
      have hinvh : reg_inv o (call_msgreg mcb closure (upb_handlers_newmhandlers st.h).2 m
          { st with h := (upb_handlers_newmhandlers st.h).1,
                    mtab := tab_insert st.mtab md.fqname (upb_handlers_newmhandlers st.h).2 }) := by
        refine ⟨?_, ?_, ?_⟩
        · rw [hm0, hki, tab_insert, List.map_append, hv, List.length_append, List.length_singleton,
            List.range'_1_concat, hl]
          rfl
        · rw [hlen0, hlen1, hm0, tab_insert, List.length_append, List.length_singleton, hl]
          omega
        · rw [mtab_keys, hm0]
          simp only [tab_insert, List.map_append, List.map_cons, List.map_nil]
          refine List.nodup_append.2 ⟨hnd, List.nodup_singleton _, ?_⟩
          intro x hx hx2
          rw [List.mem_singleton] at hx2
          subst hx2
          exact hnot hx
      obtain ⟨hp2, hinv2, hk2, hc2, hr2, hl2⟩ := regmsg_fields_post wt S fcb closure o _ ih
        (upb_handlers_newmhandlers st.h).2 md.fields _ stl hinvh hloop
      have hp1 : st.mtab <+: (call_msgreg mcb closure (upb_handlers_newmhandlers st.h).2 m
          { st with h := (upb_handlers_newmhandlers st.h).1,
                    mtab := tab_insert st.mtab md.fqname
                      (upb_handlers_newmhandlers st.h).2 }).mtab := by
        rw [hm0, tab_insert]
        exact List.prefix_append _ _
      have hlk : tab_lookup md.fqname stl.mtab = some (upb_handlers_newmhandlers st.h).2 := by
        refine tab_lookup_extends _ _ _ _ hp2 ?_
        rw [hm0]
        exact tab_lookup_insert_new _ _ _ ((tab_lookup_none_iff _ _).2 hnot)
      have hkeys1 : ∀ key, key ∈ mtab_keys (call_msgreg mcb closure
          (upb_handlers_newmhandlers st.h).2 m
          { st with h := (upb_handlers_newmhandlers st.h).1,
                    mtab := tab_insert st.mtab md.fqname (upb_handlers_newmhandlers st.h).2 }) →
          key ∈ mtab_keys st ∨ key = md.fqname := by
        intro key hkey
        rw [mtab_keys, hm0] at hkey
        simpa only [tab_insert, List.map_append, List.map_cons, List.map_nil,
          List.mem_append, List.mem_singleton] using hkey
      refine ⟨hp1.trans hp2, hinv2, handlers_kept_trans (handlers_kept_trans hk1 hk0) hk2,
        hki, hlk, ?_, ?_⟩
      · intro j mdj hj hin hnotj
        by_cases h1 : mdj.fqname ∈ mtab_keys (call_msgreg mcb closure
            (upb_handlers_newmhandlers st.h).2 m
            { st with h := (upb_handlers_newmhandlers st.h).1,
                      mtab := tab_insert st.mtab md.fqname (upb_handlers_newmhandlers st.h).2 })
        · rcases hkeys1 _ h1 with h2 | h2
          · exact absurd h2 hnotj
          · obtain ⟨_, rfl⟩ := names_inj S hn j m mdj md hj hmd h2
            exact ⟨_, hlk, hl2⟩
        · exact hc2 j mdj hj hin h1
      · intro key hin hnotk
        by_cases h1 : key ∈ mtab_keys (call_msgreg mcb closure
            (upb_handlers_newmhandlers st.h).2 m
            { st with h := (upb_handlers_newmhandlers st.h).1,
                      mtab := tab_insert st.mtab md.fqname (upb_handlers_newmhandlers st.h).2 })
        · rcases hkeys1 _ h1 with h2 | h2
          · exact absurd h2 hnotk
          · exact ⟨m, md, hmd, h2.symm, Relation.ReflTransGen.refl⟩
        · obtain ⟨j, mdj, hj, hname, f, hf, hsub, hreach⟩ := hr2 key hin h1
          refine ⟨j, mdj, hj, hname, Relation.ReflTransGen.head ?_ hreach⟩
          exact ⟨md, f, hmd, hf, hsub, rfl⟩


/-! ### The traversal: termination -/

theorem regmsg_field_appends (wt : upb_fieldtype_t → Nat) (S : List upb_msgdef)
    (fcb : Option upb_onfieldreg) (closure : Nat)
    (dfs : Nat → upb_regstate → Except Fault (upb_regstate × Nat))
    (hdfs : dfs_appends dfs) (mh : Nat) (f : upb_fielddef) (st st2 : upb_regstate)
    (hr : regmsg_field wt S fcb closure dfs mh f st = .ok st2) :
    st.mtab <+: st2.mtab := by
  unfold regmsg_field at hr
  split at hr
  · split at hr
    · cases hr
    · rename_i sub hsubdef
      simp only at hr
      split at hr
      · cases hr
      · rename_i st1 k hfd
        have hp1 : st.mtab <+: st1.mtab := by
          cases hl : tab_lookup sub.fqname st.mtab with
          | some k1 =>
            rw [hl] at hfd
            simp only [Except.ok.injEq, Prod.mk.injEq] at hfd
            rw [← hfd.1]
          | none =>
            rw [hl] at hfd
            exact hdfs _ _ _ _ hfd
        split at hr
        · cases hr
        · simp only [Except.ok.injEq] at hr
          rw [← hr, (call_fieldreg_spec fcb closure _ f _).1]
          exact hp1
  · split at hr
    · cases hr
    · simp only [Except.ok.injEq] at hr
      rw [← hr, (call_fieldreg_spec fcb closure _ f _).1]

theorem regmsg_fields_appends (wt : upb_fieldtype_t → Nat) (S : List upb_msgdef)
    (fcb : Option upb_onfieldreg) (closure : Nat)
    (dfs : Nat → upb_regstate → Except Fault (upb_regstate × Nat))
    (hdfs : dfs_appends dfs) (mh : Nat) :
    ∀ (fs : List upb_fielddef) (st st2 : upb_regstate),
      regmsg_fields wt S fcb closure dfs mh fs st = .ok st2 → st.mtab <+: st2.mtab := by
  intro fs
  induction fs with
  | nil =>
    intro st st2 hr
    simp only [regmsg_fields, Except.ok.injEq] at hr
    rw [hr]
  | cons f fs ih =>
    intro st st2 hr
    simp only [regmsg_fields] at hr
    split at hr
    · cases hr
    · rename_i st1 hstep
      exact (regmsg_field_appends wt S fcb closure dfs hdfs mh f st st1 hstep).trans
        (ih st1 st2 hr)

theorem regmsg_dfs_appends (wt : upb_fieldtype_t → Nat) (S : List upb_msgdef)
    (mcb : Option upb_onmsgreg) (fcb : Option upb_onfieldreg) (closure : Nat) :
    ∀ fuel, dfs_appends (upb_regmsg_dfs wt S mcb fcb closure fuel) := by
  intro fuel
  induction fuel with
  | zero =>
    intro j st0 st1 k hr
    simp [upb_regmsg_dfs] at hr
  | succ fuel ih =>
    intro m st st2 k hr
    simp only [upb_regmsg_dfs] at hr
    split at hr
    · cases hr
    · rename_i md hmd
      split at hr
      · cases hr
      · rename_i stl hloop
        simp only [Except.ok.injEq, Prod.mk.injEq] at hr
        rw [← hr.1]
        refine List.IsPrefix.trans ?_
          (regmsg_fields_appends wt S fcb closure _ ih _ md.fields _ stl hloop)
        rw [(call_msgreg_spec mcb closure _ m _).1, tab_insert]
        exact List.prefix_append _ _

theorem unregistered_mono (S : List upb_msgdef) (st st1 : upb_regstate)
    (hp : st.mtab <+: st1.mtab) : (unregistered S st1).card ≤ (unregistered S st).card := by
  apply Finset.card_le_card
  intro x hx
  simp only [unregistered, Finset.mem_filter] at hx ⊢
  exact ⟨hx.1, fun hk => hx.2 (mtab_keys_extends st st1 hp x hk)⟩

theorem unregistered_insert (S : List upb_msgdef) (st st1 : upb_regstate) (m : Nat)
    (md : upb_msgdef) (hmd : S[m]? = some md) (hnot : md.fqname ∉ mtab_keys st)
    (hp : st.mtab <+: st1.mtab) (hin : md.fqname ∈ mtab_keys st1) :
    (unregistered S st1).card < (unregistered S st).card := by
  apply Finset.card_lt_card
  refine (Finset.ssubset_iff_of_subset ?_).2 ⟨md.fqname, ?_, ?_⟩
  · intro x hx
    simp only [unregistered, Finset.mem_filter] at hx ⊢
    exact ⟨hx.1, fun hk => hx.2 (mtab_keys_extends st st1 hp x hk)⟩
  · simp only [unregistered, Finset.mem_filter, List.mem_toFinset, List.mem_map]
    exact ⟨⟨md, List.getElem?_mem hmd, rfl⟩, hnot⟩
  · simp only [unregistered, Finset.mem_filter, not_and, not_not]
    exact fun _ => hin

theorem newfhandlers_fuel (wt : upb_fieldtype_t → Nat) (h : upb_handlers)
    (m n : Nat) (type : upb_fieldtype_t) (repeated : Bool) :
    _upb_mhandlers_newfhandlers wt h m n type repeated ≠ .error .out_of_fuel := by
  unfold _upb_mhandlers_newfhandlers
  split
  · simp
  · simp only
    split
    · simp
    · split
      · simp
      · split <;> simp

theorem newfhandlers_subm_fuel (wt : upb_fieldtype_t → Nat) (h : upb_handlers)
    (m n : Nat) (type : upb_fieldtype_t) (repeated : Bool) (subm : Option Nat) :
    upb_mhandlers_newfhandlers_subm wt h m n type repeated subm ≠ .error .out_of_fuel := by
  unfold upb_mhandlers_newfhandlers_subm
  split
  · simp
  · split
    · simp
    · split
      · rename_i e he
        intro hc
        simp only [Except.error.injEq] at hc
        subst hc
        exact newfhandlers_fuel wt _ _ _ _ _ he
      · simp only
        split
        · split
          · rename_i e he
            intro hc
            simp only [Except.error.injEq] at hc
            subst hc
            exact newfhandlers_fuel wt _ _ _ _ _ he
          · simp
        · simp

theorem newfhandlers_scalar_fuel (wt : upb_fieldtype_t → Nat) (h : upb_handlers)
    (m n : Nat) (type : upb_fieldtype_t) (repeated : Bool) :
    upb_mhandlers_newfhandlers wt h m n type repeated ≠ .error .out_of_fuel := by
  unfold upb_mhandlers_newfhandlers
  split
  · simp
  · split
    · simp
    · exact newfhandlers_fuel wt h m n type repeated

theorem regmsg_field_fuel (wt : upb_fieldtype_t → Nat) (S : List upb_msgdef)
    (fcb : Option upb_onfieldreg) (closure n : Nat)
    (dfs : Nat → upb_regstate → Except Fault (upb_regstate × Nat))
    (hdfs : dfs_fueled S n dfs) (mh : Nat) (f : upb_fielddef) (st : upb_regstate)
    (hcard : (unregistered S st).card ≤ n) :
    regmsg_field wt S fcb closure dfs mh f st ≠ .error .out_of_fuel := by
  unfold regmsg_field
  split
  · split
    · simp
    · rename_i sub hsubdef
      simp only
      split
      · rename_i e he
        intro hc
        simp only [Except.error.injEq] at hc
        subst hc
        cases hl : tab_lookup sub.fqname st.mtab with
        | some k1 => rw [hl] at he; cases he
        | none =>
          rw [hl] at he
          exact hdfs _ sub st hsubdef ((tab_lookup_none_iff _ _).1 hl) hcard he
      · split
        · rename_i e he
          intro hc
          simp only [Except.error.injEq] at hc
          subst hc
          exact newfhandlers_subm_fuel wt _ _ _ _ _ _ he
        · simp
  · split
    · rename_i e he
      intro hc
      simp only [Except.error.injEq] at hc
      subst hc
      exact newfhandlers_scalar_fuel wt _ _ _ _ _ he
    · simp

theorem regmsg_fields_fuel (wt : upb_fieldtype_t → Nat) (S : List upb_msgdef)
    (fcb : Option upb_onfieldreg) (closure n : Nat)
    (dfs : Nat → upb_regstate → Except Fault (upb_regstate × Nat))
    (hdfs : dfs_fueled S n dfs) (happ : dfs_appends dfs) (mh : Nat) :
    ∀ (fs : List upb_fielddef) (st : upb_regstate), (unregistered S st).card ≤ n →
      regmsg_fields wt S fcb closure dfs mh fs st ≠ .error .out_of_fuel := by
  intro fs
  induction fs with
  | nil =>
    intro st _
    simp [regmsg_fields]
  | cons f fs ih =>
    intro st hcard
    simp only [regmsg_fields]
    split
    · rename_i e he
      intro hc
      simp only [Except.error.injEq] at hc
      subst hc
      exact regmsg_field_fuel wt S fcb closure n dfs hdfs mh f st hcard he
    · rename_i st1 hstep
      have hp := regmsg_field_appends wt S fcb closure dfs happ mh f st st1 hstep
      exact ih st1 (Nat.le_trans (unregistered_mono S st st1 hp) hcard)

/-- The traversal never runs out of fuel when the fuel is at least the number
of names of the schema that are not registered at the call: the name of the
message is registered before its fields are visited, so that number is
smaller at every recursive call. -/
theorem regmsg_dfs_fueled (wt : upb_fieldtype_t → Nat) (S : List upb_msgdef)
    (mcb : Option upb_onmsgreg) (fcb : Option upb_onfieldreg) (closure : Nat) :
    ∀ fuel, dfs_fueled S fuel (upb_regmsg_dfs wt S mcb fcb closure fuel) := by
  intro fuel
  induction fuel with
  | zero =>
    intro m md st hmd hnot hcard
    exfalso
    have hmem : md.fqname ∈ unregistered S st := by
      simp only [unregistered, Finset.mem_filter, List.mem_toFinset, List.mem_map]
      exact ⟨⟨md, List.getElem?_mem hmd, rfl⟩, hnot⟩
    have := Finset.card_pos.2 ⟨_, hmem⟩
    omega
  | succ fuel ih =>
    intro m md st hmd hnot hcard
    simp only [upb_regmsg_dfs, hmd]
    split
    · rename_i e he
      intro hc
      simp only [Except.error.injEq] at hc
      subst hc
      refine regmsg_fields_fuel wt S fcb closure fuel _ ih
        (regmsg_dfs_appends wt S mcb fcb closure fuel) _ md.fields _ ?_ he
      have hm0 := (call_msgreg_spec mcb closure (upb_handlers_newmhandlers st.h).2 m
        { st with h := (upb_handlers_newmhandlers st.h).1,
                  mtab := tab_insert st.mtab md.fqname (upb_handlers_newmhandlers st.h).2 }).1
      have hlt := unregistered_insert S st (call_msgreg mcb closure
        (upb_handlers_newmhandlers st.h).2 m
        { st with h := (upb_handlers_newmhandlers st.h).1,
                  mtab := tab_insert st.mtab md.fqname (upb_handlers_newmhandlers st.h).2 })
        m md hmd hnot
        (by rw [hm0, tab_insert]; exact List.prefix_append _ _)
        (by rw [mtab_keys, hm0]; simp [tab_insert])
      omega
    · simp


/-! ### The traversal: it returns unless a key is taken -/

theorem newfhandlers_total (wt : upb_fieldtype_t → Nat) (h : upb_handlers)
    (m n : Nat) (type : upb_fieldtype_t) (repeated : Bool) (hm : m < h.msgs.length) :
    (∃ r, _upb_mhandlers_newfhandlers wt h m n type repeated = .ok r) ∨
      _upb_mhandlers_newfhandlers wt h m n type repeated = .error .abort := by
  unfold _upb_mhandlers_newfhandlers
  rw [List.getElem?_eq_getElem hm]
  simp only
  cases hl : tab_lookup (field_tag wt n type) h.msgs[m].fieldtab with
  | some x => exact Or.inr rfl
  | none =>
    left
    simp only [tab_lookup_insert_new _ _ _ hl, ne_eq, not_true_eq_false, if_false]
    exact ⟨_, rfl⟩

theorem newfhandlers_subm_total (wt : upb_fieldtype_t → Nat) (h : upb_handlers)
    (m n : Nat) (type : upb_fieldtype_t) (repeated : Bool) (sub : Nat)
    (ht : type = MESSAGE ∨ type = GROUP) (hm : m < h.msgs.length)
    (hs : sub < h.msgs.length) :
    (∃ r, upb_mhandlers_newfhandlers_subm wt h m n type repeated (some sub) = .ok r) ∨
      upb_mhandlers_newfhandlers_subm wt h m n type repeated (some sub) = .error .abort := by
  unfold upb_mhandlers_newfhandlers_subm
  simp only [ht, not_true_eq_false, if_false]
  rcases newfhandlers_total wt h m n type repeated hm with ⟨⟨h1, p⟩, hr⟩ | hr
  · rw [hr]
    simp only
    have hlen := (newfhandlers_spec wt h h1 m n type repeated p hr).2.1
    by_cases hg : type = GROUP
    · simp only [hg, if_true]
      rcases newfhandlers_total wt (fhandlers_write h1 p (fun fh => { fh with submsg := some sub }))
          sub n ENDGROUP false (by rw [fhandlers_write_length, hlen]; exact hs)
        with ⟨⟨h3, p3⟩, hr3⟩ | hr3
      · rw [hr3]
        exact Or.inl ⟨_, rfl⟩
      · rw [hr3]
        exact Or.inr rfl
    · simp only [hg, if_false]
      exact Or.inl ⟨_, rfl⟩
  · rw [hr]
    exact Or.inr rfl

theorem newfhandlers_scalar_total (wt : upb_fieldtype_t → Nat) (h : upb_handlers)
    (m n : Nat) (type : upb_fieldtype_t) (repeated : Bool)
    (ht : upb_issubmsgtype type = false) (hm : m < h.msgs.length) :
    (∃ r, upb_mhandlers_newfhandlers wt h m n type repeated = .ok r) ∨
      upb_mhandlers_newfhandlers wt h m n type repeated = .error .abort := by
  unfold upb_mhandlers_newfhandlers
  have h1 : ¬ type = MESSAGE := by
    intro hc; subst hc; simp [upb_issubmsgtype] at ht
  have h2 : ¬ type = GROUP := by
    intro hc; subst hc; simp [upb_issubmsgtype] at ht
  simp only [h1, h2, if_false]
  exact newfhandlers_total wt h m n type repeated hm

theorem reg_inv_lookup_lt (o : Nat) (st : upb_regstate) (key : String) (k : Nat)
    (hinv : reg_inv o st) (hl : tab_lookup key st.mtab = some k) : k < st.h.msgs.length := by
  have hmem : k ∈ st.mtab.map Prod.snd :=
    List.mem_map.2 ⟨(key, k), tab_lookup_mem _ _ _ hl, rfl⟩
  rw [hinv.1, List.mem_range'_1] at hmem
  rw [hinv.2.1]
  exact hmem.2

theorem reg_inv_length_le (o : Nat) (st st1 : upb_regstate) (hinv : reg_inv o st)
    (hinv1 : reg_inv o st1) (hp : st.mtab <+: st1.mtab) :
    st.h.msgs.length ≤ st1.h.msgs.length := by
  rw [hinv.2.1, hinv1.2.1]
  have := hp.length_le
  omega

theorem regmsg_field_total (wt : upb_fieldtype_t → Nat) (S : List upb_msgdef)
    (fcb : Option upb_onfieldreg) (closure o n : Nat)
    (dfs : Nat → upb_regstate → Except Fault (upb_regstate × Nat))
    (hsound : dfs_sound wt S o dfs) (hret : dfs_returns S o n dfs)
    (mh : Nat) (f : upb_fielddef) (st : upb_regstate)
    (hinv : reg_inv o st) (hmh : mh < st.h.msgs.length)
    (hcard : (unregistered S st).card ≤ n)
    (hwf : upb_issubmsg f = true → f.def_ < S.length) :
    (∃ st2, regmsg_field wt S fcb closure dfs mh f st = .ok st2) ∨
      regmsg_field wt S fcb closure dfs mh f st = .error .abort := by
  unfold regmsg_field
  by_cases hsub : upb_issubmsg f = true
  · simp only [hsub, if_true]
    obtain ⟨sub, hsubdef⟩ : ∃ sub, S[f.def_]? = some sub :=
      ⟨_, List.getElem?_eq_getElem (hwf hsub)⟩
    rw [hsubdef]
    simp only
    have hty : f.type = MESSAGE ∨ f.type = GROUP := by
      simp only [upb_issubmsg, upb_issubmsgtype, Bool.or_eq_true, beq_iff_eq] at hsub
      exact hsub.symm
    -- the handler set of the field's type
    have hfound : (∃ st1 k, (match tab_lookup sub.fqname st.mtab with
          | some sub_mh => (Except.ok (st, sub_mh) : Except Fault (upb_regstate × Nat))
          | none => dfs f.def_ st) = .ok (st1, k) ∧ reg_inv o st1 ∧
            st.mtab <+: st1.mtab ∧ k < st1.h.msgs.length) ∨
        (match tab_lookup sub.fqname st.mtab with
          | some sub_mh => (Except.ok (st, sub_mh) : Except Fault (upb_regstate × Nat))
          | none => dfs f.def_ st) = .error .abort := by
      cases hl : tab_lookup sub.fqname st.mtab with
      | some k =>
        exact Or.inl ⟨st, k, rfl, hinv, List.prefix_refl _, reg_inv_lookup_lt o st _ k hinv hl⟩
      | none =>
        have hnot := (tab_lookup_none_iff _ _).1 hl
        rcases hret f.def_ _ st hsubdef hnot hinv hcard with ⟨⟨st1, k⟩, hr⟩ | hr
        · obtain ⟨hp, hinv1, _, _, hlk, _, _⟩ := hsound f.def_ _ st st1 k hsubdef hnot hinv hr
          exact Or.inl ⟨st1, k, hr, hinv1, hp, reg_inv_lookup_lt o st1 _ k hinv1 hlk⟩
        · exact Or.inr hr
    rcases hfound with ⟨st1, k, hr, hinv1, hp, hk⟩ | hr
    · rw [hr]
      simp only
      have hmh1 : mh < st1.h.msgs.length :=
        Nat.lt_of_lt_of_le hmh (reg_inv_length_le o st st1 hinv hinv1 hp)
      rcases newfhandlers_subm_total wt st1.h mh f.number f.type (upb_isseq f) k hty hmh1 hk
        with ⟨⟨h2, fh⟩, hr2⟩ | hr2
      · rw [hr2]
        exact Or.inl ⟨_, rfl⟩
      · rw [hr2]
        exact Or.inr rfl
    · rw [hr]
      exact Or.inr rfl
  · simp only [hsub, if_false]
    have hty : upb_issubmsgtype f.type = false := by
      simpa [upb_issubmsg] using hsub
    rcases newfhandlers_scalar_total wt st.h mh f.number f.type (upb_isseq f) hty hmh
      with ⟨⟨h2, fh⟩, hr2⟩ | hr2
    · rw [hr2]
      exact Or.inl ⟨_, rfl⟩
    · rw [hr2]
      exact Or.inr rfl

theorem regmsg_fields_total (wt : upb_fieldtype_t → Nat) (S : List upb_msgdef)
    (fcb : Option upb_onfieldreg) (closure o n : Nat)
    (dfs : Nat → upb_regstate → Except Fault (upb_regstate × Nat))
    (hsound : dfs_sound wt S o dfs) (hret : dfs_returns S o n dfs) (mh : Nat) :
    ∀ (fs : List upb_fielddef) (st : upb_regstate), reg_inv o st → mh < st.h.msgs.length →
      (unregistered S st).card ≤ n →
      (∀ f ∈ fs, upb_issubmsg f = true → f.def_ < S.length) →
      (∃ st2, regmsg_fields wt S fcb closure dfs mh fs st = .ok st2) ∨
        regmsg_fields wt S fcb closure dfs mh fs st = .error .abort := by
  intro fs
  induction fs with
  | nil =>
    intro st _ _ _ _
    exact Or.inl ⟨st, rfl⟩
  | cons f fs ih =>
    intro st hinv hmh hcard hwf
    simp only [regmsg_fields]
    rcases regmsg_field_total wt S fcb closure o n dfs hsound hret mh f st hinv hmh hcard
        (hwf f (List.mem_cons_self _ _)) with ⟨st1, hr⟩ | hr
    · rw [hr]
      simp only
      obtain ⟨hp, hinv1, _⟩ := regmsg_field_post wt S fcb closure o dfs hsound mh f st st1 hinv hr
      exact ih st1 hinv1 (Nat.lt_of_lt_of_le hmh (reg_inv_length_le o st st1 hinv hinv1 hp))
        (Nat.le_trans (unregistered_mono S st st1 hp) hcard)
        (fun g hg => hwf g (List.mem_cons_of_mem _ hg))
    · rw [hr]
      exact Or.inr rfl

/-- On a schema whose names are distinct and whose fields point into the
schema, a call of the traversal with enough fuel returns, unless a field key
is already taken and it aborts. -/
theorem regmsg_dfs_returns (wt : upb_fieldtype_t → Nat) (S : List upb_msgdef)
    (hn : (S.map upb_msgdef.fqname).Nodup) (hwf : schema_wf S)
    (mcb : Option upb_onmsgreg) (fcb : Option upb_onfieldreg) (closure o : Nat) :
    ∀ fuel, dfs_returns S o fuel (upb_regmsg_dfs wt S mcb fcb closure fuel) := by
  intro fuel
  induction fuel with
  | zero =>
    intro m md st hmd hnot _ hcard
    exfalso
    have hmem : md.fqname ∈ unregistered S st := by
      simp only [unregistered, Finset.mem_filter, List.mem_toFinset, List.mem_map]
      exact ⟨⟨md, List.getElem?_mem hmd, rfl⟩, hnot⟩
    have := Finset.card_pos.2 ⟨_, hmem⟩
    omega
  | succ fuel ih =>
    intro m md st hmd hnot hinv hcard
    simp only [upb_regmsg_dfs, hmd]
    obtain ⟨hm0, hlen0, hk0⟩ := call_msgreg_spec mcb closure (upb_handlers_newmhandlers st.h).2 m
      { st with h := (upb_handlers_newmhandlers st.h).1,
                mtab := tab_insert st.mtab md.fqname (upb_handlers_newmhandlers st.h).2 }
    simp only at hm0 hlen0 hk0
    obtain ⟨hki, hlen1, hk1⟩ := newmhandlers_spec st.h
    obtain ⟨hv, hl, hnd⟩ := hinv
    have hinvh : reg_inv o (call_msgreg mcb closure (upb_handlers_newmhandlers st.h).2 m
        { st with h := (upb_handlers_newmhandlers st.h).1,
                  mtab := tab_insert st.mtab md.fqname (upb_handlers_newmhandlers st.h).2 }) := by
      refine ⟨?_, ?_, ?_⟩
      · rw [hm0, hki, tab_insert, List.map_append, hv, List.length_append, List.length_singleton,
          List.range'_1_concat, hl]
        rfl
      · rw [hlen0, hlen1, hm0, tab_insert, List.length_append, List.length_singleton, hl]
        omega
      · rw [mtab_keys, hm0]
        simp only [tab_insert, List.map_append, List.map_cons, List.map_nil]
        refine List.nodup_append.2 ⟨hnd, List.nodup_singleton _, ?_⟩
        intro x hx hx2
        rw [List.mem_singleton] at hx2
        subst hx2
        exact hnot hx
    have hlt := unregistered_insert S st (call_msgreg mcb closure
      (upb_handlers_newmhandlers st.h).2 m
      { st with h := (upb_handlers_newmhandlers st.h).1,
                mtab := tab_insert st.mtab md.fqname (upb_handlers_newmhandlers st.h).2 })
      m md hmd hnot
      (by rw [hm0, tab_insert]; exact List.prefix_append _ _)
      (by rw [mtab_keys, hm0]; simp [tab_insert])
    rcases regmsg_fields_total wt S fcb closure o fuel _
        (regmsg_dfs_sound wt S hn mcb fcb closure o fuel) ih
        (upb_handlers_newmhandlers st.h).2 md.fields _ hinvh
        (by rw [hlen0, hlen1, hki]; omega) (by omega)
        (fun f hf hsub => hwf md (List.getElem?_mem hmd) f hf hsub) with ⟨st2, hr⟩ | hr
    · rw [hr]
      exact Or.inl ⟨_, rfl⟩
    · rw [hr]
      exact Or.inr rfl


/-! ### The traversal from the root -/

theorem reg_start_inv (h : upb_handlers) : reg_inv h.msgs.length (reg_start h) :=
  ⟨rfl, rfl, List.nodup_nil⟩

theorem regmsg_root_post (wt : upb_fieldtype_t → Nat) (S : List upb_msgdef)
    (hn : (S.map upb_msgdef.fqname).Nodup)
    (mcb : Option upb_onmsgreg) (fcb : Option upb_onfieldreg) (closure fuel : Nat)
    (h : upb_handlers) (root : Nat) (st : upb_regstate) (ret : Nat)
    (hr : upb_regmsg_dfs wt S mcb fcb closure fuel root (reg_start h) = .ok (st, ret)) :
    ∃ md, S[root]? = some md ∧ dfs_post wt S h.msgs.length root md (reg_start h) st ret := by
  cases hmd : S[root]? with
  | none =>
    cases fuel with
    | zero => simp [upb_regmsg_dfs] at hr
    | succ fuel => simp [upb_regmsg_dfs, hmd] at hr
  | some md =>
    exact ⟨md, rfl, regmsg_dfs_sound wt S hn mcb fcb closure h.msgs.length fuel root md
      (reg_start h) st ret hmd (by simp [mtab_keys, reg_start]) (reg_start_inv h) hr⟩

/-- After the traversal from `root`, every message definition reachable from
`root` is registered and all its submessage fields are linked. -/
theorem reach_registered (wt : upb_fieldtype_t → Nat) (S : List upb_msgdef)
    (o root : Nat) (md0 : upb_msgdef) (h : upb_handlers) (st : upb_regstate) (ret : Nat)
    (hmd0 : S[root]? = some md0)
    (hpost : dfs_post wt S o root md0 (reg_start h) st ret) :
    ∀ j, schema_reach S root j →
      ∃ md k, S[j]? = some md ∧ tab_lookup md.fqname st.mtab = some k ∧
        ∀ f ∈ md.fields, upb_issubmsg f = true → submsg_linked wt S st k f := by
  obtain ⟨_, _, _, _, hlk, hclosed, _⟩ := hpost
  have hreg : ∀ (j : Nat) (md : upb_msgdef), S[j]? = some md →
      md.fqname ∈ mtab_keys st →
      ∃ md k, S[j]? = some md ∧ tab_lookup md.fqname st.mtab = some k ∧
        ∀ f ∈ md.fields, upb_issubmsg f = true → submsg_linked wt S st k f := by
    intro j md hj hin
    obtain ⟨k, hk, hf⟩ := hclosed j md hj hin (by simp [mtab_keys, reg_start])
    exact ⟨md, k, hj, hk, hf⟩
  intro j hreach
  induction hreach with
  | refl =>
    exact hreg root md0 hmd0 (List.mem_map.2 ⟨_, tab_lookup_mem _ _ _ hlk, rfl⟩)
  | tail _ hedge ih =>
    obtain ⟨mda, ka, hja, _, hfa⟩ := ih
    obtain ⟨mde, f, hje, hf, hsub, hdef⟩ := hedge
    rw [hja] at hje
    cases hje
    obtain ⟨fh, sub, k2, hs, hlk2, _⟩ := hfa f hf hsub
    rw [hdef] at hs
    exact hreg _ sub hs (List.mem_map.2 ⟨_, tab_lookup_mem _ _ _ hlk2, rfl⟩)

theorem unregistered_le (S : List upb_msgdef) (st : upb_regstate) :
    (unregistered S st).card ≤ S.length := by
  refine Nat.le_trans (Finset.card_filter_le _ _) ?_
  refine Nat.le_trans (List.toFinset_card_le _) ?_
  simp


/-! ### The dispatcher: single operations -/

/-- A begin-sequence below the depth limit whose callback continues (or is
absent) pushes one sequence frame. -/
theorem startseq_continue (h : upb_handlers) (d : upb_dispatcher) (f : upb_fhandlers)
    (hlim : d.top + 1 < d.limit)
    (hcb : ∀ cb, f.startseq = some cb →
      (cb (d.stack d.top).closure f.fval).flow = UPB_CONTINUE) :
    ∃ d1 c, upb_dispatch_startseq h d f = .ok d1 ∧ d1.top = d.top + 1 ∧
      d1.limit = d.limit ∧ d1.msgent = d.msgent ∧
      d1.stack = Function.update d.stack (d.top + 1)
        { f := f, closure := c, is_sequence := true, is_packed := false } := by
  have hl : ¬ (d.top + 1 ≥ d.limit) := by omega
  cases hs : f.startseq with
  | none =>
    simp only [upb_dispatch_startseq, hs, hl, UPB_CONTINUE_WITH, if_false, ne_eq,
      not_true_eq_false]
    exact ⟨_, _, rfl, rfl, rfl, rfl, rfl⟩
  | some cb =>
    have hc := hcb cb hs
    simp only [upb_dispatch_startseq, hs, hl, hc, if_false, ne_eq, not_true_eq_false]
    exact ⟨_, _, rfl, rfl, rfl, rfl, rfl⟩

/-- An end-sequence on a sequence frame above the sentinel whose callback
continues (or is absent) pops one frame and sets the active handler set from
the field of the frame below. -/
theorem endseq_continue (h : upb_handlers) (d : upb_dispatcher)
    (htop : 0 < d.top) (hseq : (d.stack d.top).is_sequence = true)
    (hcb : ∀ cb, (d.stack d.top).f.endseq = some cb →
      cb (d.stack (d.top - 1)).closure (d.stack d.top).f.fval = UPB_CONTINUE) :
    ∃ d1, upb_dispatch_endseq h d = .ok d1 ∧ d1.top = d.top - 1 ∧
      d1.limit = d.limit ∧ d1.stack = d.stack ∧
      d1.msgent = (match (d.stack (d.top - 1)).f.submsg with
        | some sub => some sub
        | none => some 0) ∧
      d1.dispatch_table = d1.msgent ∧
      d1.calls = d.calls ++ (match (d.stack d.top).f.endseq with
        | some _ => [upb_call.endseq (d.stack d.top).f.number
            (d.stack (d.top - 1)).closure (d.stack d.top).f.fval]
        | none => []) := by
  have ht : ¬ ¬ d.top > 0 := by omega
  cases hs : (d.stack d.top).f.endseq with
  | none =>
    simp only [upb_dispatch_endseq, hs, ht, hseq, if_false, ne_eq, not_true_eq_false]
    exact ⟨_, rfl, rfl, rfl, rfl, rfl, rfl, by simp⟩
  | some cb =>
    have hc := hcb cb hs
    simp only [upb_dispatch_endseq, hs, ht, hseq, hc, if_false, ne_eq, not_true_eq_false]
    exact ⟨_, rfl, rfl, rfl, rfl, rfl, rfl, by simp⟩

/-- The begin-message callback's result is dropped: `upb_dispatch_startmsg`
returns with at most one logged call whenever the active handler set can be
read. -/
theorem startmsg_ok (h : upb_handlers) (d : upb_dispatcher) (m : upb_mhandlers)
    (hm : deref_mh h d.msgent = .ok m) :
    upb_dispatch_startmsg h d = .ok { d with
      calls := d.calls ++ (match m.startmsg with
        | some _ => [upb_call.startmsg (mh_id d.msgent) (d.stack d.top).closure]
        | none => []) } := by
  cases hs : m.startmsg <;> simp [upb_dispatch_startmsg, hm, hs]

/-- A begin-submessage below the depth limit whose callback continues (or is
absent), for a field with a submessage handler set, pushes one frame that is
not a sequence and makes that handler set the active one. -/
theorem startsubmsg_continue (h : upb_handlers) (d : upb_dispatcher) (f : upb_fhandlers)
    (hlim : d.top + 1 < d.limit)
    (hcb : ∀ cb, f.startsubmsg = some cb →
      (cb (d.stack d.top).closure f.fval).flow = UPB_CONTINUE)
    (hsub : ∃ m, deref_mh h f.submsg = .ok m) :
    ∃ d1 c, upb_dispatch_startsubmsg h d f = .ok d1 ∧ d1.top = d.top + 1 ∧
      d1.limit = d.limit ∧ d1.msgent = f.submsg ∧ d1.dispatch_table = f.submsg ∧
      d1.stack = Function.update d.stack (d.top + 1)
        { f := f, closure := c, is_sequence := false, is_packed := false } := by
  have hl : ¬ (d.top + 1 ≥ d.limit) := by omega
  obtain ⟨m, hm⟩ := hsub
  cases hs : f.startsubmsg with
  | none =>
    simp only [upb_dispatch_startsubmsg, hs, hl, UPB_CONTINUE_WITH, if_false, ne_eq,
      not_true_eq_false]
    rw [startmsg_ok h _ m hm]
    exact ⟨_, _, rfl, rfl, rfl, rfl, rfl, rfl⟩
  | some cb =>
    have hc := hcb cb hs
    simp only [upb_dispatch_startsubmsg, hs, hl, hc, if_false, ne_eq, not_true_eq_false]
    rw [startmsg_ok h _ m hm]
    exact ⟨_, _, rfl, rfl, rfl, rfl, rfl, rfl⟩

/-- An end-submessage on a frame above the sentinel that is not a sequence,
with a readable active handler set, pops one frame and makes the owning
handler set of the frame's field the active one; the result of the
submessage-end callback is dropped. -/
theorem endsubmsg_ok (h : upb_handlers) (d : upb_dispatcher) (m : upb_mhandlers)
    (htop : 0 < d.top) (hseq : (d.stack d.top).is_sequence = false)
    (hm : deref_mh h d.msgent = .ok m) :
    ∃ d1, upb_dispatch_endsubmsg h d = .ok d1 ∧ d1.top = d.top - 1 ∧
      d1.limit = d.limit ∧ d1.stack = d.stack ∧
      d1.msgent = (d.stack d.top).f.msg ∧ d1.dispatch_table = (d.stack d.top).f.msg ∧
      d1.calls = d.calls ++
        (match m.endmsg with
          | some _ => [upb_call.endmsg (mh_id d.msgent) (d.stack d.top).closure]
          | none => []) ++
        (match (d.stack d.top).f.endsubmsg with
          | some _ => [upb_call.endsubmsg (d.stack d.top).f.number
              (d.stack (d.top - 1)).closure (d.stack d.top).f.fval]
          | none => []) := by
  have ht : ¬ ¬ d.top > 0 := by omega
  cases he : m.endmsg <;> cases hs : (d.stack d.top).f.endsubmsg <;>
    simp only [upb_dispatch_endsubmsg, hs, ht, hseq, hm, he, if_false, ne_eq,
      not_true_eq_false] <;>
    exact ⟨_, rfl, rfl, rfl, rfl, rfl, rfl, by simp⟩

/-! ### Well-nested runs -/

theorem frames_match_update (h : upb_handlers) (stack : Nat → upb_dispatcher_frame)
    (fr : upb_dispatcher_frame) :
    ∀ (scopes : List Bool) (i : Nat), scopes.length < i →
      frames_match h stack scopes → frames_match h (Function.update stack i fr) scopes := by
  intro scopes
  induction scopes with
  | nil => intro i _ _; trivial
  | cons k scopes ih =>
    intro i hi hm
    simp only [List.length_cons] at hi
    have hne : scopes.length + 1 ≠ i := by omega
    simp only [frames_match, Function.update_noteq hne] at hm ⊢
    exact ⟨hm.1, hm.2.1, hm.2.2.1, ih i (by omega) hm.2.2.2⟩

/-- Well-nested events whose callbacks continue, run from a state whose open
frames match the open scopes and with room for the deepest scope, all
return, and the cursor ends at the sentinel frame. -/
theorem dispatch_events_well_nested (h : upb_handlers) (n : Nat) :
    ∀ (evs : List upb_event) (scopes : List Bool) (d : upb_dispatcher),
      n < d.limit → d.top = scopes.length → frames_match h d.stack scopes →
      (∀ rest, scopes = false :: rest → ∃ m, deref_mh h d.msgent = .ok m) →
      well_nested n scopes evs = true →
      (∀ e ∈ evs, event_continues h e) →
      ∃ d1, upb_dispatch_events h evs d = .ok d1 ∧ d1.top = 0 := by
  intro evs
  induction evs with
  | nil =>
    intro scopes d _ htop _ _ hwn _
    cases scopes with
    | nil => exact ⟨d, rfl, htop⟩
    | cons k r => simp [well_nested] at hwn
  | cons e es ih =>
    intro scopes d hlim htop hfm hme hwn hev
    have hes : ∀ e ∈ es, event_continues h e := fun e he => hev e (List.mem_cons_of_mem _ he)
    have he : event_continues h e := hev e (List.mem_cons_self _ _)
    cases e with
    | startseq f =>
      simp only [well_nested, Bool.and_eq_true, decide_eq_true_eq] at hwn
      obtain ⟨d1, c, hr, ht1, hl1, _, hs1⟩ :=
        startseq_continue h d f (by omega) (fun cb hcb => he.1 cb hcb _ _)
      have hfm1 : frames_match h d1.stack (true :: scopes) := by
        rw [hs1, htop]
        refine ⟨by simp, ?_, by simp, frames_match_update h _ _ _ _ (by omega) hfm⟩
        intro _
        simpa using he
      obtain ⟨d2, hr2, ht2⟩ := ih (true :: scopes) d1 (by omega) (by simp [ht1, htop]) hfm1
        (by intro rest hrest; cases hrest) hwn.2 hes
      exact ⟨d2, by simp [upb_dispatch_events, upb_dispatch_event, hr, hr2], ht2⟩
    | startsubmsg f =>
      simp only [well_nested, Bool.and_eq_true, decide_eq_true_eq] at hwn
      obtain ⟨d1, c, hr, ht1, hl1, hm1, _, hs1⟩ :=
        startsubmsg_continue h d f (by omega) (fun cb hcb => he.1 cb hcb _ _) he.2.1
      have hfm1 : frames_match h d1.stack (false :: scopes) := by
        rw [hs1, htop]
        refine ⟨by simp, by simp, ?_, frames_match_update h _ _ _ _ (by omega) hfm⟩
        intro _
        simpa using he
      obtain ⟨d2, hr2, ht2⟩ := ih (false :: scopes) d1 (by omega) (by simp [ht1, htop]) hfm1
        (by intro rest _; rw [hm1]; exact he.2.1) hwn.2 hes
      exact ⟨d2, by simp [upb_dispatch_events, upb_dispatch_event, hr, hr2], ht2⟩
    | endseq =>
      cases scopes with
      | nil => simp [well_nested] at hwn
      | cons k rest =>
        cases k with
        | false => simp [well_nested] at hwn
        | true =>
          simp only [well_nested] at hwn
          simp only [List.length_cons] at htop
          obtain ⟨hk, hsc, _, hfr⟩ := hfm
          rw [← htop] at hk hsc
          obtain ⟨d1, hr, ht1, hl1, hs1, hm1, _⟩ :=
            endseq_continue h d (by omega) hk (fun cb hcb => (hsc rfl).2 cb hcb _ _)
          have hme1 : ∀ r2, rest = false :: r2 → ∃ m, deref_mh h d1.msgent = .ok m := by
            intro r2 hr2
            subst hr2
            obtain ⟨_, _, hsub, _⟩ := hfr
            have h2 := (hsub rfl).2.1
            simp only [List.length_cons] at htop
            have hidx : d.top - 1 = r2.length + 1 := by omega
            rw [hm1, hidx]
            obtain ⟨m, hm⟩ := h2
            cases hsb : (d.stack (r2.length + 1)).f.submsg with
            | none => rw [hsb] at hm; simp [deref_mh] at hm
            | some sub => rw [hsb] at hm; exact ⟨m, hm⟩
          obtain ⟨d2, hr2, ht2⟩ := ih rest d1 (by omega) (by omega) (by rw [hs1]; exact hfr)
            hme1 hwn hes
          exact ⟨d2, by simp [upb_dispatch_events, upb_dispatch_event, hr, hr2], ht2⟩
    | endsubmsg =>
      cases scopes with
      | nil => simp [well_nested] at hwn
      | cons k rest =>
        cases k with
        | true => simp [well_nested] at hwn
        | false =>
          simp only [well_nested] at hwn
          simp only [List.length_cons] at htop
          obtain ⟨hk, _, hsub, hfr⟩ := hfm
          rw [← htop] at hk hsub
          obtain ⟨m, hm⟩ := hme rest rfl
          obtain ⟨d1, hr, ht1, hl1, hs1, hm1, _⟩ := endsubmsg_ok h d m (by omega) hk hm
          obtain ⟨d2, hr2, ht2⟩ := ih rest d1 (by omega) (by omega) (by rw [hs1]; exact hfr)
            (by intro r2 _; rw [hm1]; exact (hsub rfl).2.2) hwn hes
          exact ⟨d2, by simp [upb_dispatch_events, upb_dispatch_event, hr, hr2], ht2⟩

theorem unwind_end_handlers_stack (h : upb_handlers) (d d1 : upb_dispatcher) (i : Nat)
    (hr : unwind_end_handlers h d i = .ok d1) :
    d1.stack = d.stack ∧ d1.limit = d.limit ∧ d1.top = d.top ∧ d1.exit = d.exit := by
  unfold unwind_end_handlers at hr
  simp only at hr
  split at hr
  · cases hr
  · split at hr
    · cases hr
    · split at hr
      · cases hr
      · cases hr
        exact ⟨rfl, rfl, rfl, rfl⟩

theorem unwind_end_handlers_sentinel (h : upb_handlers) (d : upb_dispatcher) (i : Nat)
    (h0 : (d.stack i).f.submsg = none) :
    unwind_end_handlers h d i = .error .null_deref := by
  simp [unwind_end_handlers, h0, deref_mh]

theorem unwind_loop_stack (h : upb_handlers) (flow : upb_flow_t) :
    ∀ (i : Nat) (d d1 : upb_dispatcher), unwind_loop h flow i d = .ok d1 →
      d1.stack = d.stack ∧ d1.limit = d.limit := by
  intro i
  induction i with
  | zero =>
    intro d d1 hr
    simp only [unwind_loop] at hr
    split at hr
    · cases hr
    · rename_i d2 h2
      have := unwind_end_handlers_stack h d d2 0 h2
      split at hr
      · cases hr
      · cases hr
        exact ⟨this.1, this.2.1⟩
  | succ i ih =>
    intro d d1 hr
    simp only [unwind_loop] at hr
    split at hr
    · cases hr
    · rename_i d2 h2
      have h3 := unwind_end_handlers_stack h d d2 (i + 1) h2
      split at hr
      · cases hr
        exact ⟨h3.1, h3.2.1⟩
      · have := ih _ _ hr
        exact ⟨this.1.trans h3.1, this.2.trans h3.2.1⟩

/-- With Break the unwind loop reaches the sentinel frame, whose field has no
submessage handler set: it never returns. -/
theorem unwind_loop_break_error (h : upb_handlers) :
    ∀ (i : Nat) (d : upb_dispatcher), (d.stack 0).f.submsg = none →
      ∃ e, unwind_loop h UPB_BREAK i d = .error e := by
  intro i
  induction i with
  | zero =>
    intro d h0
    simp [unwind_loop, unwind_end_handlers_sentinel h d 0 h0]
  | succ i ih =>
    intro d h0
    simp only [unwind_loop]
    split
    · exact ⟨_, rfl⟩
    · rename_i d2 h2
      have h3 := unwind_end_handlers_stack h d d2 (i + 1) h2
      rw [if_neg (by decide)]
      exact ih _ (by simpa [h3.1] using h0)

theorem unwind_break_error (h : upb_handlers) (d : upb_dispatcher)
    (h0 : (d.stack 0).f.submsg = none) :
    ∃ e, _upb_dispatcher_unwind h d UPB_BREAK = .error e :=
  unwind_loop_break_error h d.top d h0


/-- C1: `upb_dispatcher_islegalend` is true exactly when the cursor is at the
sentinel frame, or one frame above it with that frame a sequence that is not
packed; it is true right after a begin-sequence that continues at the root
of a reset dispatcher, and false with two or more frames above the
sentinel. -/
theorem islegalend_iff :
    (∀ d : upb_dispatcher, upb_dispatcher_islegalend d = true ↔
      (d.top = 0 ∨ (d.top = 1 ∧ (d.stack d.top).is_sequence = true ∧
        (d.stack d.top).is_packed = false))) ∧
    (∀ (h : upb_handlers) (d : upb_dispatcher) (c : Nat) (f : upb_fhandlers),
      1 < d.limit →
      (∀ cb, f.startseq = some cb → (cb c f.fval).flow = UPB_CONTINUE) →
      ∃ d1, upb_dispatch_startseq h (upb_dispatcher_reset d c) f = .ok d1 ∧
        d1.top = 1 ∧ upb_dispatcher_islegalend d1 = true) ∧
    (∀ d : upb_dispatcher, 2 ≤ d.top → upb_dispatcher_islegalend d = false) := by
  refine ⟨?_, ?_, ?_⟩
  · intro d
    unfold upb_dispatcher_islegalend
    by_cases h0 : d.top = 0
    · simp [h0]
    · by_cases h1 : d.top = 1
      · simp [h1]
      · have : ¬ ((d.top : Int) - 1 = 0) := by omega
        simp [h0, h1, this]
  · intro h d c f hlim hcb
    have hlim2 : ¬ (0 + 1 ≥ d.limit) := by omega
    cases hs : f.startseq with
    | none =>
      simp [upb_dispatch_startseq, upb_dispatcher_reset, hs, hlim2, UPB_CONTINUE_WITH,
        upb_dispatcher_islegalend]
    | some cb =>
      have hc := hcb cb hs
      simp [upb_dispatch_startseq, upb_dispatcher_reset, hs, hlim2, hc,
        upb_dispatcher_islegalend]
  · intro d h2
    unfold upb_dispatcher_islegalend
    have h0 : ¬ d.top = 0 := by omega
    have : ¬ ((d.top : Int) - 1 = 0) := by omega
    simp [h0, this]

/-- Witness of C1 on the sample dispatcher with 64 frames. -/
theorem islegalend_iff_witness :
    ∃ d1, upb_dispatch_startseq sample_handlers
        (upb_dispatcher_reset (sample_dispatcher 64) 5) sample_seq_f = .ok d1 ∧
      d1.top = 1 ∧ upb_dispatcher_islegalend d1 = true :=
  islegalend_iff.2.1 sample_handlers (sample_dispatcher 64) 5 sample_seq_f (by decide)
    (by
      intro cb hcb
      simp only [sample_seq_f, Option.some.injEq] at hcb
      subst hcb
      rfl)

theorem sample_seq_f_continues : seq_continues sample_seq_f := by
  constructor
  · intro cb hcb c v
    simp only [sample_seq_f, Option.some.injEq] at hcb
    subst hcb
    rfl
  · intro cb hcb c v
    simp only [sample_seq_f, Option.some.injEq] at hcb
    subst hcb
    rfl

theorem sample_sub_f_continues : submsg_continues sample_handlers sample_sub_f := by
  refine ⟨?_, ⟨_, rfl⟩, ⟨_, rfl⟩⟩
  intro cb hcb c v
  simp only [sample_sub_f, Option.some.injEq] at hcb
  subst hcb
  rfl

/-- C5, as stated, fails at depth `UPB_MAX_NESTING`: with 64 frames, 64 nested
sequences whose callbacks continue are well nested with at most 64 open
scopes, yet the 64th begin-sequence is refused and the run does not return
to the sentinel frame. -/
theorem well_nested_at_limit_counterexample :
    (sample_dispatcher 64).limit = 64 ∧
    well_nested 64 [] sample_nested_seqs = true ∧
    (∀ e ∈ sample_nested_seqs, event_continues sample_handlers e) ∧
    ¬ ∃ d1, upb_dispatch_events sample_handlers sample_nested_seqs (sample_dispatcher 64)
        = .ok d1 ∧ d1.top = 0 ∧ upb_dispatcher_islegalend d1 = true := by
  refine ⟨rfl, by decide, ?_, ?_⟩
  · intro e he
    simp only [sample_nested_seqs, List.mem_append, List.mem_replicate] at he
    rcases he with ⟨_, rfl⟩ | ⟨_, rfl⟩
    · exact sample_seq_f_continues
    · trivial
  · rintro ⟨d1, hr, _⟩
    have : upb_dispatch_events sample_handlers sample_nested_seqs (sample_dispatcher 64)
        = .error .null_deref := by rfl
    rw [this] at hr
    cases hr

/-- C5 (amended): from a reset dispatcher, every well-nested sequence of
begin/end sequence and submessage events with at most `n` scopes open at a
time, where `n + 1` is at most the number of frames `UPB_MAX_NESTING`, whose
callbacks continue and whose fields belong to the registry, returns, and
afterwards the cursor is at the sentinel frame and `is_legal_end` is true. -/
theorem well_nested_returns_to_sentinel (h : upb_handlers) (d : upb_dispatcher)
    (c n : Nat) (evs : List upb_event) (hn : n < d.limit)
    (hwn : well_nested n [] evs = true) (hev : ∀ e ∈ evs, event_continues h e) :
    ∃ d1, upb_dispatch_events h evs (upb_dispatcher_reset d c) = .ok d1 ∧
      d1.top = 0 ∧ upb_dispatcher_islegalend d1 = true := by
  obtain ⟨d1, hr, ht⟩ := dispatch_events_well_nested h n evs [] (upb_dispatcher_reset d c)
    hn rfl trivial (by intro rest hrest; cases hrest) hwn hev
  exact ⟨d1, hr, ht, by simp [upb_dispatcher_islegalend, ht]⟩

/-- Witness of C5 (amended): the sample run on the sample dispatcher with 64
frames. -/
theorem well_nested_returns_to_sentinel_witness :
    ∃ d1, upb_dispatch_events sample_handlers sample_run
        (upb_dispatcher_reset (sample_dispatcher 64) 100) = .ok d1 ∧
      d1.top = 0 ∧ upb_dispatcher_islegalend d1 = true :=
  well_nested_returns_to_sentinel sample_handlers (sample_dispatcher 64) 100 2 sample_run
    (by decide) (by decide) (by
      intro e he
      simp only [sample_run, List.mem_cons, List.mem_singleton, List.mem_nil_iff,
        or_false] at he
      rcases he with rfl | rfl | rfl | rfl | rfl | rfl
      · exact sample_seq_f_continues
      · trivial
      · exact sample_sub_f_continues
      · exact sample_seq_f_continues
      · trivial
      · trivial)

set_option maxRecDepth 100000 in
/-- C6 (code at the failing input): with 64 frames and 63 submessages open the
dispatcher is at the depth limit; begin-sequence and begin-submessage then
run the unwind with Break, which reads the submessage handler set of the
sentinel frame's field (`NULL`) and never reaches the exit callback. -/
theorem nesting_too_deep_faults :
    ∃ d, upb_dispatch_events sample_handlers sample_nested_submsgs (sample_dispatcher 64)
        = .ok d ∧
      d.top + 1 = d.limit ∧ (d.stack 0).f.submsg = none ∧
      upb_dispatch_startseq sample_handlers d sample_seq_f = .error .null_deref ∧
      upb_dispatch_startsubmsg sample_handlers d sample_rec_f = .error .null_deref :=
  ⟨_, rfl, rfl, rfl, rfl, rfl⟩

/-- C7 (code at the failing input): with one submessage open, a sequence-begin
callback that returns Break starts the unwind; it runs the end callbacks of
the open frame, then reads the submessage handler set of the sentinel
frame's field (`NULL`): the unwind does not complete and the exit callback
is not reached. -/
theorem break_unwind_faults :
    ∃ d, upb_dispatch_startsubmsg sample_handlers (sample_dispatcher 64) sample_sub_f
        = .ok d ∧
      d.top = 1 ∧
      unwind_end_handlers sample_handlers d 1 = .ok { d with
        calls := d.calls ++ [upb_call.endmsg 1 101, upb_call.endsubmsg 2 101 22] } ∧
      upb_dispatch_startseq sample_handlers d sample_break_f = .error .null_deref :=
  ⟨_, rfl, rfl, rfl, rfl⟩

/-- C8 (code at the failing input): at the sentinel frame, a submessage-begin
callback that returns SkipSubmessage makes the unwind read the submessage
handler set of the sentinel's field (`NULL`); one level deeper the unwind
runs the end callbacks of the enclosing frame and pops it, so the cursor is
one below the level of the call. -/
theorem skip_submsg_faults :
    upb_dispatch_startsubmsg sample_handlers (sample_dispatcher 64) sample_skip_f
      = .error .null_deref ∧
    ∃ d d1, upb_dispatch_startsubmsg sample_handlers (sample_dispatcher 64) sample_sub_f
        = .ok d ∧ d.top = 1 ∧
      upb_dispatch_startsubmsg sample_handlers d sample_skip_f = .ok d1 ∧
      d1.top = 0 ∧ d1.msgent = d.msgent ∧
      d1.calls = d.calls ++ [upb_call.startsubmsg 5 101 66, upb_call.endmsg 1 101,
        upb_call.endsubmsg 2 101 22] :=
  ⟨rfl, _, _, rfl, rfl, rfl, rfl, rfl, rfl⟩

/-- C9 (code at the failing input): a begin-of-message callback that returns
Break, and a submessage-end callback that returns Break, are both followed
by a normal return: no unwind runs, the cursor moves as on Continue and the
exit callback is not invoked. -/
theorem callback_result_dropped :
    upb_dispatch_startmsg sample_break_handlers (sample_dispatcher 64)
      = .ok { sample_dispatcher 64 with calls := [upb_call.startmsg 0 100] } ∧
    ∃ d d1, upb_dispatch_startsubmsg sample_handlers (sample_dispatcher 64)
        { sample_skip_f with startsubmsg := none } = .ok d ∧ d.top = 1 ∧
      upb_dispatch_endsubmsg sample_handlers d = .ok d1 ∧
      d1.top = 0 ∧
      d1.calls = [upb_call.startmsg 1 100, upb_call.endmsg 1 100,
        upb_call.endsubmsg 5 100 66] :=
  ⟨rfl, _, _, rfl, rfl, rfl, rfl, rfl⟩

/-- C10, as stated, fails: after a begin-sequence of the repeated message
field at the root, end-sequence pops the frame of a field whose submessage
handler set is the second one, and the active handler set becomes the
registry root, not that submessage set. -/
theorem endseq_popped_field_counterexample :
    ∃ d d1, sample_in_seq = .ok d ∧ 0 < d.top ∧ (d.stack d.top).is_sequence = true ∧
      (d.stack d.top).f.submsg = some 1 ∧
      upb_dispatch_endseq sample_handlers d = .ok d1 ∧
      d1.msgent = some 0 ∧ d1.msgent ≠ (d.stack d.top).f.submsg :=
  ⟨_, _, rfl, by decide, rfl, rfl, rfl, rfl, by decide⟩

/-- C10 (amended): on a sequence frame above the sentinel, end-sequence pops
exactly one frame and invokes the popped field's sequence-end callback (when
present) with the parent frame's closure and the popped field's `fval`; when
the callback continues (or is absent) the active handler set becomes the
submessage set of the field of the parent frame, now the top frame, if it
has one, else the registry root, and the field table pointer follows it;
otherwise the unwind runs from the popped state with the callback's
result. -/
theorem endseq_pops_and_restores (h : upb_handlers) (d : upb_dispatcher)
    (htop : 0 < d.top) (hseq : (d.stack d.top).is_sequence = true) :
    let f := (d.stack d.top).f
    let parent := d.stack (d.top - 1)
    let active : Option Nat := match parent.f.submsg with
      | some sub => some sub
      | none => some 0
    upb_dispatch_endseq h d =
      match f.endseq with
      | none => .ok { d with top := d.top - 1, msgent := active, dispatch_table := active }
      | some cb =>
        if cb parent.closure f.fval = UPB_CONTINUE then
          .ok { d with top := d.top - 1, msgent := active, dispatch_table := active,
                       calls := d.calls ++ [upb_call.endseq f.number parent.closure f.fval] }
        else
          _upb_dispatcher_unwind h
            { d with top := d.top - 1,
                     calls := d.calls ++ [upb_call.endseq f.number parent.closure f.fval] }
            (cb parent.closure f.fval) := by
  have ht : ¬ ¬ d.top > 0 := by omega
  cases hs : (d.stack d.top).f.endseq with
  | none => simp [upb_dispatch_endseq, hs, ht, hseq]
  | some cb =>
    by_cases hc : cb (d.stack (d.top - 1)).closure (d.stack d.top).f.fval = UPB_CONTINUE
    · simp [upb_dispatch_endseq, hs, ht, hseq, hc]
    · simp [upb_dispatch_endseq, hs, ht, hseq, hc]

/-- Witness of C10 (amended): the sample dispatcher after a begin-sequence of
the repeated message field at the root. -/
theorem endseq_pops_and_restores_witness :
    ∃ d, sample_in_seq = .ok d ∧
      upb_dispatch_endseq sample_handlers d = .ok { d with
        top := 0, msgent := some 0, dispatch_table := some 0,
        calls := d.calls ++ [upb_call.endseq 3 100 33] } :=
  ⟨_, rfl, endseq_pops_and_restores sample_handlers _ (by decide) rfl⟩

/-- C2, as stated, fails on a schema that makes the registration abort: `A`
declares field number 1 twice, the names `A` and `B` are distinct, the
registry is empty, and `upb_handlers_regmsgdef` aborts on the second field,
before the reachable type `B` has a handler set. -/
theorem regmsgdef_abort_counterexample :
    (sample_dup_schema.map upb_msgdef.fqname).Nodup ∧
    upb_handlers_new.msgs = [] ∧
    schema_reach sample_dup_schema 0 1 ∧
    upb_handlers_regmsgdef sample_wire_type sample_dup_schema 2 upb_handlers_new 0
      none none 0 = .error .abort := by
  refine ⟨by decide, rfl, ?_, by rfl⟩
  exact Relation.ReflTransGen.single
    ⟨_, { number := 2, type := MESSAGE, repeated := false, def_ := 1 }, rfl, by decide, rfl, rfl⟩

/-- C2 (amended): on a schema whose message types have distinct names and
whose fields point into the schema, `upb_handlers_regmsgdef` on an empty
registry, unless it aborts on a field key that is already taken, returns
with exactly one handler set per message type reachable from the root: the
number of handler sets is the number of reachable types, `mtab` holds
exactly the names of the reachable types, each once, and maps them in order
to the handler sets 0, 1, ..; the returned handler set is entry 0, that of
the root. -/
theorem regmsgdef_one_set_per_type (wt : upb_fieldtype_t → Nat) (S : List upb_msgdef)
    (mcb : Option upb_onmsgreg) (fcb : Option upb_onfieldreg) (closure fuel : Nat)
    (h : upb_handlers) (root : Nat)
    (hn : (S.map upb_msgdef.fqname).Nodup) (hwf : schema_wf S) (hroot : root < S.length)
    (hempty : h.msgs = []) (hfuel : S.length ≤ fuel)
    (hna : upb_handlers_regmsgdef wt S fuel h root mcb fcb closure ≠ .error .abort) :
    ∃ st, upb_regmsg_dfs wt S mcb fcb closure fuel root (reg_start h) = .ok (st, 0) ∧
      upb_handlers_regmsgdef wt S fuel h root mcb fcb closure = .ok (st.h, 0, st.calls) ∧
      st.h.msgs.length = Set.ncard {j | schema_reach S root j} ∧
      (mtab_keys st).Nodup ∧
      st.mtab.map Prod.snd = List.range st.h.msgs.length ∧
      (∀ (j : Nat) (md : upb_msgdef), S[j]? = some md →
        (schema_reach S root j ↔ md.fqname ∈ mtab_keys st)) ∧
      (∃ md, S[root]? = some md ∧ tab_lookup md.fqname st.mtab = some 0) := by
  have hmd0 : S[root]? = some S[root] := List.getElem?_eq_getElem hroot
  have hlen0 : h.msgs.length = 0 := by rw [hempty]; rfl
  -- the traversal returns
  have hret := regmsg_dfs_returns wt S hn hwf mcb fcb closure h.msgs.length fuel root _
    (reg_start h) hmd0 (by simp [mtab_keys, reg_start]) (reg_start_inv h)
    (Nat.le_trans (unregistered_le S _) hfuel)
  have hok : ∃ r, upb_regmsg_dfs wt S mcb fcb closure fuel root (reg_start h) = .ok r := by
    rcases hret with hr | hr
    · exact hr
    · exfalso
      apply hna
      simp [upb_handlers_regmsgdef, hr]
  obtain ⟨⟨st, ret⟩, hr⟩ := hok
  obtain ⟨md0, hmd, hpost⟩ := regmsg_root_post wt S hn mcb fcb closure fuel h root st ret hr
  have hreg := reach_registered wt S h.msgs.length root md0 h st ret hmd hpost
  obtain ⟨_, hinv, _, hret0, hlk, _, hsound⟩ := hpost
  have hret1 : ret = 0 := hret0.trans hlen0
  rw [hlen0] at hinv
  subst hret1
  obtain ⟨hv, hl, hnd⟩ := hinv
  simp only [Nat.zero_add] at hl
  -- the registered names are those of the reachable message definitions
  have hiff : ∀ (j : Nat) (md : upb_msgdef), S[j]? = some md →
      (schema_reach S root j ↔ md.fqname ∈ mtab_keys st) := by
    intro j md hj
    constructor
    · intro hreach
      obtain ⟨md1, k, hj1, hk, _⟩ := hreg j hreach
      rw [hj] at hj1
      cases hj1
      exact List.mem_map.2 ⟨_, tab_lookup_mem _ _ _ hk, rfl⟩
    · intro hin
      obtain ⟨j1, md1, hj1, hname, hreach⟩ := hsound _ hin (by simp [mtab_keys, reg_start])
      obtain ⟨rfl, _⟩ := names_inj S hn j1 j md1 md hj1 hj hname
      exact hreach
  have hvalid : ∀ j, schema_reach S root j → ∃ md, S[j]? = some md := by
    intro j hreach
    obtain ⟨md1, _, hj1, _⟩ := hreg j hreach
    exact ⟨md1, hj1⟩
  refine ⟨st, hr, by simp [upb_handlers_regmsgdef, hr], ?_, hnd, ?_, hiff, md0, hmd, hlk⟩
  · -- count the reachable message definitions through the registered names
    have hpick : ∀ key, key ∈ mtab_keys st →
        ∃ j, (∃ md, S[j]? = some md ∧ md.fqname = key) ∧ schema_reach S root j := by
      intro key hin
      obtain ⟨j1, md1, hj1, hname, hreach⟩ := hsound _ hin (by simp [mtab_keys, reg_start])
      exact ⟨j1, ⟨md1, hj1, hname⟩, hreach⟩
    choose g hg using hpick
    have hcount : Set.ncard {j | schema_reach S root j} = (mtab_keys st).length := by
      refine Set.ncard_eq_of_bijective
        (fun i hi => g ((mtab_keys st)[i]) (List.getElem_mem hi)) ?_ ?_ ?_
      · intro j hj
        obtain ⟨md, hmdj⟩ := hvalid j hj
        have hin := (hiff j md hmdj).1 hj
        obtain ⟨i, hi, hkey⟩ := List.getElem_of_mem hin
        refine ⟨i, hi, ?_⟩
        obtain ⟨⟨md1, hj1, hname⟩, _⟩ := hg _ (List.getElem_mem hi)
        exact (names_inj S hn _ j md1 md hj1 hmdj (hname.trans hkey)).1
      · intro i hi
        exact (hg _ (List.getElem_mem hi)).2
      · intro i j hi hj heq
        obtain ⟨⟨md1, hj1, hname1⟩, _⟩ := hg _ (List.getElem_mem hi)
        obtain ⟨⟨md2, hj2, hname2⟩, _⟩ := hg _ (List.getElem_mem hj)
        simp only at heq
        rw [heq] at hj1
        rw [hj1] at hj2
        cases hj2
        exact (hnd.getElem_inj_iff).1 (hname1.symm.trans hname2)
    rw [hcount, hl, mtab_keys, List.length_map]
  · rw [hv, hl, List.range_eq_range']


/-- Witness of C2 (amended): the sample schema with cycles, whose type `Z` is
not reachable, registered on a new registry. -/
theorem regmsgdef_one_set_per_type_witness :
    ∃ st, upb_regmsg_dfs sample_wire_type sample_schema none none 0 4 0
        (reg_start upb_handlers_new) = .ok (st, 0) ∧
      upb_handlers_regmsgdef sample_wire_type sample_schema 4 upb_handlers_new 0 none none 0
        = .ok (st.h, 0, st.calls) ∧
      st.h.msgs.length = Set.ncard {j | schema_reach sample_schema 0 j} ∧
      (mtab_keys st).Nodup ∧
      st.mtab.map Prod.snd = List.range st.h.msgs.length ∧
      (∀ (j : Nat) (md : upb_msgdef), sample_schema[j]? = some md →
        (schema_reach sample_schema 0 j ↔ md.fqname ∈ mtab_keys st)) ∧
      (∃ md, sample_schema[0]? = some md ∧ tab_lookup md.fqname st.mtab = some 0) :=
  regmsgdef_one_set_per_type sample_wire_type sample_schema none none 0 4 upb_handlers_new 0
    (by decide) (by unfold schema_wf; decide) (by decide) rfl (by decide)
    (by
      intro hc
      have h2 : (upb_handlers_regmsgdef sample_wire_type sample_schema 4 upb_handlers_new 0
        none none 0).toBool = true := rfl
      rw [hc] at h2
      cases h2)

/-- C3: the traversal terminates on every schema. A call made on a message
definition whose name is not registered never runs out of fuel when the fuel
is at least the number of names of the schema not yet registered: the name is
registered before the fields are visited, and a recursive call is made only
on a name that is not registered, so that number is smaller at each recursive
call. Hence `upb_handlers_regmsgdef`, which starts with an empty `mtab`,
terminates with fuel the number of message definitions. -/
theorem regmsg_dfs_terminates (wt : upb_fieldtype_t → Nat) (S : List upb_msgdef)
    (mcb : Option upb_onmsgreg) (fcb : Option upb_onfieldreg) (closure : Nat) :
    (∀ (fuel m : Nat) (md : upb_msgdef) (st : upb_regstate), S[m]? = some md →
      md.fqname ∉ mtab_keys st → (unregistered S st).card ≤ fuel →
      upb_regmsg_dfs wt S mcb fcb closure fuel m st ≠ .error .out_of_fuel) ∧
    (∀ (m : Nat) (md : upb_msgdef) (st : upb_regstate), S[m]? = some md →
      md.fqname ∉ mtab_keys st →
      (unregistered S { st with mtab := tab_insert st.mtab md.fqname st.h.msgs.length }).card
        < (unregistered S st).card) ∧
    (∀ (fuel m : Nat) (h : upb_handlers), m < S.length → S.length ≤ fuel →
      upb_handlers_regmsgdef wt S fuel h m mcb fcb closure ≠ .error .out_of_fuel) := by
  refine ⟨?_, ?_, ?_⟩
  · intro fuel m md st hmd hnot hcard
    exact regmsg_dfs_fueled wt S mcb fcb closure fuel m md st hmd hnot hcard
  · intro m md st hmd hnot
    exact unregistered_insert S st _ m md hmd hnot (List.prefix_append _ _)
      (by simp [mtab_keys, tab_insert])
  · intro fuel m h hm hfuel hc
    have hmd : S[m]? = some S[m] := List.getElem?_eq_getElem hm
    have hne := regmsg_dfs_fueled wt S mcb fcb closure fuel m _ (reg_start h) hmd
      (by simp [mtab_keys, reg_start]) (Nat.le_trans (unregistered_le S _) hfuel)
    unfold upb_handlers_regmsgdef at hc
    split at hc
    · rename_i e he
      simp only [Except.error.injEq] at hc
      subst hc
      exact hne he
    · cases hc

/-- Witness of C3: the sample schema with cycles, with fuel its four message
definitions. -/
theorem regmsg_dfs_terminates_witness :
    upb_handlers_regmsgdef sample_wire_type sample_schema 4 upb_handlers_new 0 none none 0
      ≠ .error .out_of_fuel :=
  (regmsg_dfs_terminates sample_wire_type sample_schema none none 0).2.2 4 0 upb_handlers_new
    (by decide) (by decide)

/-- C4, as stated, fails when two message types carry the same name: field 2
of `A` has the second type named `B` (definition 2), yet its submessage link
is handler set 1, allocated for the first type named `B` (definition 1); no
handler set is allocated for definition 2. -/
theorem submsg_link_samename_counterexample :
    ∃ h calls fh,
      upb_handlers_regmsgdef sample_wire_type sample_samename_schema 3 upb_handlers_new 0
        (some sample_onmsgreg) none 0 = .ok (h, 0, calls) ∧
      h.msgs.length = 2 ∧
      calls = [upb_regcall.onmsg 0 0 0, upb_regcall.onmsg 0 1 1] ∧
      sample_samename_schema[0]? = some { fqname := "A", fields := [
        { number := 1, type := MESSAGE, repeated := false, def_ := 1 },
        { number := 2, type := MESSAGE, repeated := false, def_ := 2 }] } ∧
      flookup h 0 (field_tag sample_wire_type 2 MESSAGE) = some fh ∧
      fh.number = 2 ∧ fh.submsg = some 1 :=
  ⟨_, _, _, rfl, rfl, rfl, rfl, rfl, rfl, rfl⟩

/-- C4 (amended): on a schema whose message types have distinct names, after
`upb_handlers_regmsgdef` has returned, every message type reachable from the
root is registered in `mtab` with a handler set `k`, and for each of its
message or group fields the field handlers under the field's key in `k`
exist and their submessage link is the handler set that `mtab` holds for the
field's type: the same set for every field of that type. -/
theorem submsg_links_resolved (wt : upb_fieldtype_t → Nat) (S : List upb_msgdef)
    (mcb : Option upb_onmsgreg) (fcb : Option upb_onfieldreg) (closure fuel : Nat)
    (h : upb_handlers) (root : Nat) (st : upb_regstate) (ret : Nat)
    (hn : (S.map upb_msgdef.fqname).Nodup)
    (hr : upb_regmsg_dfs wt S mcb fcb closure fuel root (reg_start h) = .ok (st, ret)) :
    upb_handlers_regmsgdef wt S fuel h root mcb fcb closure = .ok (st.h, ret, st.calls) ∧
    ∀ j, schema_reach S root j →
      ∃ md k, S[j]? = some md ∧ tab_lookup md.fqname st.mtab = some k ∧
        ∀ f ∈ md.fields, upb_issubmsg f = true →
          ∃ fh sub k2, S[f.def_]? = some sub ∧ tab_lookup sub.fqname st.mtab = some k2 ∧
            flookup st.h k (field_tag wt f.number f.type) = some fh ∧
            fh.submsg = some k2 ∧ fh.type = f.type ∧ fh.number = f.number ∧
            fh.msg = some k := by
  obtain ⟨md0, hmd, hpost⟩ := regmsg_root_post wt S hn mcb fcb closure fuel h root st ret hr
  exact ⟨by simp [upb_handlers_regmsgdef, hr],
    reach_registered wt S h.msgs.length root md0 h st ret hmd hpost⟩

/-- Witness of C4 (amended): the schema of a message `A` with a field of type
`A` gets exactly one handler set, and the submessage link of the field's
handlers is that handler set. -/
theorem submsg_links_resolved_witness :
    ∃ st fh, upb_regmsg_dfs sample_wire_type sample_self_schema none none 0 1 0
        (reg_start upb_handlers_new) = .ok (st, 0) ∧
      st.h.msgs.length = 1 ∧
      flookup st.h 0 (field_tag sample_wire_type 1 MESSAGE) = some fh ∧
      fh.submsg = some 0 ∧
      (upb_handlers_regmsgdef sample_wire_type sample_self_schema 1 upb_handlers_new 0
          none none 0 = .ok (st.h, 0, st.calls) ∧
        ∀ j, schema_reach sample_self_schema 0 j →
          ∃ md k, sample_self_schema[j]? = some md ∧ tab_lookup md.fqname st.mtab = some k ∧
            ∀ f ∈ md.fields, upb_issubmsg f = true →
              ∃ fh sub k2, sample_self_schema[f.def_]? = some sub ∧
                tab_lookup sub.fqname st.mtab = some k2 ∧
                flookup st.h k (field_tag sample_wire_type f.number f.type) = some fh ∧
                fh.submsg = some k2 ∧ fh.type = f.type ∧ fh.number = f.number ∧
                fh.msg = some k) :=
  ⟨_, _, rfl, rfl, rfl, rfl,
    submsg_links_resolved sample_wire_type sample_self_schema none none 0 1 upb_handlers_new 0
      _ 0 (by decide) rfl⟩


/-! ### Further properties of the dispatcher -/

/-- C16: on a frame above the sentinel that is not a sequence, entered through
the field `f`, with a readable active handler set, end-submessage invokes the
end-of-message callback of the active handler set with the top frame's own
closure, makes the owning handler set of `f` the active one (and its table
the field table), pops exactly one frame, then invokes the submessage-end
callback of `f` with the parent frame's closure and the `fval` of `f`; the
frame it returns is the parent frame. -/
theorem endsubmsg_order (h : upb_handlers) (d : upb_dispatcher) (m : upb_mhandlers)
    (htop : 0 < d.top) (hseq : (d.stack d.top).is_sequence = false)
    (hm : deref_mh h d.msgent = .ok m) :
    upb_dispatch_endsubmsg h d = .ok { d with
      status := (match m.endmsg with
        | some endmsg => endmsg (d.stack d.top).closure d.status
        | none => d.status),
      msgent := (d.stack d.top).f.msg,
      dispatch_table := (d.stack d.top).f.msg,
      top := d.top - 1,
      calls := d.calls ++
        (match m.endmsg with
          | some _ => [upb_call.endmsg (mh_id d.msgent) (d.stack d.top).closure]
          | none => []) ++
        (match (d.stack d.top).f.endsubmsg with
          | some _ => [upb_call.endsubmsg (d.stack d.top).f.number
              (d.stack (d.top - 1)).closure (d.stack d.top).f.fval]
          | none => []) } := by
  have ht : ¬ ¬ d.top > 0 := by omega
  cases he : m.endmsg <;> cases hs : (d.stack d.top).f.endsubmsg <;>
    simp [upb_dispatch_endsubmsg, hs, ht, hseq, hm, he]

/-- Witness of C16: the sample dispatcher after a begin-submessage of the
sample message field at the root. -/
theorem endsubmsg_order_witness :
    ∃ d, sample_in_submsg = .ok d ∧
      upb_dispatch_endsubmsg sample_handlers d = .ok { d with
        msgent := some 0, dispatch_table := some 0, top := 0,
        calls := d.calls ++ [upb_call.endmsg 1 101, upb_call.endsubmsg 2 100 22] } :=
  ⟨_, rfl, by
    have hw := endsubmsg_order sample_handlers
      { sample_dispatcher 64 with
        top := 1, msgent := some 1, dispatch_table := some 1,
        stack := Function.update (sample_dispatcher 64).stack 1
          { f := sample_sub_f, closure := 101, is_sequence := false, is_packed := false },
        calls := [upb_call.startsubmsg 2 100 22, upb_call.startmsg 1 101] }
      { fieldtab := [], startmsg := some (fun _ => UPB_CONTINUE),
        endmsg := some (fun _ s => s), is_group := false }
      (by decide) rfl rfl
    exact hw⟩

/-- C17 (code at the failing input): on a dispatcher with 2 frames and one
submessage open the cursor is at the last frame (`top + 1 = limit`);
begin-sequence and begin-submessage then set the status and run the unwind
with Break, which runs the end callbacks of the open frame and then reads
the submessage handler set of the sentinel frame's field (`NULL`): neither
operation returns, so the status, which holds the Nesting-too-deep error
when the end callbacks of the open frame have run, is not reported. The same
holds on every dispatcher whose sentinel frame has the field installed by
`upb_dispatcher_init`: at the last frame both operations stop without
returning. -/
theorem depth_limit_not_reported :
    (∃ d, upb_dispatch_startsubmsg sample_handlers (sample_dispatcher 2) sample_sub_f
        = .ok d ∧
      d.top = 1 ∧ d.top + 1 = d.limit ∧ (d.stack 0).f = toplevel_f ∧
      unwind_end_handlers sample_handlers
        { d with status := upb_status_seterrliteral d.status "Nesting too deep." } 1 =
        .ok { d with
          status := { error := true, str := "Nesting too deep." },
          calls := d.calls ++ [upb_call.endmsg 1 101, upb_call.endsubmsg 2 101 22] } ∧
      upb_dispatch_startseq sample_handlers d sample_seq_f = .error .null_deref ∧
      upb_dispatch_startsubmsg sample_handlers d sample_rec_f = .error .null_deref) ∧
    (∀ (h : upb_handlers) (d : upb_dispatcher) (f : upb_fhandlers),
      (d.stack 0).f = toplevel_f → d.limit ≤ d.top + 1 →
      (∃ e, upb_dispatch_startseq h d f = .error e) ∧
      (∃ e, upb_dispatch_startsubmsg h d f = .error e)) := by
  refine ⟨⟨_, rfl, rfl, rfl, rfl, rfl, rfl, rfl⟩, ?_⟩
  intro h d f h0 hl
  have hl2 : d.top + 1 ≥ d.limit := hl
  have hsub : ∀ st, (({ d with status := st } : upb_dispatcher).stack 0).f.submsg = none := by
    intro st
    show (d.stack 0).f.submsg = none
    rw [h0]
    rfl
  constructor
  · simp only [upb_dispatch_startseq, hl2, if_true]
    exact unwind_break_error h _ (hsub _)
  · simp only [upb_dispatch_startsubmsg, hl2, if_true]
    exact unwind_break_error h _ (hsub _)

/-- C19: below the depth limit, for a field `f` with a submessage handler set
whose owning handler set is the active one, in a state whose field table is
that of the active handler set, and with a submessage-begin callback that
continues (or is absent): begin-submessage of `f` followed by end-submessage
both return, and the cursor, the active handler set and the field table are
as before, as are all frames at or below the original top frame. -/
theorem submsg_round_trip (h : upb_handlers) (d : upb_dispatcher) (f : upb_fhandlers)
    (hlim : d.top + 1 < d.limit)
    (hcb : ∀ cb, f.startsubmsg = some cb →
      (cb (d.stack d.top).closure f.fval).flow = UPB_CONTINUE)
    (hsub : ∃ m, deref_mh h f.submsg = .ok m)
    (hown : f.msg = d.msgent) (htab : d.dispatch_table = d.msgent) :
    ∃ d1 d2, upb_dispatch_startsubmsg h d f = .ok d1 ∧
      upb_dispatch_endsubmsg h d1 = .ok d2 ∧
      d2.top = d.top ∧ d2.msgent = d.msgent ∧ d2.dispatch_table = d.dispatch_table ∧
      ∀ i, i ≤ d.top → d2.stack i = d.stack i := by
  obtain ⟨d1, c, hr1, ht1, _, hm1, _, hs1⟩ := startsubmsg_continue h d f hlim hcb hsub
  obtain ⟨m, hm⟩ := hsub
  have hfr : d1.stack d1.top =
      { f := f, closure := c, is_sequence := false, is_packed := false } := by
    rw [hs1, ht1]
    simp
  obtain ⟨d2, hr2, ht2, _, hs2, hm2, hd2, _⟩ := endsubmsg_ok h d1 m (by omega)
    (by rw [hfr]) (by rw [hm1]; exact hm)
  refine ⟨d1, d2, hr1, hr2, by omega, ?_, ?_, ?_⟩
  · rw [hm2, hfr]
    exact hown
  · rw [hd2, hfr, htab]
    exact hown
  · intro i hi
    rw [hs2, hs1]
    exact Function.update_noteq (by omega) _ _

/-- Witness of C19: the field of the root message on the sample dispatcher,
whose active handler set after the reset is the root. -/
theorem submsg_round_trip_witness :
    ∃ d1 d2, upb_dispatch_startsubmsg sample_handlers (sample_dispatcher 64) sample_sub_f
        = .ok d1 ∧
      upb_dispatch_endsubmsg sample_handlers d1 = .ok d2 ∧
      d2.top = (sample_dispatcher 64).top ∧ d2.msgent = (sample_dispatcher 64).msgent ∧
      d2.dispatch_table = (sample_dispatcher 64).dispatch_table ∧
      ∀ i, i ≤ (sample_dispatcher 64).top → d2.stack i = (sample_dispatcher 64).stack i :=
  submsg_round_trip sample_handlers (sample_dispatcher 64) sample_sub_f (by decide)
    (fun cb hcb => sample_sub_f_continues.1 cb hcb _ _) ⟨_, rfl⟩ rfl rfl

/-- The unwind loop entered at frame `i`, when it returns: above the sentinel
it stores the cursor of the frame below for SkipSubmessage and that of the
sentinel otherwise; at the sentinel it stores nothing. -/
theorem unwind_loop_top (h : upb_handlers) (flow : upb_flow_t) :
    ∀ (i : Nat) (d d1 : upb_dispatcher), unwind_loop h flow i d = .ok d1 →
      (i = 0 → d1.top = d.top) ∧
      (0 < i → d1.top = if flow = UPB_SKIPSUBMSG then i - 1 else 0) := by
  intro i
  induction i with
  | zero =>
    intro d d1 hr
    simp only [unwind_loop] at hr
    split at hr
    · cases hr
    · rename_i d2 h2
      have h3 := unwind_end_handlers_stack h d d2 0 h2
      split at hr
      · cases hr
      · cases hr
        exact ⟨fun _ => h3.2.2.1, fun hc => absurd hc (by omega)⟩
  | succ i ih =>
    intro d d1 hr
    simp only [unwind_loop] at hr
    split at hr
    · cases hr
    · rename_i d2 h2
      refine ⟨fun hc => absurd hc (by omega), fun _ => ?_⟩
      by_cases hf : flow = UPB_SKIPSUBMSG
      · simp only [hf, if_true, Except.ok.injEq] at hr ⊢
        rw [← hr]
        rfl
      · simp only [hf, if_false] at hr ⊢
        obtain ⟨h0, hpos⟩ := ih _ _ hr
        rcases Nat.eq_zero_or_pos i with hi | hi
        · rw [h0 hi]
          exact hi
        · rw [hpos hi]
          simp [hf]

/-- The unwind, when it returns, leaves the frames and the limit as they were
and the cursor one frame down for SkipSubmessage (at the sentinel when it was
there), at the sentinel otherwise. -/
theorem unwind_top (h : upb_handlers) (d d1 : upb_dispatcher) (flow : upb_flow_t)
    (hr : _upb_dispatcher_unwind h d flow = .ok d1) :
    d1.stack = d.stack ∧ d1.limit = d.limit ∧
      d1.top = if flow = UPB_SKIPSUBMSG then d.top - 1 else 0 := by
  obtain ⟨hs, hl⟩ := unwind_loop_stack h flow d.top d d1 hr
  obtain ⟨h0, hpos⟩ := unwind_loop_top h flow d.top d d1 hr
  refine ⟨hs, hl, ?_⟩
  rcases Nat.eq_zero_or_pos d.top with hi | hi
  · rw [h0 hi, hi]
    split <;> rfl
  · exact hpos hi

theorem startmsg_top (h : upb_handlers) (d d1 : upb_dispatcher)
    (hr : upb_dispatch_startmsg h d = .ok d1) :
    d1.stack = d.stack ∧ d1.limit = d.limit ∧ d1.top = d.top ∧ d1.msgent = d.msgent := by
  cases hm : deref_mh h d.msgent with
  | error e => simp [upb_dispatch_startmsg, hm] at hr
  | ok m =>
    rw [startmsg_ok h d m hm] at hr
    cases hr
    exact ⟨rfl, rfl, rfl, rfl⟩

/-- A begin-sequence below the depth limit: the push when the callback
continues or is absent, the unwind with the callback's result otherwise. -/
theorem startseq_eq (h : upb_handlers) (d : upb_dispatcher) (f : upb_fhandlers)
    (hlim : d.top + 1 < d.limit) :
    upb_dispatch_startseq h d f =
      match f.startseq with
      | none =>
        .ok { d with
          top := d.top + 1,
          stack := Function.update d.stack (d.top + 1)
            { f := f, closure := (d.stack d.top).closure, is_sequence := true,
              is_packed := false } }
      | some cb =>
        if (cb (d.stack d.top).closure f.fval).flow = UPB_CONTINUE then
          .ok { d with
            top := d.top + 1,
            stack := Function.update d.stack (d.top + 1)
              { f := f, closure := (cb (d.stack d.top).closure f.fval).closure,
                is_sequence := true, is_packed := false },
            calls := d.calls ++ [upb_call.startseq f.number (d.stack d.top).closure f.fval] }
        else
          _upb_dispatcher_unwind h
            { d with calls := d.calls ++
                [upb_call.startseq f.number (d.stack d.top).closure f.fval] }
            (cb (d.stack d.top).closure f.fval).flow := by
  have hl : ¬ (d.top + 1 ≥ d.limit) := by omega
  cases hs : f.startseq with
  | none => simp [upb_dispatch_startseq, hs, hl, UPB_CONTINUE_WITH]
  | some cb =>
    by_cases hc : (cb (d.stack d.top).closure f.fval).flow = UPB_CONTINUE
    · simp [upb_dispatch_startseq, hs, hl, hc]
    · simp [upb_dispatch_startseq, hs, hl, hc]

/-- A begin-submessage below the depth limit: the push followed by
begin-message when the callback continues or is absent, the unwind with the
callback's result otherwise. -/
theorem startsubmsg_eq (h : upb_handlers) (d : upb_dispatcher) (f : upb_fhandlers)
    (hlim : d.top + 1 < d.limit) :
    upb_dispatch_startsubmsg h d f =
      match f.startsubmsg with
      | none =>
        upb_dispatch_startmsg h { d with
          top := d.top + 1,
          stack := Function.update d.stack (d.top + 1)
            { f := f, closure := (d.stack d.top).closure, is_sequence := false,
              is_packed := false },
          msgent := f.submsg, dispatch_table := f.submsg }
      | some cb =>
        if (cb (d.stack d.top).closure f.fval).flow = UPB_CONTINUE then
          upb_dispatch_startmsg h { d with
            top := d.top + 1,
            stack := Function.update d.stack (d.top + 1)
              { f := f, closure := (cb (d.stack d.top).closure f.fval).closure,
                is_sequence := false, is_packed := false },
            msgent := f.submsg, dispatch_table := f.submsg,
            calls := d.calls ++
              [upb_call.startsubmsg f.number (d.stack d.top).closure f.fval] }
        else
          _upb_dispatcher_unwind h
            { d with calls := d.calls ++
                [upb_call.startsubmsg f.number (d.stack d.top).closure f.fval] }
            (cb (d.stack d.top).closure f.fval).flow := by
  have hl : ¬ (d.top + 1 ≥ d.limit) := by omega
  cases hs : f.startsubmsg with
  | none => simp [upb_dispatch_startsubmsg, hs, hl, UPB_CONTINUE_WITH]
  | some cb =>
    by_cases hc : (cb (d.stack d.top).closure f.fval).flow = UPB_CONTINUE
    · simp [upb_dispatch_startsubmsg, hs, hl, hc]
    · simp [upb_dispatch_startsubmsg, hs, hl, hc]

theorem unwind_top_le (h : upb_handlers) (d d1 : upb_dispatcher) (flow : upb_flow_t)
    (hr : _upb_dispatcher_unwind h d flow = .ok d1) :
    d1.limit = d.limit ∧ d1.top ≤ d.top := by
  obtain ⟨_, hl, ht⟩ := unwind_top h d d1 flow hr
  refine ⟨hl, ?_⟩
  rw [ht]
  split
  · omega
  · omega

/-- A begin-sequence, when it returns, has pushed one frame inside the frame
array or has only moved the cursor down. -/
theorem startseq_top (h : upb_handlers) (d d1 : upb_dispatcher) (f : upb_fhandlers)
    (hr : upb_dispatch_startseq h d f = .ok d1) :
    d1.limit = d.limit ∧ (d1.top ≤ d.top ∨ (d1.top = d.top + 1 ∧ d.top + 1 < d.limit)) := by
  by_cases hlim : d.top + 1 < d.limit
  · rw [startseq_eq h d f hlim] at hr
    split at hr
    · cases hr
      exact ⟨rfl, Or.inr ⟨rfl, hlim⟩⟩
    · split at hr
      · cases hr
        exact ⟨rfl, Or.inr ⟨rfl, hlim⟩⟩
      · obtain ⟨hl, ht⟩ := unwind_top_le h _ d1 _ hr
        exact ⟨hl, Or.inl ht⟩
  · have hl2 : d.top + 1 ≥ d.limit := by omega
    simp only [upb_dispatch_startseq, hl2, if_true] at hr
    obtain ⟨hl, ht⟩ := unwind_top_le h _ d1 _ hr
    exact ⟨hl, Or.inl ht⟩

/-- A begin-submessage, when it returns, has pushed one frame inside the
frame array or has only moved the cursor down. -/
theorem startsubmsg_top (h : upb_handlers) (d d1 : upb_dispatcher) (f : upb_fhandlers)
    (hr : upb_dispatch_startsubmsg h d f = .ok d1) :
    d1.limit = d.limit ∧ (d1.top ≤ d.top ∨ (d1.top = d.top + 1 ∧ d.top + 1 < d.limit)) := by
  by_cases hlim : d.top + 1 < d.limit
  · rw [startsubmsg_eq h d f hlim] at hr
    split at hr
    · obtain ⟨_, hl, ht, _⟩ := startmsg_top h _ d1 hr
      exact ⟨hl, Or.inr ⟨ht, hlim⟩⟩
    · split at hr
      · obtain ⟨_, hl, ht, _⟩ := startmsg_top h _ d1 hr
        exact ⟨hl, Or.inr ⟨ht, hlim⟩⟩
      · obtain ⟨hl, ht⟩ := unwind_top_le h _ d1 _ hr
        exact ⟨hl, Or.inl ht⟩
  · have hl2 : d.top + 1 ≥ d.limit := by omega
    simp only [upb_dispatch_startsubmsg, hl2, if_true] at hr
    obtain ⟨hl, ht⟩ := unwind_top_le h _ d1 _ hr
    exact ⟨hl, Or.inl ht⟩

/-- An end-sequence on a sequence frame above the sentinel: the pop and the
new active handler set when the callback continues or is absent, the unwind
from the popped state otherwise. -/
theorem endseq_pops_eq (h : upb_handlers) (d : upb_dispatcher)
    (htop : 0 < d.top) (hseq : (d.stack d.top).is_sequence = true) :
    upb_dispatch_endseq h d =
      match (d.stack d.top).f.endseq with
      | none =>
        .ok { d with
          top := d.top - 1,
          msgent := (match (d.stack (d.top - 1)).f.submsg with
            | some sub => some sub
            | none => some 0),
          dispatch_table := (match (d.stack (d.top - 1)).f.submsg with
            | some sub => some sub
            | none => some 0) }
      | some cb =>
        if cb (d.stack (d.top - 1)).closure (d.stack d.top).f.fval = UPB_CONTINUE then
          .ok { d with
            top := d.top - 1,
            msgent := (match (d.stack (d.top - 1)).f.submsg with
              | some sub => some sub
              | none => some 0),
            dispatch_table := (match (d.stack (d.top - 1)).f.submsg with
              | some sub => some sub
              | none => some 0),
            calls := d.calls ++ [upb_call.endseq (d.stack d.top).f.number
              (d.stack (d.top - 1)).closure (d.stack d.top).f.fval] }
        else
          _upb_dispatcher_unwind h
            { d with
              top := d.top - 1,
              calls := d.calls ++ [upb_call.endseq (d.stack d.top).f.number
                (d.stack (d.top - 1)).closure (d.stack d.top).f.fval] }
            (cb (d.stack (d.top - 1)).closure (d.stack d.top).f.fval) := by
  have ht : ¬ ¬ d.top > 0 := by omega
  cases hs : (d.stack d.top).f.endseq with
  | none => simp [upb_dispatch_endseq, hs, ht, hseq]
  | some cb =>
    by_cases hc : cb (d.stack (d.top - 1)).closure (d.stack d.top).f.fval = UPB_CONTINUE
    · simp [upb_dispatch_endseq, hs, ht, hseq, hc]
    · simp [upb_dispatch_endseq, hs, ht, hseq, hc]

/-- An end-sequence, when it returns, was called above the sentinel and has
moved the cursor down. -/
theorem endseq_top (h : upb_handlers) (d d1 : upb_dispatcher)
    (hr : upb_dispatch_endseq h d = .ok d1) :
    d1.limit = d.limit ∧ 0 < d.top ∧ d1.top < d.top := by
  by_cases htop : 0 < d.top
  · by_cases hseq : (d.stack d.top).is_sequence = true
    · have heq := endseq_pops_eq h d htop hseq
      rw [heq] at hr
      split at hr
      · cases hr
        exact ⟨rfl, htop, by show d.top - 1 < d.top; omega⟩
      · split at hr
        · cases hr
          exact ⟨rfl, htop, by show d.top - 1 < d.top; omega⟩
        · obtain ⟨hl, ht⟩ := unwind_top_le h _ d1 _ hr
          exact ⟨hl, htop, by
            have : d1.top ≤ d.top - 1 := ht
            omega⟩
    · simp [upb_dispatch_endseq, htop, hseq] at hr
  · simp [upb_dispatch_endseq, htop] at hr

/-- An end-submessage, when it returns, was called above the sentinel and
has moved the cursor one frame down. -/
theorem endsubmsg_top (h : upb_handlers) (d d1 : upb_dispatcher)
    (hr : upb_dispatch_endsubmsg h d = .ok d1) :
    d1.limit = d.limit ∧ 0 < d.top ∧ d1.top = d.top - 1 := by
  by_cases htop : 0 < d.top
  · cases hseq : (d.stack d.top).is_sequence with
    | true => simp [upb_dispatch_endsubmsg, htop, hseq] at hr
    | false =>
      cases hm : deref_mh h d.msgent with
      | error e => simp [upb_dispatch_endsubmsg, htop, hseq, hm] at hr
      | ok m =>
        obtain ⟨d2, hr2, ht2, hl2, _⟩ := endsubmsg_ok h d m htop hseq hm
        rw [hr2] at hr
        cases hr
        exact ⟨hl2, htop, ht2⟩
  · simp [upb_dispatch_endsubmsg, htop] at hr


theorem op_in_bounds (h : upb_handlers) (d d1 : upb_dispatcher) (o : upb_op)
    (hb : d.top < d.limit) (hr : upb_dispatch_op h d o = .ok d1) :
    d1.limit = d.limit ∧ d1.top < d1.limit := by
  cases o with
  | event e =>
    cases e with
    | startseq f =>
      obtain ⟨hl, ht⟩ := startseq_top h d d1 f hr
      exact ⟨hl, by rw [hl]; omega⟩
    | endseq =>
      obtain ⟨hl, _, ht⟩ := endseq_top h d d1 hr
      exact ⟨hl, by rw [hl]; omega⟩
    | startsubmsg f =>
      obtain ⟨hl, ht⟩ := startsubmsg_top h d d1 f hr
      exact ⟨hl, by rw [hl]; omega⟩
    | endsubmsg =>
      obtain ⟨hl, _, ht⟩ := endsubmsg_top h d d1 hr
      exact ⟨hl, by rw [hl]; omega⟩
  | startmsg =>
    obtain ⟨_, hl, ht, _⟩ := startmsg_top h d d1 hr
    exact ⟨hl, by rw [hl, ht]; exact hb⟩
  | unwind flow =>
    obtain ⟨hl, ht⟩ := unwind_top_le h d d1 flow hr
    exact ⟨hl, by rw [hl]; omega⟩

theorem ops_in_bounds (h : upb_handlers) :
    ∀ (os : List upb_op) (d d1 : upb_dispatcher), d.top < d.limit →
      upb_dispatch_ops h os d = .ok d1 → d1.limit = d.limit ∧ d1.top < d1.limit := by
  intro os
  induction os with
  | nil =>
    intro d d1 hb hr
    simp only [upb_dispatch_ops, Except.ok.injEq] at hr
    subst hr
    exact ⟨rfl, hb⟩
  | cons o os ih =>
    intro d d1 hb hr
    simp only [upb_dispatch_ops] at hr
    split at hr
    · cases hr
    · rename_i d2 h2
      obtain ⟨hl2, hb2⟩ := op_in_bounds h d d2 o hb h2
      obtain ⟨hl1, hb1⟩ := ih d2 d1 hb2 hr
      exact ⟨hl1.trans hl2, hb1⟩

/-- C20: with a frame array of at least one frame, after a reset and any list
of operations that all complete (begin/end of sequences and submessages,
begin-message, the unwind with any control-flow value), the cursor is within
the frame array, at most at index `limit - 1` (`UPB_MAX_NESTING - 1`), and
the limit is unchanged; end-sequence and end-submessage complete only above
the sentinel, where they move the cursor down; and the unwind, when it
completes, leaves the cursor one frame down for SkipSubmessage (at the
sentinel if it was there) and at the sentinel otherwise, never below it. -/
theorem cursor_in_bounds (h : upb_handlers) :
    (∀ (d : upb_dispatcher) (c : Nat) (os : List upb_op) (d1 : upb_dispatcher),
      0 < d.limit → upb_dispatch_ops h os (upb_dispatcher_reset d c) = .ok d1 →
      d1.limit = d.limit ∧ 0 ≤ d1.top ∧ d1.top ≤ d.limit - 1) ∧
    (∀ (d d1 : upb_dispatcher),
      (upb_dispatch_endseq h d = .ok d1 → 0 < d.top ∧ d1.top < d.top) ∧
      (upb_dispatch_endsubmsg h d = .ok d1 → 0 < d.top ∧ d1.top = d.top - 1)) ∧
    (∀ (d d1 : upb_dispatcher) (flow : upb_flow_t),
      _upb_dispatcher_unwind h d flow = .ok d1 →
      d1.top ≤ d.top ∧ (flow = UPB_SKIPSUBMSG → d1.top = d.top - 1) ∧
        (flow ≠ UPB_SKIPSUBMSG → d1.top = 0)) := by
  refine ⟨?_, ?_, ?_⟩
  · intro d c os d1 hlim hr
    obtain ⟨hl, hb⟩ := ops_in_bounds h os (upb_dispatcher_reset d c) d1 hlim hr
    have hl2 : d1.limit = d.limit := hl
    exact ⟨hl2, Nat.zero_le _, by omega⟩
  · intro d d1
    exact ⟨fun hr => (endseq_top h d d1 hr).2, fun hr => (endsubmsg_top h d d1 hr).2⟩
  · intro d d1 flow hr
    obtain ⟨_, _, ht⟩ := unwind_top h d d1 flow hr
    refine ⟨(unwind_top_le h d d1 flow hr).2, ?_, ?_⟩
    · intro hf
      rw [ht, if_pos hf]
    · intro hf
      rw [ht, if_neg hf]

/-- Witness of C20: the sample operations on the sample dispatcher with 64
frames all complete. -/
theorem cursor_in_bounds_witness :
    ∃ d1, upb_dispatch_ops sample_handlers sample_ops
        (upb_dispatcher_reset (sample_dispatcher 64) 100) = .ok d1 ∧
      d1.limit = (sample_dispatcher 64).limit ∧ 0 ≤ d1.top ∧
      d1.top ≤ (sample_dispatcher 64).limit - 1 :=
  ⟨_, rfl, (cursor_in_bounds sample_handlers).1 (sample_dispatcher 64) 100 sample_ops _
    (by decide) rfl⟩

/-- C11, as stated, fails: with one submessage open and below the depth
limit, a sequence-begin callback that returns SkipSubmessage makes
begin-sequence return, and the top frame is then the sentinel, one below the
frame that was the top frame before the call. -/
theorem startseq_skip_counterexample :
    ∃ d d1, sample_in_submsg = .ok d ∧ d.top = 1 ∧ d.top + 1 < d.limit ∧
      (∀ cb, sample_skipseq_f.startseq = some cb →
        (cb (d.stack d.top).closure sample_skipseq_f.fval).flow = UPB_SKIPSUBMSG) ∧
      upb_dispatch_startseq sample_handlers d sample_skipseq_f = .ok d1 ∧
      d1.top = 0 ∧ d1.top ≠ d.top := by
  refine ⟨_, _, rfl, rfl, by decide, ?_, rfl, rfl, by decide⟩
  intro cb hcb
  simp only [sample_skipseq_f, sample_seq_f, Option.some.injEq] at hcb
  subst hcb
  rfl

/-- C11 (amended): below the depth limit, begin-sequence of the field `f`
pushes exactly one frame with field `f`, is-sequence true, is-packed false
and returns that frame, when the sequence-begin callback is absent (the
closure of the frame is that of the previous top frame) and when it returns
Continue (the closure of the frame is the returned one). When the callback
returns SkipSubmessage with the top frame above the sentinel, the field of
the top frame having a submessage handler set with an end-of-message
callback and a submessage-end callback, begin-sequence returns: it pushes no
frame and leaves the frame array unchanged, invokes the sequence-begin
callback and then the two end callbacks of the top frame with that frame's
closure, and the frame it returns is the one below the previous top
frame. -/
theorem startseq_frame_effect (h : upb_handlers) (d : upb_dispatcher) (f : upb_fhandlers)
    (hlim : d.top + 1 < d.limit) :
    (f.startseq = none →
      upb_dispatch_startseq h d f = .ok { d with
        top := d.top + 1,
        stack := Function.update d.stack (d.top + 1)
          { f := f, closure := (d.stack d.top).closure, is_sequence := true,
            is_packed := false } }) ∧
    (∀ cb, f.startseq = some cb →
      (cb (d.stack d.top).closure f.fval).flow = UPB_CONTINUE →
      upb_dispatch_startseq h d f = .ok { d with
        top := d.top + 1,
        stack := Function.update d.stack (d.top + 1)
          { f := f, closure := (cb (d.stack d.top).closure f.fval).closure,
            is_sequence := true, is_packed := false },
        calls := d.calls ++ [upb_call.startseq f.number (d.stack d.top).closure f.fval] }) ∧
    (∀ cb m e es, f.startseq = some cb →
      (cb (d.stack d.top).closure f.fval).flow = UPB_SKIPSUBMSG →
      0 < d.top → deref_mh h (d.stack d.top).f.submsg = .ok m → m.endmsg = some e →
      (d.stack d.top).f.endsubmsg = some es →
      upb_dispatch_startseq h d f = .ok { d with
        top := d.top - 1,
        status := e (d.stack d.top).closure d.status,
        calls := d.calls ++ [upb_call.startseq f.number (d.stack d.top).closure f.fval] ++
          [upb_call.endmsg (mh_id (d.stack d.top).f.submsg) (d.stack d.top).closure,
           upb_call.endsubmsg (d.stack d.top).f.number (d.stack d.top).closure
             (d.stack d.top).f.fval] }) := by
  refine ⟨?_, ?_, ?_⟩
  · intro hs
    rw [startseq_eq h d f hlim, hs]
  · intro cb hs hc
    rw [startseq_eq h d f hlim, hs]
    simp only [hc, if_true]
  · intro cb m e es hs hc htop hm he hes
    rw [startseq_eq h d f hlim, hs]
    have hne : ¬ (cb (d.stack d.top).closure f.fval).flow = UPB_CONTINUE := by
      rw [hc]
      decide
    simp only [hne, if_false, hc, _upb_dispatcher_unwind]
    obtain ⟨n, hn⟩ : ∃ n, d.top = n + 1 := ⟨d.top - 1, by omega⟩
    simp only [hn] at hm he hes ⊢
    simp [unwind_loop, unwind_end_handlers, hm, he, hes]

/-- Witness of C11 (amended): on the sample dispatcher, the sample sequence
field at the root, whose callback continues, and with one submessage open a
sequence field whose callback returns SkipSubmessage. -/
theorem startseq_frame_effect_witness :
    upb_dispatch_startseq sample_handlers (sample_dispatcher 64) sample_seq_f =
      .ok { sample_dispatcher 64 with
        top := 1,
        stack := Function.update (sample_dispatcher 64).stack 1
          { f := sample_seq_f, closure := 101, is_sequence := true, is_packed := false },
        calls := [upb_call.startseq 1 100 11] } ∧
    ∃ d, sample_in_submsg = .ok d ∧ d.top = 1 ∧
      upb_dispatch_startseq sample_handlers d sample_skipseq_f = .ok { d with
        top := 0,
        calls := d.calls ++ [upb_call.startseq 6 101 77] ++
          [upb_call.endmsg 1 101, upb_call.endsubmsg 2 101 22] } :=
  ⟨(startseq_frame_effect sample_handlers (sample_dispatcher 64) sample_seq_f
      (by decide)).2.1 (fun c _ => UPB_CONTINUE_WITH (c + 1)) rfl rfl,
    _, rfl, rfl, by
    have hw := (startseq_frame_effect sample_handlers
      { sample_dispatcher 64 with
        top := 1, msgent := some 1, dispatch_table := some 1,
        stack := Function.update (sample_dispatcher 64).stack 1
          { f := sample_sub_f, closure := 101, is_sequence := false, is_packed := false },
        calls := [upb_call.startsubmsg 2 100 22, upb_call.startmsg 1 101] }
      sample_skipseq_f (by decide)).2.2
      (fun c _ => ⟨UPB_SKIPSUBMSG, c⟩)
      { fieldtab := [], startmsg := some (fun _ => UPB_CONTINUE),
        endmsg := some (fun _ s => s), is_group := false }
      (fun _ s => s) (fun _ _ => UPB_CONTINUE) rfl rfl (by decide) rfl rfl rfl
    exact hw⟩

/-! ### Reference counting -/

/-- C12: the reference count of the registry. A new registry has count 1;
retain adds 1; release subtracts 1 and frees the registry exactly when the
count drops to zero, leaving it otherwise unchanged. So retain followed by
two releases on a new registry frees it at the second release and not at the
first. Dispatcher init retains once and teardown releases once: a registry
held by two dispatchers (count at least 2) is not freed by the first
teardown, and a new registry given to two dispatchers and released by its
creator is freed by the second teardown. -/
theorem refcount_lifecycle :
    upb_handlers_new.refcount = 1 ∧
    (∀ h : upb_handlers, upb_handlers_ref h = { h with refcount := h.refcount + 1 }) ∧
    (∀ h : upb_handlers, (upb_handlers_unref h = none ↔ h.refcount - 1 = 0) ∧
      (h.refcount - 1 ≠ 0 →
        upb_handlers_unref h = some { h with refcount := h.refcount - 1 })) ∧
    (upb_handlers_unref (upb_handlers_ref upb_handlers_new) = some upb_handlers_new ∧
      upb_handlers_unref upb_handlers_new = none) ∧
    (∀ (n : Nat) (d : upb_dispatcher) (h : upb_handlers) (skip exit : Option (Nat → Unit))
        (c : Nat),
      (upb_dispatcher_init n d h skip exit c).2 = { h with refcount := h.refcount + 1 }) ∧
    (∀ (d : upb_dispatcher) (h : upb_handlers), 2 ≤ h.refcount →
      upb_dispatcher_uninit d h = some { h with refcount := h.refcount - 1 }) ∧
    (∀ (n : Nat) (da db : upb_dispatcher) (skip exit : Option (Nat → Unit)) (c : Nat),
      ∃ h3 h4,
        upb_handlers_unref
          (upb_dispatcher_init n db (upb_dispatcher_init n da upb_handlers_new skip exit c).2
            skip exit c).2 = some h3 ∧
        upb_dispatcher_uninit da h3 = some h4 ∧
        upb_dispatcher_uninit db h4 = none) := by
  refine ⟨rfl, fun h => rfl, ?_, ⟨rfl, rfl⟩, fun _ _ _ _ _ _ => rfl, ?_, ?_⟩
  · intro h
    constructor
    · simp [upb_handlers_unref, upb_atomic_unref]
    · intro hne
      simp [upb_handlers_unref, upb_atomic_unref, hne]
  · intro d h h2
    have hne : h.refcount - 1 ≠ 0 := by omega
    simp [upb_dispatcher_uninit, upb_handlers_unref, upb_atomic_unref, hne]
  · intro n da db skip exit c
    exact ⟨_, _, rfl, rfl, rfl⟩

/-- Witness of C12: the sample registry after two dispatchers were
initialised on it has count 3; a teardown leaves count 2. -/
theorem refcount_lifecycle_witness :
    upb_dispatcher_uninit zero_dispatcher
        (upb_dispatcher_init 64 zero_dispatcher
          (upb_dispatcher_init 64 zero_dispatcher sample_handlers none none 0).2
          none none 0).2 =
      some { (upb_dispatcher_init 64 zero_dispatcher
          (upb_dispatcher_init 64 zero_dispatcher sample_handlers none none 0).2
          none none 0).2 with refcount := 2 } :=
  refcount_lifecycle.2.2.2.2.2.1 zero_dispatcher _ (by decide)

/-! ### Field keys -/

theorem field_tag_eq (wt : upb_fieldtype_t → Nat) (n : Nat) (t : upb_fieldtype_t)
    (hn : n < 2 ^ 29) (hw : wt t < 8) : field_tag wt n t = 8 * n + wt t := by
  have h8 : wt t < 2 ^ 3 := by omega
  have hor : 2 ^ 3 * n + wt t = 2 ^ 3 * n ||| wt t := Nat.mul_add_lt_is_or h8 n
  unfold field_tag
  rw [Nat.shiftLeft_eq, Nat.mul_comm n (2 ^ 3), ← hor]
  apply Nat.mod_eq_of_lt
  omega

/-- The function `_upb_mhandlers_newfhandlers` aborts exactly when the key is
already in the field table of the handler set. -/
theorem newfhandlers_abort_iff (wt : upb_fieldtype_t → Nat) (h : upb_handlers)
    (m n : Nat) (type : upb_fieldtype_t) (repeated : Bool) :
    _upb_mhandlers_newfhandlers wt h m n type repeated = .error .abort ↔
      flookup h m (field_tag wt n type) ≠ none := by
  unfold _upb_mhandlers_newfhandlers flookup
  cases hm : h.msgs[m]? with
  | none => simp
  | some mh =>
    simp only
    cases hl : tab_lookup (field_tag wt n type) mh.fieldtab with
    | some x => simp
    | none => simp [tab_lookup_insert_new _ _ _ hl]

/-- C18: the field key `(n << 3) | native_wire_type(type)` in 32-bit unsigned
arithmetic determines the field number and the wire type: for field numbers
below 2^29 and wire types below 8, equal keys have equal numbers and equal
wire types; so a second field put into a handler set after a first one, with
a key that was free before, makes `_upb_mhandlers_newfhandlers` abort only
when it has the number and the wire type of the first. -/
theorem field_tag_injective (wt : upb_fieldtype_t → Nat) (n1 n2 : Nat)
    (t1 t2 : upb_fieldtype_t) (hn1 : n1 < 2 ^ 29) (hn2 : n2 < 2 ^ 29)
    (hw1 : wt t1 < 8) (hw2 : wt t2 < 8) :
    (field_tag wt n1 t1 = 8 * n1 + wt t1) ∧
    (field_tag wt n1 t1 = field_tag wt n2 t2 → n1 = n2 ∧ wt t1 = wt t2) ∧
    (∀ (h h1 : upb_handlers) (m : Nat) (r1 r2 : Bool) (p : Nat × Nat),
      _upb_mhandlers_newfhandlers wt h m n1 t1 r1 = .ok (h1, p) →
      flookup h m (field_tag wt n2 t2) = none →
      _upb_mhandlers_newfhandlers wt h1 m n2 t2 r2 = .error .abort →
      n1 = n2 ∧ wt t1 = wt t2) := by
  have key : field_tag wt n1 t1 = field_tag wt n2 t2 → n1 = n2 ∧ wt t1 = wt t2 := by
    intro he
    rw [field_tag_eq wt n1 t1 hn1 hw1, field_tag_eq wt n2 t2 hn2 hw2] at he
    omega
  refine ⟨field_tag_eq wt n1 t1 hn1 hw1, key, ?_⟩
  intro h h1 m r1 r2 p hfirst hfree habort
  obtain ⟨_, _, _, _, _, hsame⟩ := newfhandlers_spec wt h h1 m n1 t1 r1 p hfirst
  have hpres := (newfhandlers_abort_iff wt h1 m n2 t2 r2).1 habort
  by_cases he : field_tag wt n2 t2 = field_tag wt n1 t1
  · exact key he.symm
  · exfalso
    apply hpres
    rw [hsame m _ (Or.inr he)]
    exact hfree

/-- Witness of C18: field 1 of type int32 and field 1 of type sint32 have the
same wire type in the sample table, and the same key. -/
theorem field_tag_injective_witness :
    (1 : Nat) = 1 ∧ sample_wire_type INT32 = sample_wire_type SINT32 :=
  (field_tag_injective sample_wire_type 1 1 INT32 SINT32 (by decide) (by decide)
    (by decide) (by decide)).2.1 (by decide)

/-! ### Invariants of the registry kept by the registration -/

theorem flookup_mhandlers_write (h : upb_handlers) (m : Nat)
    (g : upb_mhandlers → upb_mhandlers) (hg : ∀ x, (g x).fieldtab = x.fieldtab) (r t : Nat) :
    flookup (mhandlers_write h m g) r t = flookup h r t := by
  unfold mhandlers_write
  cases hm : h.msgs[m]? with
  | none => rfl
  | some x =>
    simp only
    rw [flookup_set h m _ x r t hm]
    by_cases hr : r = m
    · subst hr
      simp [flookup, hm, hg]
    · simp [hr]

theorem flookup_call_msgreg (cb : Option upb_onmsgreg) (closure mh m : Nat)
    (st : upb_regstate) (r t : Nat) :
    flookup (call_msgreg cb closure mh m st).h r t = flookup st.h r t := by
  cases cb with
  | none => rfl
  | some cb =>
    exact flookup_mhandlers_write st.h mh
      (fun x => { x with startmsg := (cb closure mh m).startmsg,
                         endmsg := (cb closure mh m).endmsg }) (fun _ => rfl) r t

theorem flookup_newmhandlers (h : upb_handlers) (r t : Nat) :
    flookup (upb_handlers_newmhandlers h).1 r t = flookup h r t := by
  rcases Nat.lt_trichotomy r h.msgs.length with hlt | heq | hgt
  · simp [flookup, upb_handlers_newmhandlers, List.getElem?_append_left hlt]
  · subst heq
    simp [flookup, upb_handlers_newmhandlers, upb_mhandlers_new, tab_lookup]
  · have h1 : h.msgs.length ≤ r := by omega
    have h2 : (h.msgs ++ [upb_mhandlers_new]).length ≤ r := by simp; omega
    simp [flookup, upb_handlers_newmhandlers, List.getElem?_eq_none h1,
      List.getElem?_eq_none h2]

/-- The entries of the tables after `upb_mhandlers_newfhandlers_subm` has
returned: those that were there, unchanged; the new field handlers, linked to
`subm`; and for a group the end-of-group pseudo-field in the handler set of
the group. -/
theorem newfhandlers_subm_entries (wt : upb_fieldtype_t → Nat) (h h1 : upb_handlers)
    (m n : Nat) (type : upb_fieldtype_t) (repeated : Bool) (subm : Option Nat) (p : Nat × Nat)
    (hr : upb_mhandlers_newfhandlers_subm wt h m n type repeated subm = .ok (h1, p)) :
    (type = MESSAGE ∨ type = GROUP) ∧ (∃ sub, subm = some sub) ∧
    flookup h m (field_tag wt n type) = none ∧
    ∀ r t fh, flookup h1 r t = some fh →
      flookup h r t = some fh ∨
      (r = m ∧ t = field_tag wt n type ∧ fh.submsg = subm ∧ fh.type = type) ∨
      (type = GROUP ∧ subm = some r ∧ t = field_tag wt n ENDGROUP ∧ fh.submsg = none ∧
        fh.type = ENDGROUP ∧ flookup h r t = none ∧
        (r = m → t ≠ field_tag wt n type)) := by
  unfold upb_mhandlers_newfhandlers_subm at hr
  split at hr
  · cases hr
  · rename_i hty
    have hty2 : type = MESSAGE ∨ type = GROUP := by
      by_contra hc
      exact hty hc
    split at hr
    · cases hr
    · rename_i sub
      split at hr
      · cases hr
      · rename_i ha pa hfirst
        obtain ⟨hp, _, _, hnone, ⟨fh0, hfh0, hs0, ht0, _, _⟩, hsame⟩ :=
          newfhandlers_spec wt h ha m n type repeated pa hfirst
        subst hp
        refine ⟨hty2, ⟨sub, rfl⟩, hnone, ?_⟩
        -- entries after the write of `f->submsg`
        have hwrite : ∀ r t fh, flookup (fhandlers_write ha (m, field_tag wt n type)
              (fun fh => { fh with submsg := some sub })) r t = some fh →
            flookup h r t = some fh ∨
            (r = m ∧ t = field_tag wt n type ∧ fh.submsg = some sub ∧ fh.type = type) := by
          intro r t fh hl
          rw [flookup_write] at hl
          by_cases hrt : r = m ∧ t = field_tag wt n type
          · obtain ⟨rfl, rfl⟩ := hrt
            simp only [and_self, if_true, hfh0, Option.map_some', Option.some.injEq] at hl
            subst hl
            exact Or.inr ⟨rfl, rfl, rfl, ht0⟩
          · simp only [hrt, if_false] at hl
            left
            rw [← hl]
            refine (hsame r t ?_).symm
            by_contra hc
            push_neg at hc
            exact hrt hc
        simp only at hr
        split at hr
        · rename_i hg
          split at hr
          · cases hr
          · rename_i hb pb hsecond
            simp only [Except.ok.injEq, Prod.mk.injEq] at hr
            obtain ⟨rfl, rfl⟩ := hr
            obtain ⟨_, _, _, hnone2, ⟨fh2, hfh2, hs2, ht2, _, _⟩, hsame2⟩ :=
              newfhandlers_spec wt _ hb sub n ENDGROUP false pb hsecond
            intro r t fh hl
            by_cases hrt : r = sub ∧ t = field_tag wt n ENDGROUP
            · obtain ⟨rfl, rfl⟩ := hrt
              rw [hfh2] at hl
              cases hl
              right; right
              have hfree : flookup h r (field_tag wt n ENDGROUP) = none := by
                cases hx : flookup h r (field_tag wt n ENDGROUP) with
                | none => rfl
                | some x =>
                  exfalso
                  have hne : r ≠ m ∨ field_tag wt n ENDGROUP ≠ field_tag wt n type := by
                    by_contra hc
                    push_neg at hc
                    rw [hc.1, hc.2, hnone] at hx
                    cases hx
                  have h3 := (hsame r _ hne).trans hx
                  rw [flookup_write] at hnone2
                  have hne2 : ¬ (r = (m, field_tag wt n type).1 ∧
                      field_tag wt n ENDGROUP = (m, field_tag wt n type).2) := by
                    intro hc
                    rcases hne with h4 | h4
                    · exact h4 hc.1
                    · exact h4 hc.2
                  simp only [hne2, if_false] at hnone2
                  rw [h3] at hnone2
                  cases hnone2
              refine ⟨hg, rfl, rfl, hs2, ht2, hfree, ?_⟩
              intro hrm hc
              subst hrm
              rw [flookup_write, hc] at hnone2
              simp [hfh0] at hnone2
            · have hne : r ≠ sub ∨ t ≠ field_tag wt n ENDGROUP := by
                by_contra hc
                push_neg at hc
                exact hrt hc
              rw [hsame2 r t hne] at hl
              rcases hwrite r t fh hl with h1 | h1
              · exact Or.inl h1
              · exact Or.inr (Or.inl h1)
        · simp only [Except.ok.injEq, Prod.mk.injEq] at hr
          obtain ⟨rfl, rfl⟩ := hr
          intro r t fh hl
          rcases hwrite r t fh hl with h1 | h1
          · exact Or.inl h1
          · exact Or.inr (Or.inl h1)

/-- The entries of the tables after `upb_mhandlers_newfhandlers` has
returned: those that were there, unchanged, and the new field handlers,
without a link, of a type that is neither message nor group. -/
theorem newfhandlers_scalar_entries (wt : upb_fieldtype_t → Nat) (h h1 : upb_handlers)
    (m n : Nat) (type : upb_fieldtype_t) (repeated : Bool) (p : Nat × Nat)
    (hr : upb_mhandlers_newfhandlers wt h m n type repeated = .ok (h1, p)) :
    upb_issubmsgtype type = false ∧ flookup h m (field_tag wt n type) = none ∧
    ∀ r t fh, flookup h1 r t = some fh →
      flookup h r t = some fh ∨
      (r = m ∧ t = field_tag wt n type ∧ fh.submsg = none ∧ fh.type = type) := by
  unfold upb_mhandlers_newfhandlers at hr
  split at hr
  · cases hr
  · rename_i h1m
    split at hr
    · cases hr
    · rename_i h1g
      obtain ⟨_, _, _, hnone, ⟨fh0, hfh0, hs0, ht0, _, _⟩, hsame⟩ :=
        newfhandlers_spec wt h h1 m n type repeated p hr
      refine ⟨?_, hnone, ?_⟩
      · cases type <;> simp_all [upb_issubmsgtype]
      · intro r t fh hl
        by_cases hrt : r = m ∧ t = field_tag wt n type
        · obtain ⟨rfl, rfl⟩ := hrt
          rw [hfh0] at hl
          cases hl
          exact Or.inr ⟨rfl, rfl, hs0, ht0⟩
        · left
          rw [← hl]
          refine (hsame r t ?_).symm
          by_contra hc
          push_neg at hc
          exact hrt hc

theorem link_ok_call_fieldreg (cb : Option upb_onfieldreg) (closure : Nat) (fh : Nat × Nat)
    (f : upb_fielddef) (st : upb_regstate) (hok : handlers_link_ok st.h) :
    handlers_link_ok (call_fieldreg cb closure fh f st).h := by
  cases cb with
  | none => exact hok
  | some cb =>
    intro r t x hl
    simp only [call_fieldreg] at hl
    rw [flookup_write] at hl
    split at hl
    · cases hx : flookup st.h r t with
      | none => rw [hx] at hl; cases hl
      | some x0 =>
        rw [hx] at hl
        simp only [Option.map_some', Option.some.injEq] at hl
        subst hl
        exact hok r t x0 hx
    · exact hok r t x hl

theorem link_ok_subm (wt : upb_fieldtype_t → Nat) (h h1 : upb_handlers)
    (m n : Nat) (type : upb_fieldtype_t) (repeated : Bool) (subm : Option Nat) (p : Nat × Nat)
    (hok : handlers_link_ok h)
    (hr : upb_mhandlers_newfhandlers_subm wt h m n type repeated subm = .ok (h1, p)) :
    handlers_link_ok h1 := by
  obtain ⟨hty, ⟨sub, hsub⟩, _, hent⟩ :=
    newfhandlers_subm_entries wt h h1 m n type repeated subm p hr
  intro r t fh hl
  rcases hent r t fh hl with h0 | ⟨_, _, hs, ht⟩ | ⟨_, _, _, hs, ht, _⟩
  · exact hok r t fh h0
  · unfold fhandlers_link_ok
    rw [hs, ht, hsub]
    rcases hty with rfl | rfl <;> simp [upb_issubmsgtype]
  · unfold fhandlers_link_ok
    rw [hs, ht]
    simp [upb_issubmsgtype]

theorem link_ok_scalar (wt : upb_fieldtype_t → Nat) (h h1 : upb_handlers)
    (m n : Nat) (type : upb_fieldtype_t) (repeated : Bool) (p : Nat × Nat)
    (hok : handlers_link_ok h)
    (hr : upb_mhandlers_newfhandlers wt h m n type repeated = .ok (h1, p)) :
    handlers_link_ok h1 := by
  obtain ⟨hty, _, hent⟩ := newfhandlers_scalar_entries wt h h1 m n type repeated p hr
  intro r t fh hl
  rcases hent r t fh hl with h0 | ⟨_, _, hs, ht⟩
  · exact hok r t fh h0
  · unfold fhandlers_link_ok
    rw [hs, ht, hty]
    simp

theorem link_ok_field (wt : upb_fieldtype_t → Nat) (S : List upb_msgdef)
    (fcb : Option upb_onfieldreg) (closure : Nat)
    (dfs : Nat → upb_regstate → Except Fault (upb_regstate × Nat))
    (hdfs : dfs_keeps_links dfs) (mh : Nat) (f : upb_fielddef) (st st2 : upb_regstate)
    (hok : handlers_link_ok st.h)
    (hr : regmsg_field wt S fcb closure dfs mh f st = .ok st2) :
    handlers_link_ok st2.h := by
  unfold regmsg_field at hr
  split at hr
  · split at hr
    · cases hr
    · rename_i sub hsubdef
      simp only at hr
      split at hr
      · cases hr
      · rename_i st1 k hfd
        have hok1 : handlers_link_ok st1.h := by
          cases hl : tab_lookup sub.fqname st.mtab with
          | some k1 =>
            rw [hl] at hfd
            simp only [Except.ok.injEq, Prod.mk.injEq] at hfd
            rw [← hfd.1]
            exact hok
          | none =>
            rw [hl] at hfd
            exact hdfs _ _ _ _ hok hfd
        split at hr
        · cases hr
        · rename_i h2 fh hnew
          simp only [Except.ok.injEq] at hr
          rw [← hr]
          exact link_ok_call_fieldreg fcb closure fh f _
            (link_ok_subm wt st1.h h2 mh _ _ _ _ fh hok1 hnew)
  · split at hr
    · cases hr
    · rename_i h2 fh hnew
      simp only [Except.ok.injEq] at hr
      rw [← hr]
      exact link_ok_call_fieldreg fcb closure fh f _
        (link_ok_scalar wt st.h h2 mh _ _ _ fh hok hnew)

theorem link_ok_fields (wt : upb_fieldtype_t → Nat) (S : List upb_msgdef)
    (fcb : Option upb_onfieldreg) (closure : Nat)
    (dfs : Nat → upb_regstate → Except Fault (upb_regstate × Nat))
    (hdfs : dfs_keeps_links dfs) (mh : Nat) :
    ∀ (fs : List upb_fielddef) (st st2 : upb_regstate), handlers_link_ok st.h →
      regmsg_fields wt S fcb closure dfs mh fs st = .ok st2 → handlers_link_ok st2.h := by
  intro fs
  induction fs with
  | nil =>
    intro st st2 hok hr
    simp only [regmsg_fields, Except.ok.injEq] at hr
    rw [← hr]
    exact hok
  | cons f fs ih =>
    intro st st2 hok hr
    simp only [regmsg_fields] at hr
    split at hr
    · cases hr
    · rename_i st1 hstep
      exact ih st1 st2 (link_ok_field wt S fcb closure dfs hdfs mh f st st1 hok hstep) hr

theorem link_ok_dfs (wt : upb_fieldtype_t → Nat) (S : List upb_msgdef)
    (mcb : Option upb_onmsgreg) (fcb : Option upb_onfieldreg) (closure : Nat) :
    ∀ fuel, dfs_keeps_links (upb_regmsg_dfs wt S mcb fcb closure fuel) := by
  intro fuel
  induction fuel with
  | zero =>
    intro j st0 st1 k _ hr
    simp [upb_regmsg_dfs] at hr
  | succ fuel ih =>
    intro m st st2 k hok hr
    simp only [upb_regmsg_dfs] at hr
    split at hr
    · cases hr
    · rename_i md hmd
      split at hr
      · cases hr
      · rename_i stl hloop
        simp only [Except.ok.injEq, Prod.mk.injEq] at hr
        rw [← hr.1]
        refine link_ok_fields wt S fcb closure _ ih _ md.fields _ stl ?_ hloop
        intro r t fh hl
        rw [flookup_call_msgreg] at hl
        simp only at hl
        rw [flookup_newmhandlers] at hl
        exact hok r t fh hl

/-- C15, as stated, fails for the descriptor of the sentinel frame: the field
of frame 0 of an initialised dispatcher is `toplevel_f`, whose type is group
and whose submessage link is `NULL`. -/
theorem toplevel_f_link_counterexample :
    ((sample_dispatcher 64).stack 0).f.type = GROUP ∧
    upb_issubmsgtype ((sample_dispatcher 64).stack 0).f.type = true ∧
    ((sample_dispatcher 64).stack 0).f.submsg = none ∧
    ¬ fhandlers_link_ok ((sample_dispatcher 64).stack 0).f := by
  refine ⟨rfl, rfl, rfl, ?_⟩
  intro hc
  have h1 : ((sample_dispatcher 64).stack 0).f.submsg ≠ none := hc.2 rfl
  exact h1 rfl

/-- C15 (amended): every entry of a handler set's field table has a
submessage link exactly when its type is message or group: this holds in a
new registry and is kept by `upb_mhandlers_newfhandlers`, by
`upb_mhandlers_newfhandlers_subm` (with the end-of-group pseudo-field it adds
for a group) and by `upb_handlers_regmsgdef`. The descriptor `toplevel_f` of
the sentinel frame is of type group and has no link. -/
theorem table_links_ok (wt : upb_fieldtype_t → Nat) :
    handlers_link_ok upb_handlers_new ∧
    (∀ (h h1 : upb_handlers) (m n : Nat) (type : upb_fieldtype_t) (repeated : Bool)
        (p : Nat × Nat), handlers_link_ok h →
      upb_mhandlers_newfhandlers wt h m n type repeated = .ok (h1, p) →
      handlers_link_ok h1) ∧
    (∀ (h h1 : upb_handlers) (m n : Nat) (type : upb_fieldtype_t) (repeated : Bool)
        (subm : Option Nat) (p : Nat × Nat), handlers_link_ok h →
      upb_mhandlers_newfhandlers_subm wt h m n type repeated subm = .ok (h1, p) →
      handlers_link_ok h1 ∧
        ∃ fh, flookup h1 p.1 p.2 = some fh ∧ fh.type = type ∧ fh.submsg = subm ∧
          subm ≠ none ∧ upb_issubmsgtype type = true) ∧
    (∀ (S : List upb_msgdef) (fuel : Nat) (h h1 : upb_handlers) (m : Nat)
        (mcb : Option upb_onmsgreg) (fcb : Option upb_onfieldreg) (closure ret : Nat)
        (calls : List upb_regcall), handlers_link_ok h →
      upb_handlers_regmsgdef wt S fuel h m mcb fcb closure = .ok (h1, ret, calls) →
      handlers_link_ok h1) ∧
    (toplevel_f.type = GROUP ∧ toplevel_f.submsg = none) := by
  refine ⟨?_, ?_, ?_, ?_, rfl, rfl⟩
  · intro r t fh hl
    simp [flookup, upb_handlers_new] at hl
  · intro h h1 m n type repeated p hok hr
    exact link_ok_scalar wt h h1 m n type repeated p hok hr
  · intro h h1 m n type repeated subm p hok hr
    refine ⟨link_ok_subm wt h h1 m n type repeated subm p hok hr, ?_⟩
    obtain ⟨hp, _, _, fh, hfh, hs, ht, _⟩ :=
      newfhandlers_subm_spec wt h h1 m n type repeated subm p hr
    obtain ⟨hty, ⟨sub, hsub⟩, _⟩ := newfhandlers_subm_entries wt h h1 m n type repeated subm p hr
    refine ⟨fh, by rw [hp]; exact hfh, ht, hs, by rw [hsub]; simp, ?_⟩
    rcases hty with rfl | rfl <;> rfl
  · intro S fuel h h1 m mcb fcb closure ret calls hok hr
    unfold upb_handlers_regmsgdef at hr
    split at hr
    · cases hr
    · rename_i st ret2 hdfs
      simp only [Except.ok.injEq, Prod.mk.injEq] at hr
      rw [← hr.1]
      exact link_ok_dfs wt S mcb fcb closure fuel m (reg_start h) st ret2 hok hdfs

/-- Witness of C15 (amended): the registry of the sample schema with cycles,
registered on a new registry. -/
theorem table_links_ok_witness :
    ∃ h1, upb_handlers_regmsgdef sample_wire_type sample_schema 4 upb_handlers_new 0
        none none 0 = .ok (h1, 0, []) ∧ handlers_link_ok h1 :=
  ⟨_, rfl, (table_links_ok sample_wire_type).2.2.2.1 sample_schema 4 upb_handlers_new _ 0
    none none 0 0 [] (table_links_ok sample_wire_type).1 rfl⟩

/-! ### The log of the registration callbacks -/

/-- A name registered between two states of a registration has a handler set
added between them. -/
theorem reg_inv_new_range (o : Nat) (st st1 : upb_regstate) (key : String) (k : Nat)
    (hinv : reg_inv o st) (hinv1 : reg_inv o st1) (hp : st.mtab <+: st1.mtab)
    (hnot : key ∉ mtab_keys st) (hl : tab_lookup key st1.mtab = some k) :
    st.h.msgs.length ≤ k ∧ k < st1.h.msgs.length := by
  refine ⟨?_, reg_inv_lookup_lt o st1 key k hinv1 hl⟩
  obtain ⟨t, ht⟩ := hp
  obtain ⟨hv, hlen, _⟩ := hinv
  obtain ⟨hv1, _, _⟩ := hinv1
  rw [← ht] at hv1 hl
  rw [tab_lookup_append_none _ _ _ ((tab_lookup_none_iff _ _).2 hnot)] at hl
  have hmem : k ∈ t.map Prod.snd := List.mem_map.2 ⟨(key, k), tab_lookup_mem _ _ _ hl, rfl⟩
  rw [List.map_append, hv, List.length_append, Nat.add_comm st.mtab.length,
    ← List.range'_append_1, List.append_cancel_left_eq] at hv1
  rw [hv1, List.mem_range'_1] at hmem
  rw [hlen]
  exact hmem.1

/-- In a table without duplicate keys an entry is found by its key. -/
theorem tab_lookup_of_mem {K V : Type} [DecidableEq K] (key : K) (v : V) :
    ∀ (t : List (K × V)), (t.map Prod.fst).Nodup → (key, v) ∈ t → tab_lookup key t = some v := by
  intro t
  induction t with
  | nil => intro _ h; cases h
  | cons a t ih =>
    intro hnd hmem
    obtain ⟨k1, v1⟩ := a
    simp only [List.map_cons, List.nodup_cons] at hnd
    simp only [tab_lookup]
    rcases List.mem_cons.1 hmem with h | h
    · cases h
      simp
    · have hne : k1 ≠ key := by
        intro he
        subst he
        exact hnd.1 (List.mem_map.2 ⟨_, h, rfl⟩)
      simp only [hne, if_false]
      exact ih hnd.2 h

theorem calls_of_append (k : Nat) (a b : List upb_regcall) :
    calls_of k (a ++ b) = calls_of k a ++ calls_of k b := by
  simp [calls_of]

theorem calls_of_nil (k : Nat) (l : List upb_regcall) (h : ∀ c ∈ l, call_mh c ≠ k) :
    calls_of k l = [] := by
  unfold calls_of
  rw [List.filter_eq_nil_iff]
  intro c hc
  simpa using h c hc

theorem call_fieldreg_calls (cb : upb_onfieldreg) (closure : Nat) (fh : Nat × Nat)
    (f : upb_fielddef) (st : upb_regstate) :
    (call_fieldreg (some cb) closure fh f st).calls =
      st.calls ++ [upb_regcall.onfield closure fh.1 fh.2 f] := rfl

theorem call_msgreg_calls (cb : upb_onmsgreg) (closure mh m : Nat) (st : upb_regstate) :
    (call_msgreg (some cb) closure mh m st).calls =
      st.calls ++ [upb_regcall.onmsg closure mh m] := rfl

/-- One iteration of the field loop appends to the log the invocations of the
recursive call, if one is made, then one invocation of `fieldreg_cb` for the
field. -/
theorem regmsg_field_calls (wt : upb_fieldtype_t → Nat) (S : List upb_msgdef)
    (fcb : upb_onfieldreg) (closure o : Nat)
    (dfs : Nat → upb_regstate → Except Fault (upb_regstate × Nat))
    (hcalls : dfs_calls wt S closure o dfs) (mh : Nat) (f : upb_fielddef)
    (st st2 : upb_regstate) (hinv : reg_inv o st)
    (hr : regmsg_field wt S (some fcb) closure dfs mh f st = .ok st2) :
    ∃ new, st2.calls =
        st.calls ++ new ++ [upb_regcall.onfield closure mh (field_tag wt f.number f.type) f] ∧
      (∀ c ∈ new, st.h.msgs.length ≤ call_mh c ∧ call_mh c < st2.h.msgs.length) ∧
      new_calls wt S closure st st2 new := by
  unfold regmsg_field at hr
  split at hr
  · split at hr
    · cases hr
    · rename_i sub hsubdef
      simp only at hr
      have hfound : ∀ r, (match tab_lookup sub.fqname st.mtab with
            | some sub_mh => (Except.ok (st, sub_mh) : Except Fault (upb_regstate × Nat))
            | none => dfs f.def_ st) = .ok r →
          ∃ new, r.1.calls = st.calls ++ new ∧
            (∀ c ∈ new, st.h.msgs.length ≤ call_mh c ∧ call_mh c < r.1.h.msgs.length) ∧
            new_calls wt S closure st r.1 new := by
        intro r hrr
        cases hl : tab_lookup sub.fqname st.mtab with
        | some k =>
          rw [hl] at hrr
          simp only [Except.ok.injEq] at hrr
          subst hrr
          refine ⟨[], by simp, fun c hc => absurd hc (List.not_mem_nil c), ?_⟩
          intro j md k1 _ hnot hlk
          exact absurd (List.mem_map.2 ⟨_, tab_lookup_mem _ _ _ hlk, rfl⟩) hnot
        | none =>
          rw [hl] at hrr
          simp only at hrr
          have hnot : sub.fqname ∉ mtab_keys st := (tab_lookup_none_iff _ _).1 hl
          exact hcalls f.def_ sub st r.1 r.2 hsubdef hnot hinv hrr
      split at hr
      · cases hr
      · rename_i st1 k hfd
        obtain ⟨new, hc1, hrange, hnew⟩ := hfound (st1, k) hfd
        split at hr
        · cases hr
        · rename_i h2 fh hnew2
          simp only [Except.ok.injEq] at hr
          obtain ⟨hfh, hlen2, _, _⟩ :=
            newfhandlers_subm_spec wt st1.h h2 mh f.number f.type (upb_isseq f) (some k) fh hnew2
          obtain ⟨hm3, hlen3, _⟩ :=
            call_fieldreg_spec (some fcb) closure fh f { st1 with h := h2 }
          have hc3 := call_fieldreg_calls fcb closure fh f { st1 with h := h2 }
          rw [hr] at hm3 hlen3 hc3
          simp only at hm3 hlen3 hc3 hc1
          subst hfh
          refine ⟨new, ?_, ?_, ?_⟩
          · rw [hc3, hc1]
          · intro c hc
            rw [hlen3, hlen2]
            exact hrange c hc
          · intro j md k1 hj hnot hlk
            rw [hm3] at hlk
            exact hnew j md k1 hj hnot hlk
  · split at hr
    · cases hr
    · rename_i h2 fh hnew2
      simp only [Except.ok.injEq] at hr
      obtain ⟨hfh, hlen2, _⟩ :=
        newfhandlers_scalar_spec wt st.h h2 mh f.number f.type (upb_isseq f) fh hnew2
      obtain ⟨hm3, hlen3, _⟩ := call_fieldreg_spec (some fcb) closure fh f { st with h := h2 }
      have hc3 := call_fieldreg_calls fcb closure fh f { st with h := h2 }
      rw [hr] at hm3 hlen3 hc3
      simp only at hm3 hlen3 hc3
      subst hfh
      refine ⟨[], by rw [hc3]; simp, fun c hc => absurd hc (List.not_mem_nil c), ?_⟩
      intro j md k1 _ hnot hlk
      rw [hm3] at hlk
      exact absurd (List.mem_map.2 ⟨_, tab_lookup_mem _ _ _ hlk, rfl⟩) hnot

/-- The field loop for the handler set `mh` appends to the log one invocation
of `fieldreg_cb` per field, in the order of the fields, interleaved with the
invocations of the recursive calls, which are about other handler sets. -/
theorem regmsg_fields_calls (wt : upb_fieldtype_t → Nat) (S : List upb_msgdef)
    (fcb : upb_onfieldreg) (closure o : Nat)
    (dfs : Nat → upb_regstate → Except Fault (upb_regstate × Nat))
    (hdfs : dfs_sound wt S o dfs) (hcalls : dfs_calls wt S closure o dfs) (mh : Nat) :
    ∀ (fs : List upb_fielddef) (st st2 : upb_regstate), reg_inv o st →
      mh < st.h.msgs.length →
      regmsg_fields wt S (some fcb) closure dfs mh fs st = .ok st2 →
      ∃ new, st2.calls = st.calls ++ new ∧
        (∀ c ∈ new, call_mh c = mh ∨
          (st.h.msgs.length ≤ call_mh c ∧ call_mh c < st2.h.msgs.length)) ∧
        calls_of mh new = field_calls wt closure mh fs ∧
        new_calls wt S closure st st2 new := by
  intro fs
  induction fs with
  | nil =>
    intro st st2 _ _ hr
    simp only [regmsg_fields, Except.ok.injEq] at hr
    subst hr
    refine ⟨[], by simp, fun c hc => absurd hc (List.not_mem_nil c), rfl, ?_⟩
    intro j md k1 _ hnot hlk
    exact absurd (List.mem_map.2 ⟨_, tab_lookup_mem _ _ _ hlk, rfl⟩) hnot
  | cons f fs ih =>
    intro st st2 hinv hmh hr
    simp only [regmsg_fields] at hr
    split at hr
    · cases hr
    · rename_i st1 hstep
      obtain ⟨hp1, hinv1, _, _, _, _⟩ :=
        regmsg_field_post wt S (some fcb) closure o dfs hdfs mh f st st1 hinv hstep
      obtain ⟨new1, hc1, hrange1, hnew1⟩ :=
        regmsg_field_calls wt S fcb closure o dfs hcalls mh f st st1 hinv hstep
      have hle1 := reg_inv_length_le o st st1 hinv hinv1 hp1
      obtain ⟨hp2, hinv2, _, _, _, _⟩ :=
        regmsg_fields_post wt S (some fcb) closure o dfs hdfs mh fs st1 st2 hinv1 hr
      obtain ⟨new2, hc2, hrange2, hown2, hnew2⟩ := ih st1 st2 hinv1 (by omega) hr
      have hle2 := reg_inv_length_le o st1 st2 hinv1 hinv2 hp2
      have hcf : call_mh (upb_regcall.onfield closure mh (field_tag wt f.number f.type) f) = mh :=
        rfl
      refine ⟨new1 ++ [upb_regcall.onfield closure mh (field_tag wt f.number f.type) f] ++ new2,
        ?_, ?_, ?_, ?_⟩
      · rw [hc2, hc1]
        simp
      · intro c hc
        simp only [List.mem_append, List.mem_singleton] at hc
        rcases hc with (hc | hc) | hc
        · have := hrange1 c hc
          right
          omega
        · left
          rw [hc]
          exact hcf
        · rcases hrange2 c hc with h | h
          · left; exact h
          · right; omega
      · rw [calls_of_append, calls_of_append, hown2,
          calls_of_nil mh new1 (fun c hc => by have := hrange1 c hc; omega)]
        simp [calls_of, field_calls, call_mh]
      · intro j md k hj hnot hlk
        rw [calls_of_append, calls_of_append]
        by_cases hin : md.fqname ∈ mtab_keys st1
        · -- registered by the recursive call for `f`
          cases hl1 : tab_lookup md.fqname st1.mtab with
          | none => exact absurd hin ((tab_lookup_none_iff _ _).1 hl1)
          | some k1 =>
            have hk : k1 = k := by
              have := tab_lookup_extends _ _ _ _ hp2 hl1
              rw [hlk] at this
              exact (Option.some.inj this).symm
            subst hk
            obtain ⟨hlo, hhi⟩ := reg_inv_new_range o st st1 _ _ hinv hinv1 hp1 hnot hl1
            rw [hnew1 j md k1 hj hnot hl1,
              calls_of_nil k1 [_] (fun c hc => by
                rw [List.mem_singleton] at hc; rw [hc, hcf]; omega),
              calls_of_nil k1 new2 (fun c hc => by
                rcases hrange2 c hc with h | h <;> omega)]
            simp
        · -- registered by a later recursive call
          obtain ⟨hlo, hhi⟩ := reg_inv_new_range o st1 st2 _ _ hinv1 hinv2 hp2 hin hlk
          rw [hnew2 j md k hj hin hlk,
            calls_of_nil k [_] (fun c hc => by
              rw [List.mem_singleton] at hc; rw [hc, hcf]; omega),
            calls_of_nil k new1 (fun c hc => by have := hrange1 c hc; omega)]
          simp

/-- The state at the head of the field loop of a call of the traversal on a
message definition whose name is not registered. -/
theorem regmsg_head_inv (mcb : Option upb_onmsgreg) (closure o m : Nat) (name : String)
    (st : upb_regstate) (hinv : reg_inv o st) (hnot : name ∉ mtab_keys st) :
    reg_inv o (call_msgreg mcb closure (upb_handlers_newmhandlers st.h).2 m
      { st with h := (upb_handlers_newmhandlers st.h).1,
                mtab := tab_insert st.mtab name (upb_handlers_newmhandlers st.h).2 }) ∧
    (call_msgreg mcb closure (upb_handlers_newmhandlers st.h).2 m
      { st with h := (upb_handlers_newmhandlers st.h).1,
                mtab := tab_insert st.mtab name (upb_handlers_newmhandlers st.h).2 }).mtab =
      st.mtab ++ [(name, st.h.msgs.length)] ∧
    (call_msgreg mcb closure (upb_handlers_newmhandlers st.h).2 m
      { st with h := (upb_handlers_newmhandlers st.h).1,
                mtab := tab_insert st.mtab name (upb_handlers_newmhandlers st.h).2 }).h.msgs.length =
      st.h.msgs.length + 1 := by
  obtain ⟨hki, hlen1, _⟩ := newmhandlers_spec st.h
  obtain ⟨hm0, hlen0, _⟩ := call_msgreg_spec mcb closure (upb_handlers_newmhandlers st.h).2 m
    { st with h := (upb_handlers_newmhandlers st.h).1,
              mtab := tab_insert st.mtab name (upb_handlers_newmhandlers st.h).2 }
  simp only at hm0 hlen0
  obtain ⟨hv, hl, hnd⟩ := hinv
  have hmt : (call_msgreg mcb closure (upb_handlers_newmhandlers st.h).2 m
      { st with h := (upb_handlers_newmhandlers st.h).1,
                mtab := tab_insert st.mtab name (upb_handlers_newmhandlers st.h).2 }).mtab =
      st.mtab ++ [(name, st.h.msgs.length)] := by
    rw [hm0, hki, tab_insert]
  refine ⟨⟨?_, ?_, ?_⟩, hmt, by rw [hlen0, hlen1]⟩
  · rw [hmt, List.map_append, hv, List.length_append, List.length_singleton,
      List.range'_1_concat, hl]
    rfl
  · rw [hlen0, hlen1, hmt, List.length_append, List.length_singleton, hl]
    omega
  · rw [mtab_keys, hmt]
    simp only [List.map_append, List.map_cons, List.map_nil]
    refine List.nodup_append.2 ⟨hnd, List.nodup_singleton _, ?_⟩
    intro x hx hx2
    rw [List.mem_singleton] at hx2
    subst hx2
    exact hnot hx

/-- A call of the traversal on a message definition whose name is not
registered appends to the log, for itself and for each message definition
registered during the call, one invocation of `msgreg_cb` followed by one
invocation of `fieldreg_cb` per field in declaration order. -/
theorem regmsg_dfs_calls (wt : upb_fieldtype_t → Nat) (S : List upb_msgdef)
    (hn : (S.map upb_msgdef.fqname).Nodup)
    (mcb : upb_onmsgreg) (fcb : upb_onfieldreg) (closure o : Nat) :
    ∀ fuel, dfs_calls wt S closure o (upb_regmsg_dfs wt S (some mcb) (some fcb) closure fuel) := by
  intro fuel
  induction fuel with
  | zero =>
    intro j sub st0 st1 k _ _ _ hr
    simp [upb_regmsg_dfs] at hr
  | succ fuel ih =>
    intro m md st st2 k hmd hnot hinv hr
    simp only [upb_regmsg_dfs, hmd] at hr
    split at hr
    · cases hr
    · rename_i stl hloop
      simp only [Except.ok.injEq, Prod.mk.injEq] at hr
      obtain ⟨rfl, rfl⟩ := hr
      obtain ⟨hki, _, _⟩ := newmhandlers_spec st.h
      obtain ⟨hinvh, hmt, hlenh⟩ := regmsg_head_inv (some mcb) closure o m md.fqname st hinv hnot
      have hch := call_msgreg_calls mcb closure (upb_handlers_newmhandlers st.h).2 m
        { st with h := (upb_handlers_newmhandlers st.h).1,
                  mtab := tab_insert st.mtab md.fqname (upb_handlers_newmhandlers st.h).2 }
      simp only at hch
      have hsound := regmsg_dfs_sound wt S hn (some mcb) (some fcb) closure o fuel
      obtain ⟨hp2, hinv2, _, _, _, _⟩ := regmsg_fields_post wt S (some fcb) closure o _ hsound
        (upb_handlers_newmhandlers st.h).2 md.fields _ stl hinvh hloop
      obtain ⟨new, hc, hrange, hown, hnew⟩ := regmsg_fields_calls wt S fcb closure o _ hsound ih
        (upb_handlers_newmhandlers st.h).2 md.fields _ stl hinvh (by rw [hlenh, hki]; omega) hloop
      have hle := reg_inv_length_le o _ stl hinvh hinv2 hp2
      rw [hlenh] at hle
      rw [hlenh] at hrange
      rw [hki] at hown hrange
      have hlk : tab_lookup md.fqname stl.mtab = some st.h.msgs.length := by
        refine tab_lookup_extends _ _ _ _ hp2 ?_
        rw [hmt]
        exact tab_lookup_insert_new _ _ _ ((tab_lookup_none_iff _ _).2 hnot)
      refine ⟨upb_regcall.onmsg closure st.h.msgs.length m :: new, ?_, ?_, ?_⟩
      · rw [hc, hch, hki]
        simp
      · intro c hc1
        rcases List.mem_cons.1 hc1 with h | h
        · rw [h]
          simp only [call_mh]
          omega
        · rcases hrange c h with h1 | h1 <;> omega
      · intro j mdj k hj hnotj hlkj
        by_cases hname : mdj.fqname = md.fqname
        · obtain ⟨rfl, rfl⟩ := names_inj S hn j m mdj md hj hmd hname
          rw [hlk] at hlkj
          cases hlkj
          simp only [calls_of, call_mh, List.filter_cons, decide_True, if_true, msg_calls]
          rw [← hown]
          rfl
        · have hnoth : mdj.fqname ∉ mtab_keys (call_msgreg (some mcb) closure
              (upb_handlers_newmhandlers st.h).2 m
              { st with h := (upb_handlers_newmhandlers st.h).1,
                        mtab := tab_insert st.mtab md.fqname
                          (upb_handlers_newmhandlers st.h).2 }) := by
            rw [mtab_keys, hmt]
            simp only [List.map_append, List.map_cons, List.map_nil, List.mem_append,
              List.mem_singleton]
            rintro (h | h)
            · exact hnotj h
            · exact hname h
          obtain ⟨hlo, _⟩ := reg_inv_new_range o _ stl _ _ hinvh hinv2 hp2 hnoth hlkj
          rw [hlenh] at hlo
          have hcons : calls_of k (upb_regcall.onmsg closure st.h.msgs.length m :: new) =
              calls_of k new := by
            have hne : ¬ st.h.msgs.length = k := by omega
            simp [calls_of, call_mh, hne]
          rw [hcons]
          exact hnew j mdj k hj hnoth hlkj

/-- C13, as stated, fails on two schemas, with both callbacks supplied. On
the first, `A` declares field number 1 twice before a field of message type
`B`: the registration aborts at the second field, and `msgreg_cb` is never
invoked for the reachable type `B`. On the second, the message definitions 1
and 2 both carry the name `B` and `A` has a field of each type: the
registration returns, the log holds an invocation of `msgreg_cb` for the
definitions 0 and 1 only and none of `fieldreg_cb` for the field of
definition 2, which is reachable from the root. -/
theorem regcalls_counterexample :
    (schema_reach sample_dup_schema 0 1 ∧
      upb_handlers_regmsgdef sample_wire_type sample_dup_schema 2 upb_handlers_new 0
        (some sample_onmsgreg) (some sample_onfieldreg) 0 = .error .abort) ∧
    (schema_reach sample_samename_schema 0 2 ∧
      ∃ h, upb_handlers_regmsgdef sample_wire_type sample_samename_schema 3 upb_handlers_new 0
        (some sample_onmsgreg) (some sample_onfieldreg) 0 = .ok (h, 0,
          [upb_regcall.onmsg 0 0 0, upb_regcall.onmsg 0 1 1,
           upb_regcall.onfield 0 0 10 { number := 1, type := MESSAGE, repeated := false, def_ := 1 },
           upb_regcall.onfield 0 0 18
             { number := 2, type := MESSAGE, repeated := false, def_ := 2 }])) := by
  refine ⟨⟨?_, by rfl⟩, ?_, ⟨_, rfl⟩⟩
  · exact Relation.ReflTransGen.single
      ⟨_, { number := 2, type := MESSAGE, repeated := false, def_ := 1 }, rfl, by decide, rfl, rfl⟩
  · exact Relation.ReflTransGen.single
      ⟨_, { number := 2, type := MESSAGE, repeated := false, def_ := 2 }, rfl, by decide, rfl, rfl⟩

/-- C13 (amended): on a schema whose message types have distinct names and
whose fields point into the schema, `upb_handlers_regmsgdef` with both
callbacks supplied, unless it aborts on a field key that is already taken,
returns with a log in which, for every message definition `j` reachable from
the root, with handler set `k`: the invocations about `k` are exactly one
invocation of `msgreg_cb` with `k` and `j`, followed by one invocation of
`fieldreg_cb` per field of `j`, in declaration order, each with the field
handlers of that field in `k`; `msgreg_cb` is invoked once with `j`, and with
no other handler set. Every invocation in the log is about the handler set
of a reachable message definition, and distinct message definitions have
distinct handler sets. -/
theorem regcalls_once_per_type (wt : upb_fieldtype_t → Nat) (S : List upb_msgdef)
    (mcb : upb_onmsgreg) (fcb : upb_onfieldreg) (closure fuel : Nat)
    (h : upb_handlers) (root : Nat)
    (hn : (S.map upb_msgdef.fqname).Nodup) (hwf : schema_wf S) (hroot : root < S.length)
    (hfuel : S.length ≤ fuel)
    (hna : upb_handlers_regmsgdef wt S fuel h root (some mcb) (some fcb) closure ≠
      .error .abort) :
    ∃ st ret,
      upb_regmsg_dfs wt S (some mcb) (some fcb) closure fuel root (reg_start h) = .ok (st, ret) ∧
      upb_handlers_regmsgdef wt S fuel h root (some mcb) (some fcb) closure =
        .ok (st.h, ret, st.calls) ∧
      (∀ j, schema_reach S root j →
        ∃ md k, S[j]? = some md ∧ tab_lookup md.fqname st.mtab = some k ∧
          calls_of k st.calls = msg_calls wt closure k j md ∧
          st.calls.count (upb_regcall.onmsg closure k j) = 1 ∧
          ∀ cl k1, upb_regcall.onmsg cl k1 j ∈ st.calls → cl = closure ∧ k1 = k) ∧
      (∀ c ∈ st.calls, ∃ j md, schema_reach S root j ∧ S[j]? = some md ∧
        tab_lookup md.fqname st.mtab = some (call_mh c)) ∧
      (∀ (i j : Nat) (mdi mdj : upb_msgdef) (k : Nat), S[i]? = some mdi → S[j]? = some mdj →
        tab_lookup mdi.fqname st.mtab = some k → tab_lookup mdj.fqname st.mtab = some k →
        i = j) := by
  have hmd0 : S[root]? = some S[root] := List.getElem?_eq_getElem hroot
  have hstart : ∀ key : String, key ∉ mtab_keys (reg_start h) := by
    intro key
    simp [mtab_keys, reg_start]
  -- the traversal returns
  have hret := regmsg_dfs_returns wt S hn hwf (some mcb) (some fcb) closure h.msgs.length fuel
    root _ (reg_start h) hmd0 (hstart _) (reg_start_inv h)
    (Nat.le_trans (unregistered_le S _) hfuel)
  have hok : ∃ r, upb_regmsg_dfs wt S (some mcb) (some fcb) closure fuel root (reg_start h) =
      .ok r := by
    rcases hret with hr | hr
    · exact hr
    · exfalso
      apply hna
      simp [upb_handlers_regmsgdef, hr]
  obtain ⟨⟨st, ret⟩, hr⟩ := hok
  obtain ⟨md0, hmd, hpost⟩ :=
    regmsg_root_post wt S hn (some mcb) (some fcb) closure fuel h root st ret hr
  have hreg := reach_registered wt S h.msgs.length root md0 h st ret hmd hpost
  obtain ⟨_, hinv, _, _, _, _, hsound⟩ := hpost
  obtain ⟨new, hc, hrange, hnew⟩ := regmsg_dfs_calls wt S hn mcb fcb closure h.msgs.length fuel
    root md0 (reg_start h) st ret hmd (hstart _) (reg_start_inv h) hr
  have hc1 : st.calls = new := by
    rw [hc]
    simp [reg_start]
  rw [← hc1] at hrange hnew
  obtain ⟨hv, hl, hnd⟩ := hinv
  -- the invocations about the handler set of a reachable message definition
  have hcore : ∀ j, schema_reach S root j →
      ∃ md k, S[j]? = some md ∧ tab_lookup md.fqname st.mtab = some k ∧
        calls_of k st.calls = msg_calls wt closure k j md := by
    intro j hreach
    obtain ⟨md, k, hj, hk, _⟩ := hreg j hreach
    exact ⟨md, k, hj, hk, hnew j md k hj (hstart _) hk⟩
  -- every invocation is about the handler set of a reachable message definition
  have hall : ∀ c ∈ st.calls, ∃ j md, schema_reach S root j ∧ S[j]? = some md ∧
      tab_lookup md.fqname st.mtab = some (call_mh c) := by
    intro c hcm
    obtain ⟨hlo, hhi⟩ := hrange c hcm
    have hmem : call_mh c ∈ st.mtab.map Prod.snd := by
      rw [hv, List.mem_range'_1]
      simp only [reg_start] at hlo
      omega
    obtain ⟨⟨name, v⟩, hin, hv1⟩ := List.mem_map.1 hmem
    simp only at hv1
    subst hv1
    have hlk := tab_lookup_of_mem name (call_mh c) st.mtab hnd hin
    obtain ⟨j, md, hj, hname, hreach⟩ :=
      hsound name (List.mem_map.2 ⟨_, hin, rfl⟩) (hstart _)
    exact ⟨j, md, hreach, hj, by rw [hname]; exact hlk⟩
  -- distinct message definitions have distinct handler sets
  have hinj : ∀ (i j : Nat) (mdi mdj : upb_msgdef) (k : Nat), S[i]? = some mdi →
      S[j]? = some mdj → tab_lookup mdi.fqname st.mtab = some k →
      tab_lookup mdj.fqname st.mtab = some k → i = j := by
    intro i j mdi mdj k hi hj hki hkj
    have hvn : (st.mtab.map Prod.snd).Nodup := by
      rw [hv]
      exact List.nodup_range' _ _
    have heq := List.inj_on_of_nodup_map hvn (tab_lookup_mem _ _ _ hki)
      (tab_lookup_mem _ _ _ hkj) rfl
    exact (names_inj S hn i j mdi mdj hi hj (Prod.mk.inj heq).1).1
  refine ⟨st, ret, hr, by simp [upb_handlers_regmsgdef, hr], ?_, hall, hinj⟩
  intro j hreach
  obtain ⟨md, k, hj, hk, hcalls⟩ := hcore j hreach
  refine ⟨md, k, hj, hk, hcalls, ?_, ?_⟩
  · have hcnt : (calls_of k st.calls).count (upb_regcall.onmsg closure k j) =
        st.calls.count (upb_regcall.onmsg closure k j) := by
      unfold calls_of
      exact List.count_filter (by simp [call_mh])
    rw [← hcnt, hcalls, msg_calls, List.count_cons_self, Nat.add_left_eq_self,
      List.count_eq_zero, field_calls]
    intro hmem
    obtain ⟨f, _, hf⟩ := List.mem_map.1 hmem
    cases hf
  · intro cl k1 hmem
    obtain ⟨j1, md1, hreach1, hj1, hk1⟩ := hall _ hmem
    simp only [call_mh] at hk1
    obtain ⟨md2, k2, hj2, hk2, hcalls2⟩ := hcore j1 hreach1
    rw [hj1] at hj2
    cases hj2
    rw [hk1] at hk2
    cases hk2
    have hmem2 : upb_regcall.onmsg cl k1 j ∈ calls_of k1 st.calls := by
      unfold calls_of
      exact List.mem_filter.2 ⟨hmem, by simp [call_mh]⟩
    rw [hcalls2, msg_calls, List.mem_cons] at hmem2
    rcases hmem2 with h1 | h1
    · cases h1
      rw [hj] at hj1
      cases hj1
      rw [hk] at hk1
      exact ⟨rfl, (Option.some.inj hk1).symm⟩
    · rw [field_calls] at h1
      obtain ⟨f, _, hf⟩ := List.mem_map.1 h1
      cases hf

/-- Witness of C13 (amended): the sample schema with cycles, in which `A` is
referenced by a field of `B` and `B` by fields of `A` and `B`, registered on
a new registry with both callbacks. -/
theorem regcalls_once_per_type_witness :
    ∃ st ret,
      upb_regmsg_dfs sample_wire_type sample_schema (some sample_onmsgreg)
        (some sample_onfieldreg) 0 4 0 (reg_start upb_handlers_new) = .ok (st, ret) ∧
      upb_handlers_regmsgdef sample_wire_type sample_schema 4 upb_handlers_new 0
        (some sample_onmsgreg) (some sample_onfieldreg) 0 = .ok (st.h, ret, st.calls) ∧
      (∀ j, schema_reach sample_schema 0 j →
        ∃ md k, sample_schema[j]? = some md ∧ tab_lookup md.fqname st.mtab = some k ∧
          calls_of k st.calls = msg_calls sample_wire_type 0 k j md ∧
          st.calls.count (upb_regcall.onmsg 0 k j) = 1 ∧
          ∀ cl k1, upb_regcall.onmsg cl k1 j ∈ st.calls → cl = 0 ∧ k1 = k) ∧
      (∀ c ∈ st.calls, ∃ j md, schema_reach sample_schema 0 j ∧ sample_schema[j]? = some md ∧
        tab_lookup md.fqname st.mtab = some (call_mh c)) ∧
      (∀ (i j : Nat) (mdi mdj : upb_msgdef) (k : Nat), sample_schema[i]? = some mdi →
        sample_schema[j]? = some mdj →
        tab_lookup mdi.fqname st.mtab = some k → tab_lookup mdj.fqname st.mtab = some k →
        i = j) :=
  regcalls_once_per_type sample_wire_type sample_schema sample_onmsgreg sample_onfieldreg 0 4
    upb_handlers_new 0 (by decide) (by unfold schema_wf; decide) (by decide) (by decide)
    (by
      intro hc
      have h2 : (upb_handlers_regmsgdef sample_wire_type sample_schema 4 upb_handlers_new 0
        (some sample_onmsgreg) (some sample_onfieldreg) 0).toBool = true := rfl
      rw [hc] at h2
      cases h2)

/-! ### The registration aborts only on a key entered twice -/

/-- Distinct message definitions have distinct handler sets. -/
theorem reg_inv_handler_inj (S : List upb_msgdef) (hn : (S.map upb_msgdef.fqname).Nodup)
    (o : Nat) (st : upb_regstate) (hinv : reg_inv o st) (i j : Nat) (a b : upb_msgdef)
    (k : Nat) (hi : S[i]? = some a) (hj : S[j]? = some b)
    (hki : tab_lookup a.fqname st.mtab = some k) (hkj : tab_lookup b.fqname st.mtab = some k) :
    i = j ∧ a = b := by
  have hvn : (st.mtab.map Prod.snd).Nodup := by
    rw [hinv.1]
    exact List.nodup_range' _ _
  have heq := List.inj_on_of_nodup_map hvn (tab_lookup_mem _ _ _ hki)
    (tab_lookup_mem _ _ _ hkj) rfl
  exact names_inj S hn i j a b hi hj (Prod.mk.inj heq).1

theorem table_keys_nodup (wt : upb_fieldtype_t → Nat) (S : List upb_msgdef)
    (hkeys : schema_keys_distinct wt S) (j : Nat) (md : upb_msgdef) (hj : S[j]? = some md) :
    (table_keys wt S j md).Nodup := by
  have hlt : j < S.length := by
    rcases Nat.lt_or_ge j S.length with h | h
    · exact h
    · rw [List.getElem?_eq_none h] at hj; cases hj
  have h1 := hkeys ⟨j, hlt⟩
  rw [List.getElem?_eq_getElem hlt] at hj
  cases hj
  exact h1

/-- Two fields of one message definition with the same key are the same
field. -/
theorem keys_own_inj (wt : upb_fieldtype_t → Nat) (S : List upb_msgdef)
    (hkeys : schema_keys_distinct wt S) (j : Nat) (md : upb_msgdef) (hj : S[j]? = some md)
    (f g : upb_fielddef) (hf : f ∈ md.fields) (hg : g ∈ md.fields)
    (he : field_tag wt f.number f.type = field_tag wt g.number g.type) : f = g := by
  have h1 := table_keys_nodup wt S hkeys j md hj
  rw [table_keys, List.nodup_append] at h1
  exact List.inj_on_of_nodup_map h1.1 hf hg he

theorem fields_nodup (wt : upb_fieldtype_t → Nat) (S : List upb_msgdef)
    (hkeys : schema_keys_distinct wt S) (j : Nat) (md : upb_msgdef) (hj : S[j]? = some md) :
    md.fields.Nodup := by
  have h1 := table_keys_nodup wt S hkeys j md hj
  rw [table_keys, List.nodup_append] at h1
  exact List.Nodup.of_map _ h1.1

theorem mem_group_fields_to (S : List upb_msgdef) (i : Nat) (md : upb_msgdef)
    (hi : S[i]? = some md) (f : upb_fielddef) (hf : f ∈ md.fields) (hg : f.type = GROUP) :
    f ∈ group_fields_to S f.def_ := by
  unfold group_fields_to
  rw [List.mem_flatMap]
  exact ⟨md, List.getElem?_mem hi, List.mem_filter.2 ⟨hf, by simp [hg]⟩⟩

/-- The key of a field differs from the keys of the end-of-group pseudo-fields
added to the handler set of its message definition. -/
theorem keys_own_ne_end (wt : upb_fieldtype_t → Nat) (S : List upb_msgdef)
    (hkeys : schema_keys_distinct wt S) (i : Nat) (mdi : upb_msgdef) (hi : S[i]? = some mdi)
    (f : upb_fielddef) (hf : f ∈ mdi.fields) (hty : f.type = GROUP)
    (mdj : upb_msgdef) (hj : S[f.def_]? = some mdj) (g : upb_fielddef) (hg : g ∈ mdj.fields) :
    field_tag wt g.number g.type ≠ field_tag wt f.number ENDGROUP := by
  have h1 := table_keys_nodup wt S hkeys f.def_ mdj hj
  rw [table_keys, List.nodup_append] at h1
  intro he
  refine h1.2.2 (List.mem_map.2 ⟨g, hg, rfl⟩) ?_
  rw [he]
  exact List.mem_map.2 ⟨f, mem_group_fields_to S i mdi hi f hf hty, rfl⟩

/-- Two group fields of the same type whose end-of-group pseudo-fields have
the same key are the same field of the same message definition. -/
theorem keys_end_inj (wt : upb_fieldtype_t → Nat) (S : List upb_msgdef)
    (hkeys : schema_keys_distinct wt S) (i i1 : Nat) (mdi mdi1 : upb_msgdef)
    (hi : S[i]? = some mdi) (hi1 : S[i1]? = some mdi1) (f f1 : upb_fielddef)
    (hf : f ∈ mdi.fields) (hf1 : f1 ∈ mdi1.fields) (hty : f.type = GROUP)
    (hty1 : f1.type = GROUP) (hd : f1.def_ = f.def_) (sub : upb_msgdef)
    (hsub : S[f.def_]? = some sub)
    (he : field_tag wt f.number ENDGROUP = field_tag wt f1.number ENDGROUP) :
    i = i1 ∧ f = f1 := by
  have h1 := table_keys_nodup wt S hkeys f.def_ sub hsub
  rw [table_keys, List.nodup_append] at h1
  have hnd := h1.2.1
  unfold endgroup_keys at hnd
  have hm := mem_group_fields_to S i mdi hi f hf hty
  have hm1 := mem_group_fields_to S i1 mdi1 hi1 f1 hf1 hty1
  rw [hd] at hm1
  have hff : f = f1 := List.inj_on_of_nodup_map hnd hm hm1 he
  subst hff
  refine ⟨?_, rfl⟩
  have hnd2 := List.Nodup.of_map _ hnd
  unfold group_fields_to at hnd2
  rw [List.nodup_flatMap] at hnd2
  have hpw := hnd2.2
  have hil : i < S.length := by
    rcases Nat.lt_or_ge i S.length with h | h
    · exact h
    · rw [List.getElem?_eq_none h] at hi; cases hi
  have hi1l : i1 < S.length := by
    rcases Nat.lt_or_ge i1 S.length with h | h
    · exact h
    · rw [List.getElem?_eq_none h] at hi1; cases hi1
  rw [List.getElem?_eq_getElem hil] at hi
  rw [List.getElem?_eq_getElem hi1l] at hi1
  cases hi
  cases hi1
  have hmemf : ∀ x (hx : x < S.length), f ∈ S[x].fields →
      f ∈ S[x].fields.filter (fun g => decide (g.type = GROUP ∧ g.def_ = f.def_)) := by
    intro x hx hin
    exact List.mem_filter.2 ⟨hin, by simp [hty]⟩
  rcases Nat.lt_trichotomy i i1 with h | h | h
  · exact absurd (hmemf i1 hi1l hf1)
      (List.disjoint_left.1 (List.pairwise_iff_getElem.1 hpw i i1 hil hi1l h) (hmemf i hil hf))
  · exact h
  · exact absurd (hmemf i hil hf)
      (List.disjoint_left.1 (List.pairwise_iff_getElem.1 hpw i1 i hi1l hil h) (hmemf i1 hi1l hf1))

theorem newfhandlers_scalar_abort (wt : upb_fieldtype_t → Nat) (h : upb_handlers)
    (m n : Nat) (type : upb_fieldtype_t) (repeated : Bool)
    (hr : upb_mhandlers_newfhandlers wt h m n type repeated = .error .abort) :
    flookup h m (field_tag wt n type) ≠ none := by
  unfold upb_mhandlers_newfhandlers at hr
  split at hr
  · cases hr
  · split at hr
    · cases hr
    · exact (newfhandlers_abort_iff wt h m n type repeated).1 hr

/-- When `upb_mhandlers_newfhandlers_subm` aborts, the key of the field is in
the table of the handler set, or the field is a group field and the key of
its end-of-group pseudo-field is in the table of the submessage handler set
(possibly as the key just entered for the field itself). -/
theorem newfhandlers_subm_abort (wt : upb_fieldtype_t → Nat) (h : upb_handlers)
    (m n : Nat) (type : upb_fieldtype_t) (repeated : Bool) (sub : Nat)
    (hr : upb_mhandlers_newfhandlers_subm wt h m n type repeated (some sub) = .error .abort) :
    flookup h m (field_tag wt n type) ≠ none ∨
    (type = GROUP ∧ ((sub = m ∧ field_tag wt n ENDGROUP = field_tag wt n type) ∨
      flookup h sub (field_tag wt n ENDGROUP) ≠ none)) := by
  unfold upb_mhandlers_newfhandlers_subm at hr
  split at hr
  · cases hr
  · simp only at hr
    split at hr
    · rename_i e hfirst
      simp only [Except.error.injEq] at hr
      subst hr
      exact Or.inl ((newfhandlers_abort_iff wt h m n type repeated).1 hfirst)
    · rename_i ha pa hfirst
      obtain ⟨hp, _, _, _, _, hsame⟩ := newfhandlers_spec wt h ha m n type repeated pa hfirst
      subst hp
      split at hr
      · rename_i hg
        split at hr
        · rename_i e hsecond
          simp only [Except.error.injEq] at hr
          subst hr
          have hpres := (newfhandlers_abort_iff wt _ sub n ENDGROUP false).1 hsecond
          rw [flookup_write] at hpres
          right
          refine ⟨hg, ?_⟩
          by_cases hrt : sub = m ∧ field_tag wt n ENDGROUP = field_tag wt n type
          · exact Or.inl hrt
          · right
            have hne : sub ≠ m ∨ field_tag wt n ENDGROUP ≠ field_tag wt n type := by
              by_contra hc
              push_neg at hc
              exact hrt hc
            simp only [hrt, if_false] at hpres
            rw [hsame sub _ hne] at hpres
            exact hpres
        · cases hr
      · cases hr

theorem call_fieldreg_present (cb : Option upb_onfieldreg) (closure : Nat) (fh : Nat × Nat)
    (f : upb_fielddef) (st : upb_regstate) (r t : Nat)
    (hp : flookup (call_fieldreg cb closure fh f st).h r t ≠ none) :
    flookup st.h r t ≠ none := by
  cases cb with
  | none => exact hp
  | some cb =>
    simp only [call_fieldreg] at hp
    rw [flookup_write] at hp
    intro hc
    rw [hc] at hp
    simp at hp

theorem key_source_mono (wt : upb_fieldtype_t → Nat) (S : List upb_msgdef)
    (st st1 : upb_regstate) (k t : Nat) (s : Nat × upb_fielddef) (hp : st.mtab <+: st1.mtab)
    (h : key_source wt S st k t s) : key_source wt S st1 k t s := by
  obtain ⟨md, hs, hf, h1 | h1⟩ := h
  · exact ⟨md, hs, hf, Or.inl ⟨tab_lookup_extends _ _ _ _ hp h1.1, h1.2⟩⟩
  · obtain ⟨hty, ht, sub, hsub, hk⟩ := h1
    exact ⟨md, hs, hf, Or.inr ⟨hty, ht, sub, hsub, tab_lookup_extends _ _ _ _ hp hk⟩⟩

theorem tables_from_mono (wt : upb_fieldtype_t → Nat) (S : List upb_msgdef) (o : Nat)
    (st st1 : upb_regstate) (P Q : Nat × upb_fielddef → Prop) (hp : st.mtab <+: st1.mtab)
    (hpq : ∀ s, P s → Q s)
    (hh : ∀ k t, flookup st1.h k t ≠ none → flookup st.h k t ≠ none)
    (h : tables_from wt S o st P) : tables_from wt S o st1 Q := by
  intro k t hk hpres
  obtain ⟨s, hs, hsrc⟩ := h k t hk (hh k t hpres)
  exact ⟨s, hpq s hs, key_source_mono wt S st st1 k t s hp hsrc⟩

theorem reg_inv_lookup_ge (o : Nat) (st : upb_regstate) (key : String) (k : Nat)
    (hinv : reg_inv o st) (hl : tab_lookup key st.mtab = some k) : o ≤ k := by
  have hmem : k ∈ st.mtab.map Prod.snd :=
    List.mem_map.2 ⟨(key, k), tab_lookup_mem _ _ _ hl, rfl⟩
  rw [hinv.1, List.mem_range'_1] at hmem
  exact hmem.1

/-- The key of a field that is not accounted for is not in the table of the
handler set of its message definition. -/
theorem own_key_free (wt : upb_fieldtype_t → Nat) (S : List upb_msgdef)
    (hn : (S.map upb_msgdef.fqname).Nodup) (hkeys : schema_keys_distinct wt S) (o : Nat)
    (m : Nat) (md : upb_msgdef) (mh : Nat) (f : upb_fielddef) (st : upb_regstate)
    (P : Nat × upb_fielddef → Prop)
    (hm : S[m]? = some md) (hf : f ∈ md.fields) (hmh : tab_lookup md.fqname st.mtab = some mh)
    (hinv : reg_inv o st) (htab : tables_from wt S o st P) (hfresh : ¬ P (m, f)) :
    flookup st.h mh (field_tag wt f.number f.type) = none := by
  by_contra hpres
  obtain ⟨⟨i, g⟩, hP, mdi, hi, hg, h1 | h1⟩ :=
    htab mh _ (reg_inv_lookup_ge o st _ mh hinv hmh) hpres
  · simp only at hi hg h1
    obtain ⟨rfl, rfl⟩ := reg_inv_handler_inj S hn o st hinv i m mdi md mh hi hm h1.1 hmh
    have hfg := keys_own_inj wt S hkeys i mdi hi f g hf hg h1.2
    subst hfg
    exact hfresh hP
  · simp only at hi hg h1
    obtain ⟨hty, ht, sub, hsub, hk⟩ := h1
    obtain ⟨hdm, rfl⟩ := reg_inv_handler_inj S hn o st hinv g.def_ m sub md mh hsub hm hk hmh
    exact keys_own_ne_end wt S hkeys i mdi hi g hg hty sub hsub f hf ht

/-- The key of the end-of-group pseudo-field of a group field that is not
accounted for is not in the table of the handler set of the field's type. -/
theorem end_key_free (wt : upb_fieldtype_t → Nat) (S : List upb_msgdef)
    (hn : (S.map upb_msgdef.fqname).Nodup) (hkeys : schema_keys_distinct wt S) (o : Nat)
    (m : Nat) (md sub : upb_msgdef) (k : Nat) (f : upb_fielddef) (st : upb_regstate)
    (P : Nat × upb_fielddef → Prop)
    (hm : S[m]? = some md) (hf : f ∈ md.fields) (hty : f.type = GROUP)
    (hsd : S[f.def_]? = some sub) (hk : tab_lookup sub.fqname st.mtab = some k)
    (hinv : reg_inv o st) (htab : tables_from wt S o st P) (hfresh : ¬ P (m, f)) :
    flookup st.h k (field_tag wt f.number ENDGROUP) = none := by
  by_contra hpres
  obtain ⟨⟨i, g⟩, hP, mdi, hi, hg, h1 | h1⟩ :=
    htab k _ (reg_inv_lookup_ge o st _ k hinv hk) hpres
  · simp only at hi hg h1
    obtain ⟨rfl, rfl⟩ := reg_inv_handler_inj S hn o st hinv i f.def_ mdi sub k hi hsd h1.1 hk
    exact keys_own_ne_end wt S hkeys m md hm f hf hty mdi hsd g hg h1.2.symm
  · simp only at hi hg h1
    obtain ⟨htyg, ht, sub1, hsub1, hk1⟩ := h1
    obtain ⟨hd, rfl⟩ := reg_inv_handler_inj S hn o st hinv g.def_ f.def_ sub1 sub k hsub1 hsd hk1 hk
    obtain ⟨rfl, rfl⟩ := keys_end_inj wt S hkeys m i md mdi hm hi f g hf hg hty htyg hd sub1 hsd ht
    exact hfresh hP

/-- The call of `upb_mhandlers_newfhandlers_subm` in the field loop does not
abort when the field is not accounted for. -/
theorem field_subm_no_abort (wt : upb_fieldtype_t → Nat) (S : List upb_msgdef)
    (hn : (S.map upb_msgdef.fqname).Nodup) (hkeys : schema_keys_distinct wt S) (o : Nat)
    (m : Nat) (md sub : upb_msgdef) (mh k : Nat) (f : upb_fielddef) (st : upb_regstate)
    (P : Nat × upb_fielddef → Prop)
    (hm : S[m]? = some md) (hf : f ∈ md.fields) (hmh : tab_lookup md.fqname st.mtab = some mh)
    (hsd : S[f.def_]? = some sub) (hk : tab_lookup sub.fqname st.mtab = some k)
    (hinv : reg_inv o st) (htab : tables_from wt S o st P) (hfresh : ¬ P (m, f)) :
    upb_mhandlers_newfhandlers_subm wt st.h mh f.number f.type (upb_isseq f) (some k) ≠
      .error .abort := by
  intro hr
  rcases newfhandlers_subm_abort wt st.h mh f.number f.type (upb_isseq f) k hr with h1 | h1
  · exact h1 (own_key_free wt S hn hkeys o m md mh f st P hm hf hmh hinv htab hfresh)
  · obtain ⟨hty, h2 | h2⟩ := h1
    · obtain ⟨hkm, he⟩ := h2
      subst hkm
      obtain ⟨_, rfl⟩ := reg_inv_handler_inj S hn o st hinv f.def_ m sub md k hsd hm hk hmh
      exact keys_own_ne_end wt S hkeys m sub hm f hf hty sub hsd f hf he.symm
    · exact h2 (end_key_free wt S hn hkeys o m md sub k f st P hm hf hty hsd hk hinv htab hfresh)

/-- After the call of `upb_mhandlers_newfhandlers_subm` and of the field
registration callback, the field accounts for the keys added. -/
theorem field_subm_tables (wt : upb_fieldtype_t → Nat) (S : List upb_msgdef) (o : Nat)
    (fcb : Option upb_onfieldreg) (closure : Nat)
    (m : Nat) (md sub : upb_msgdef) (mh k : Nat) (f : upb_fielddef) (st : upb_regstate)
    (P : Nat × upb_fielddef → Prop) (h2 : upb_handlers) (fh : Nat × Nat)
    (hm : S[m]? = some md) (hf : f ∈ md.fields) (hmh : tab_lookup md.fqname st.mtab = some mh)
    (hsd : S[f.def_]? = some sub) (hk : tab_lookup sub.fqname st.mtab = some k)
    (htab : tables_from wt S o st P)
    (hr : upb_mhandlers_newfhandlers_subm wt st.h mh f.number f.type (upb_isseq f) (some k) =
      .ok (h2, fh)) :
    tables_from wt S o (call_fieldreg fcb closure fh f { st with h := h2 })
      (fun s => P s ∨ s = (m, f)) := by
  obtain ⟨hm3, _, _⟩ := call_fieldreg_spec fcb closure fh f { st with h := h2 }
  simp only at hm3
  obtain ⟨_, _, _, hent⟩ :=
    newfhandlers_subm_entries wt st.h h2 mh f.number f.type (upb_isseq f) (some k) fh hr
  intro r t hr1 hpres
  have hpres2 := call_fieldreg_present fcb closure fh f { st with h := h2 } r t hpres
  simp only at hpres2
  cases hx : flookup h2 r t with
  | none => exact absurd hx hpres2
  | some x =>
    rcases hent r t x hx with h1 | h1 | h1
    · obtain ⟨s, hs, hsrc⟩ := htab r t hr1 (by rw [h1]; simp)
      refine ⟨s, Or.inl hs, key_source_mono wt S st _ r t s ?_ hsrc⟩
      rw [hm3]
    · obtain ⟨rfl, rfl, _, _⟩ := h1
      refine ⟨(m, f), Or.inr rfl, md, hm, hf, Or.inl ⟨?_, rfl⟩⟩
      rw [hm3]
      exact hmh
    · obtain ⟨hty, hsome, rfl, _⟩ := h1
      cases hsome
      refine ⟨(m, f), Or.inr rfl, md, hm, hf, Or.inr ⟨hty, rfl, sub, hsd, ?_⟩⟩
      rw [hm3]
      exact hk

/-- After the call of `upb_mhandlers_newfhandlers` and of the field
registration callback, the field accounts for the key added. -/
theorem field_scalar_tables (wt : upb_fieldtype_t → Nat) (S : List upb_msgdef) (o : Nat)
    (fcb : Option upb_onfieldreg) (closure : Nat)
    (m : Nat) (md : upb_msgdef) (mh : Nat) (f : upb_fielddef) (st : upb_regstate)
    (P : Nat × upb_fielddef → Prop) (h2 : upb_handlers) (fh : Nat × Nat)
    (hm : S[m]? = some md) (hf : f ∈ md.fields) (hmh : tab_lookup md.fqname st.mtab = some mh)
    (htab : tables_from wt S o st P)
    (hr : upb_mhandlers_newfhandlers wt st.h mh f.number f.type (upb_isseq f) = .ok (h2, fh)) :
    tables_from wt S o (call_fieldreg fcb closure fh f { st with h := h2 })
      (fun s => P s ∨ s = (m, f)) := by
  obtain ⟨hm3, _, _⟩ := call_fieldreg_spec fcb closure fh f { st with h := h2 }
  simp only at hm3
  obtain ⟨_, _, hent⟩ :=
    newfhandlers_scalar_entries wt st.h h2 mh f.number f.type (upb_isseq f) fh hr
  intro r t hr1 hpres
  have hpres2 := call_fieldreg_present fcb closure fh f { st with h := h2 } r t hpres
  simp only at hpres2
  cases hx : flookup h2 r t with
  | none => exact absurd hx hpres2
  | some x =>
    rcases hent r t x hx with h1 | h1
    · obtain ⟨s, hs, hsrc⟩ := htab r t hr1 (by rw [h1]; simp)
      refine ⟨s, Or.inl hs, key_source_mono wt S st _ r t s ?_ hsrc⟩
      rw [hm3]
    · obtain ⟨rfl, rfl, _, _⟩ := h1
      refine ⟨(m, f), Or.inr rfl, md, hm, hf, Or.inl ⟨?_, rfl⟩⟩
      rw [hm3]
      exact hmh

/-- One iteration of the field loop does not abort when the field is not
accounted for; when it returns, the tables hold in addition only keys of the
field and of fields of the message definitions registered meanwhile. -/
theorem regmsg_field_no_abort (wt : upb_fieldtype_t → Nat) (S : List upb_msgdef)
    (hn : (S.map upb_msgdef.fqname).Nodup) (hkeys : schema_keys_distinct wt S)
    (fcb : Option upb_onfieldreg) (closure o : Nat)
    (dfs : Nat → upb_regstate → Except Fault (upb_regstate × Nat))
    (hsound : dfs_sound wt S o dfs) (hna : dfs_no_abort wt S o dfs)
    (m : Nat) (md : upb_msgdef) (mh : Nat) (f : upb_fielddef) (st : upb_regstate)
    (P : Nat × upb_fielddef → Prop)
    (hm : S[m]? = some md) (hf : f ∈ md.fields) (hmh : tab_lookup md.fqname st.mtab = some mh)
    (hinv : reg_inv o st) (htab : tables_from wt S o st P) (hown : owners_in S st P)
    (hfresh : ¬ P (m, f)) :
    regmsg_field wt S fcb closure dfs mh f st ≠ .error .abort ∧
    ∀ st2, regmsg_field wt S fcb closure dfs mh f st = .ok st2 →
      tables_from wt S o st2 (fun s => P s ∨ s = (m, f) ∨ added_by S st st2 s) := by
  have hmkey : md.fqname ∈ mtab_keys st := List.mem_map.2 ⟨_, tab_lookup_mem _ _ _ hmh, rfl⟩
  unfold regmsg_field
  split
  · split
    · exact ⟨by simp, fun st2 hr => by cases hr⟩
    · rename_i sub hsd
      simp only
      -- the state after the handler set of the field's type is found
      have hfound : ∀ r, (match tab_lookup sub.fqname st.mtab with
            | some sub_mh => (Except.ok (st, sub_mh) : Except Fault (upb_regstate × Nat))
            | none => dfs f.def_ st) = .ok r →
          st.mtab <+: r.1.mtab ∧ reg_inv o r.1 ∧ tab_lookup sub.fqname r.1.mtab = some r.2 ∧
            tables_from wt S o r.1 (fun s => P s ∨ added_by S st r.1 s) := by
        intro r hrr
        cases hl : tab_lookup sub.fqname st.mtab with
        | some k =>
          rw [hl] at hrr
          simp only [Except.ok.injEq] at hrr
          subst hrr
          exact ⟨List.prefix_refl _, hinv, hl,
            tables_from_mono wt S o st st P _ (List.prefix_refl _) (fun s hs => Or.inl hs)
              (fun _ _ hp => hp) htab⟩
        | none =>
          rw [hl] at hrr
          simp only at hrr
          have hnot : sub.fqname ∉ mtab_keys st := (tab_lookup_none_iff _ _).1 hl
          obtain ⟨a, b, _, _, e, _, _⟩ := hsound f.def_ sub st r.1 r.2 hsd hnot hinv hrr
          exact ⟨a, b, e, (hna f.def_ sub st P hsd hnot hinv htab hown).2 r.1 r.2 hrr⟩
      have hfound_na : (match tab_lookup sub.fqname st.mtab with
            | some sub_mh => (Except.ok (st, sub_mh) : Except Fault (upb_regstate × Nat))
            | none => dfs f.def_ st) ≠ .error .abort := by
        cases hl : tab_lookup sub.fqname st.mtab with
        | some k => simp
        | none =>
          simp only
          have hnot : sub.fqname ∉ mtab_keys st := (tab_lookup_none_iff _ _).1 hl
          exact (hna f.def_ sub st P hsd hnot hinv htab hown).1
      split
      · rename_i e hfd
        refine ⟨?_, fun st2 hr => by cases hr⟩
        intro hc
        simp only [Except.error.injEq] at hc
        subst hc
        exact hfound_na hfd
      · rename_i st1 k hfd
        obtain ⟨hp1, hinv1, hk1, htab1⟩ := hfound (st1, k) hfd
        simp only at hp1 hinv1 hk1 htab1
        have hmh1 := tab_lookup_extends _ _ _ _ hp1 hmh
        have hfresh1 : ¬ (P (m, f) ∨ added_by S st st1 (m, f)) := by
          rintro (h | ⟨md1, hmd1, _, hnot1⟩)
          · exact hfresh h
          · simp only at hmd1
            rw [hm] at hmd1
            cases hmd1
            exact hnot1 hmkey
        split
        · rename_i e hnew
          refine ⟨?_, fun st2 hr => by cases hr⟩
          intro hc
          simp only [Except.error.injEq] at hc
          subst hc
          exact field_subm_no_abort wt S hn hkeys o m md sub mh k f st1 _ hm hf hmh1 hsd hk1
            hinv1 htab1 hfresh1 hnew
        · rename_i h2 fh hnew
          refine ⟨by simp, ?_⟩
          intro st2 hr
          simp only [Except.ok.injEq] at hr
          have h3 := field_subm_tables wt S o fcb closure m md sub mh k f st1 _ h2 fh hm hf
            hmh1 hsd hk1 htab1 hnew
          obtain ⟨hm3, _, _⟩ := call_fieldreg_spec fcb closure fh f { st1 with h := h2 }
          rw [hr] at h3 hm3
          simp only at hm3
          refine tables_from_mono wt S o st2 st2 _ _ (List.prefix_refl _) ?_ (fun _ _ hp => hp) h3
          rintro s ((h | h) | h)
          · exact Or.inl h
          · obtain ⟨md1, hmd1, hin, hnot1⟩ := h
            refine Or.inr (Or.inr ⟨md1, hmd1, ?_, hnot1⟩)
            rw [mtab_keys, hm3]
            exact hin
          · exact Or.inr (Or.inl h)
  · split
    · rename_i e hnew
      refine ⟨?_, fun st2 hr => by cases hr⟩
      intro hc
      simp only [Except.error.injEq] at hc
      subst hc
      exact newfhandlers_scalar_abort wt st.h mh f.number f.type (upb_isseq f) hnew
        (own_key_free wt S hn hkeys o m md mh f st P hm hf hmh hinv htab hfresh)
    · rename_i h2 fh hnew
      refine ⟨by simp, ?_⟩
      intro st2 hr
      simp only [Except.ok.injEq] at hr
      have h3 := field_scalar_tables wt S o fcb closure m md mh f st P h2 fh hm hf hmh htab hnew
      rw [hr] at h3
      refine tables_from_mono wt S o st2 st2 _ _ (List.prefix_refl _) ?_ (fun _ _ hp => hp) h3
      rintro s (h | h)
      · exact Or.inl h
      · exact Or.inr (Or.inl h)

/-- The field loop does not abort when none of the fields still to visit is
accounted for; when it returns, the tables hold in addition only keys of
these fields and of fields of the message definitions registered
meanwhile. -/
theorem regmsg_fields_no_abort (wt : upb_fieldtype_t → Nat) (S : List upb_msgdef)
    (hn : (S.map upb_msgdef.fqname).Nodup) (hkeys : schema_keys_distinct wt S)
    (fcb : Option upb_onfieldreg) (closure o : Nat)
    (dfs : Nat → upb_regstate → Except Fault (upb_regstate × Nat))
    (hsound : dfs_sound wt S o dfs) (hna : dfs_no_abort wt S o dfs)
    (m : Nat) (md : upb_msgdef) (mh : Nat) (hm : S[m]? = some md) :
    ∀ (fs : List upb_fielddef) (st : upb_regstate) (P : Nat × upb_fielddef → Prop),
      (∀ f ∈ fs, f ∈ md.fields) → fs.Nodup → tab_lookup md.fqname st.mtab = some mh →
      reg_inv o st → tables_from wt S o st P → owners_in S st P → (∀ f ∈ fs, ¬ P (m, f)) →
      regmsg_fields wt S fcb closure dfs mh fs st ≠ .error .abort ∧
      ∀ st2, regmsg_fields wt S fcb closure dfs mh fs st = .ok st2 →
        tables_from wt S o st2 (fun s => P s ∨ (s.1 = m ∧ s.2 ∈ fs) ∨ added_by S st st2 s) := by
  intro fs
  induction fs with
  | nil =>
    intro st P _ _ _ _ htab _ _
    refine ⟨by simp [regmsg_fields], ?_⟩
    intro st2 hr
    simp only [regmsg_fields, Except.ok.injEq] at hr
    subst hr
    exact tables_from_mono wt S o st st P _ (List.prefix_refl _) (fun s hs => Or.inl hs)
      (fun _ _ hp => hp) htab
  | cons f fs ih =>
    intro st P hsubset hnd hmh hinv htab hown hfresh
    have hmkey : md.fqname ∈ mtab_keys st := List.mem_map.2 ⟨_, tab_lookup_mem _ _ _ hmh, rfl⟩
    obtain ⟨hna1, hpost1⟩ := regmsg_field_no_abort wt S hn hkeys fcb closure o dfs hsound hna
      m md mh f st P hm (hsubset f (List.mem_cons_self _ _)) hmh hinv htab hown
      (hfresh f (List.mem_cons_self _ _))
    simp only [regmsg_fields]
    split
    · rename_i e hstep
      refine ⟨?_, fun st2 hr => by cases hr⟩
      intro hc
      simp only [Except.error.injEq] at hc
      subst hc
      exact hna1 hstep
    · rename_i st1 hstep
      obtain ⟨hp1, hinv1, _, _, _, _⟩ :=
        regmsg_field_post wt S fcb closure o dfs hsound mh f st st1 hinv hstep
      have htab1 := hpost1 st1 hstep
      have hown1 : owners_in S st1 (fun s => P s ∨ s = (m, f) ∨ added_by S st st1 s) := by
        rintro s (h | h | h)
        · obtain ⟨md1, hmd1, hin⟩ := hown s h
          exact ⟨md1, hmd1, mtab_keys_extends st st1 hp1 _ hin⟩
        · subst h
          exact ⟨md, hm, mtab_keys_extends st st1 hp1 _ hmkey⟩
        · obtain ⟨md1, hmd1, hin, _⟩ := h
          exact ⟨md1, hmd1, hin⟩
      have hfresh1 : ∀ g ∈ fs, ¬ (P (m, g) ∨ (m, g) = (m, f) ∨ added_by S st st1 (m, g)) := by
        rintro g hg (h | h | h)
        · exact hfresh g (List.mem_cons_of_mem _ hg) h
        · have hgf : g = f := (Prod.mk.inj h).2
          subst hgf
          exact (List.nodup_cons.1 hnd).1 hg
        · obtain ⟨md1, hmd1, _, hnot1⟩ := h
          simp only at hmd1
          rw [hm] at hmd1
          cases hmd1
          exact hnot1 hmkey
      obtain ⟨hna2, hpost2⟩ := ih st1 _ (fun g hg => hsubset g (List.mem_cons_of_mem _ hg))
        (List.nodup_cons.1 hnd).2 (tab_lookup_extends _ _ _ _ hp1 hmh) hinv1 htab1 hown1 hfresh1
      refine ⟨hna2, ?_⟩
      intro st2 hr
      obtain ⟨hp2, _, _, _, _, _⟩ :=
        regmsg_fields_post wt S fcb closure o dfs hsound mh fs st1 st2 hinv1 hr
      refine tables_from_mono wt S o st2 st2 _ _ (List.prefix_refl _) ?_ (fun _ _ hp => hp)
        (hpost2 st2 hr)
      rintro s ((h | h | h) | h | h)
      · exact Or.inl h
      · subst h
        exact Or.inr (Or.inl ⟨rfl, List.mem_cons_self _ _⟩)
      · obtain ⟨md1, hmd1, hin, hnot1⟩ := h
        exact Or.inr (Or.inr ⟨md1, hmd1, mtab_keys_extends st1 st2 hp2 _ hin, hnot1⟩)
      · exact Or.inr (Or.inl ⟨h.1, List.mem_cons_of_mem _ h.2⟩)
      · obtain ⟨md1, hmd1, hin, hnot1⟩ := h
        exact Or.inr (Or.inr ⟨md1, hmd1, hin,
          fun hc => hnot1 (mtab_keys_extends st st1 hp1 _ hc)⟩)

/-- A call of the traversal on a message definition whose name is not
registered does not abort on a schema in which no field table is given the
same key twice. -/
theorem regmsg_dfs_no_abort (wt : upb_fieldtype_t → Nat) (S : List upb_msgdef)
    (hn : (S.map upb_msgdef.fqname).Nodup) (hkeys : schema_keys_distinct wt S)
    (mcb : Option upb_onmsgreg) (fcb : Option upb_onfieldreg) (closure o : Nat) :
    ∀ fuel, dfs_no_abort wt S o (upb_regmsg_dfs wt S mcb fcb closure fuel) := by
  intro fuel
  induction fuel with
  | zero =>
    intro j sub st0 P _ _ _ _ _
    exact ⟨by simp [upb_regmsg_dfs], fun st1 k hr => by simp [upb_regmsg_dfs] at hr⟩
  | succ fuel ih =>
    intro m md st P hmd hnot hinv htab hown
    obtain ⟨hinvh, hmt, _⟩ := regmsg_head_inv mcb closure o m md.fqname st hinv hnot
    have hsound := regmsg_dfs_sound wt S hn mcb fcb closure o fuel
    have hph : st.mtab <+: (call_msgreg mcb closure (upb_handlers_newmhandlers st.h).2 m
        { st with h := (upb_handlers_newmhandlers st.h).1,
                  mtab := tab_insert st.mtab md.fqname (upb_handlers_newmhandlers st.h).2 }).mtab := by
      rw [hmt]
      exact List.prefix_append _ _
    have hmh : tab_lookup md.fqname (call_msgreg mcb closure (upb_handlers_newmhandlers st.h).2 m
        { st with h := (upb_handlers_newmhandlers st.h).1,
                  mtab := tab_insert st.mtab md.fqname (upb_handlers_newmhandlers st.h).2 }).mtab =
        some st.h.msgs.length := by
      rw [hmt]
      exact tab_lookup_insert_new _ _ _ ((tab_lookup_none_iff _ _).2 hnot)
    have htabh : tables_from wt S o (call_msgreg mcb closure (upb_handlers_newmhandlers st.h).2 m
        { st with h := (upb_handlers_newmhandlers st.h).1,
                  mtab := tab_insert st.mtab md.fqname (upb_handlers_newmhandlers st.h).2 }) P := by
      refine tables_from_mono wt S o st _ P P hph (fun _ hs => hs) ?_ htab
      intro k t hp
      rw [flookup_call_msgreg, flookup_newmhandlers] at hp
      exact hp
    have hownh : owners_in S (call_msgreg mcb closure (upb_handlers_newmhandlers st.h).2 m
        { st with h := (upb_handlers_newmhandlers st.h).1,
                  mtab := tab_insert st.mtab md.fqname (upb_handlers_newmhandlers st.h).2 }) P := by
      intro s hs
      obtain ⟨md1, hmd1, hin⟩ := hown s hs
      exact ⟨md1, hmd1, mtab_keys_extends _ _ hph _ hin⟩
    have hfresh : ∀ f ∈ md.fields, ¬ P (m, f) := by
      intro f _ hP
      obtain ⟨md1, hmd1, hin⟩ := hown _ hP
      simp only at hmd1
      rw [hmd] at hmd1
      cases hmd1
      exact hnot hin
    obtain ⟨hki, _, _⟩ := newmhandlers_spec st.h
    rw [← hki] at hmh
    obtain ⟨hna, hpost⟩ := regmsg_fields_no_abort wt S hn hkeys fcb closure o _ hsound ih m md
      (upb_handlers_newmhandlers st.h).2 hmd md.fields _ P (fun _ hf => hf)
      (fields_nodup wt S hkeys m md hmd) hmh hinvh htabh hownh hfresh
    simp only [upb_regmsg_dfs, hmd]
    split
    · rename_i e hloop
      refine ⟨?_, fun st1 k hr => by cases hr⟩
      intro hc
      simp only [Except.error.injEq] at hc
      subst hc
      exact hna hloop
    · rename_i stl hloop
      refine ⟨by simp, ?_⟩
      intro st1 k hr
      simp only [Except.ok.injEq, Prod.mk.injEq] at hr
      obtain ⟨rfl, rfl⟩ := hr
      obtain ⟨hp2, _, _, _, _, _⟩ := regmsg_fields_post wt S fcb closure o _ hsound
        (upb_handlers_newmhandlers st.h).2 md.fields _ stl hinvh hloop
      refine tables_from_mono wt S o stl stl _ _ (List.prefix_refl _) ?_ (fun _ _ hp => hp)
        (hpost stl hloop)
      rintro s (h | h | h)
      · exact Or.inl h
      · refine Or.inr ⟨md, ?_, ?_, hnot⟩
        · rw [h.1]
          exact hmd
        · exact mtab_keys_extends _ _ hp2 _ (List.mem_map.2 ⟨_, tab_lookup_mem _ _ _ hmh, rfl⟩)
      · obtain ⟨md1, hmd1, hin, hnot1⟩ := h
        exact Or.inr ⟨md1, hmd1, hin, fun hc => hnot1 (mtab_keys_extends _ _ hph _ hc)⟩

/-- C14, as stated, fails on two schemas in which no message definition
declares two fields with the same key. In the first, with distinct names,
`A` and `B` each declare a group field number 1 of type `G`: the second
end-of-group pseudo-field has the key that the first one already has in the
handler set of `G`, and the registration aborts. In the second, in which no
field table is given the same key twice by definition, two message
definitions carry the name `B` and share a handler set, which is given the
key of the end-of-group pseudo-field of field 5 twice, and the registration
aborts. -/
theorem regmsgdef_pseudo_key_counterexample :
    ((sample_shared_group_schema.map upb_msgdef.fqname).Nodup ∧
      schema_wf sample_shared_group_schema ∧
      (∀ md ∈ sample_shared_group_schema, (own_keys sample_wire_type md).Nodup) ∧
      upb_handlers_regmsgdef sample_wire_type sample_shared_group_schema 4 upb_handlers_new 0
        none none 0 = .error .abort) ∧
    (schema_wf sample_samename_group_schema ∧
      schema_keys_distinct sample_wire_type sample_samename_group_schema ∧
      upb_handlers_regmsgdef sample_wire_type sample_samename_group_schema 3 upb_handlers_new 0
        none none 0 = .error .abort) := by
  refine ⟨⟨by decide, by unfold schema_wf; decide, by decide, by rfl⟩,
    by unfold schema_wf; decide, by unfold schema_keys_distinct; decide, by rfl⟩

/-- C14 (amended): on a schema whose message types have distinct names and
whose fields point into the schema, and in which no field table is given the
same key twice (for each message definition the keys of its fields and the
keys of the end-of-group pseudo-fields of the group fields that refer to it
are pairwise distinct), `upb_handlers_regmsgdef` returns: it does not abort.
And `_upb_mhandlers_newfhandlers` aborts exactly when the handler set exists
and the computed key is in its field table. -/
theorem regmsgdef_aborts_only_on_dup_key (wt : upb_fieldtype_t → Nat) (S : List upb_msgdef)
    (mcb : Option upb_onmsgreg) (fcb : Option upb_onfieldreg) (closure fuel : Nat)
    (h : upb_handlers) (root : Nat)
    (hn : (S.map upb_msgdef.fqname).Nodup) (hwf : schema_wf S) (hroot : root < S.length)
    (hfuel : S.length ≤ fuel) (hkeys : schema_keys_distinct wt S) :
    (∃ st ret,
      upb_regmsg_dfs wt S mcb fcb closure fuel root (reg_start h) = .ok (st, ret) ∧
      upb_handlers_regmsgdef wt S fuel h root mcb fcb closure = .ok (st.h, ret, st.calls)) ∧
    (∀ (h1 : upb_handlers) (m n : Nat) (type : upb_fieldtype_t) (repeated : Bool),
      _upb_mhandlers_newfhandlers wt h1 m n type repeated = .error .abort ↔
        ∃ mh, h1.msgs[m]? = some mh ∧ tab_lookup (field_tag wt n type) mh.fieldtab ≠ none) := by
  constructor
  · have hmd0 : S[root]? = some S[root] := List.getElem?_eq_getElem hroot
    have hstart : ∀ key : String, key ∉ mtab_keys (reg_start h) := by
      intro key
      simp [mtab_keys, reg_start]
    have hret := regmsg_dfs_returns wt S hn hwf mcb fcb closure h.msgs.length fuel
      root _ (reg_start h) hmd0 (hstart _) (reg_start_inv h)
      (Nat.le_trans (unregistered_le S _) hfuel)
    have htab : tables_from wt S h.msgs.length (reg_start h) (fun _ => False) := by
      intro k t hk hpres
      exfalso
      apply hpres
      unfold flookup
      rw [List.getElem?_eq_none (by simpa [reg_start] using hk)]
    have hna := (regmsg_dfs_no_abort wt S hn hkeys mcb fcb closure h.msgs.length fuel root _
      (reg_start h) (fun _ => False) hmd0 (hstart _) (reg_start_inv h) htab
      (fun _ hs => absurd hs id)).1
    rcases hret with ⟨⟨st, ret⟩, hr⟩ | hr
    · exact ⟨st, ret, hr, by simp [upb_handlers_regmsgdef, hr]⟩
    · exact absurd hr hna
  · intro h1 m n type repeated
    rw [newfhandlers_abort_iff]
    unfold flookup
    constructor
    · intro hp
      cases hx : h1.msgs[m]? with
      | none => rw [hx] at hp; exact absurd rfl hp
      | some mh =>
        rw [hx] at hp
        exact ⟨mh, rfl, hp⟩
    · rintro ⟨mh, hx, hp⟩
      rw [hx]
      exact hp

/-- Witness of C14 (amended): the sample schema with cycles, in which `A` has
a group field of type `G` and `G` a group field of its own type, registered
on a new registry. -/
theorem regmsgdef_aborts_only_on_dup_key_witness :
    (∃ st ret,
      upb_regmsg_dfs sample_wire_type sample_schema (some sample_onmsgreg)
        (some sample_onfieldreg) 0 4 0 (reg_start upb_handlers_new) = .ok (st, ret) ∧
      upb_handlers_regmsgdef sample_wire_type sample_schema 4 upb_handlers_new 0
        (some sample_onmsgreg) (some sample_onfieldreg) 0 = .ok (st.h, ret, st.calls)) ∧
    (∀ (h1 : upb_handlers) (m n : Nat) (type : upb_fieldtype_t) (repeated : Bool),
      _upb_mhandlers_newfhandlers sample_wire_type h1 m n type repeated = .error .abort ↔
        ∃ mh, h1.msgs[m]? = some mh ∧
          tab_lookup (field_tag sample_wire_type n type) mh.fieldtab ≠ none) :=
  regmsgdef_aborts_only_on_dup_key sample_wire_type sample_schema (some sample_onmsgreg)
    (some sample_onfieldreg) 0 4 upb_handlers_new 0 (by decide) (by unfold schema_wf; decide)
    (by decide) (by decide) (by unfold schema_keys_distinct; decide)

end Upb
